import Mathlib

/-!
# C4Network2Res: chunk maps, resource cores, load scheduling and resource ids

A shallow embedding of `src/C4Network2Res.cpp` (LegacyClonk).  Linked lists become
Lean lists, `int32_t` values are integers whose arithmetic is wrapped into the
32-bit two's-complement range by `wrap32`, `uint32_t` arithmetic is reduced modulo
`2^32` by `wrapU32`.  File system, network and random number results enter the
model as explicit arguments.
-/

set_option autoImplicit false

/-! ## Machine integers -/

/-- Two's-complement wrap of an integer into the `int32_t` range. -/
def wrap32 (x : Int) : Int := (x + 2147483648) % 4294967296 - 2147483648

/-- Reduction of an integer into the `uint32_t` range. -/
def wrapU32 (x : Int) : Int := x % 4294967296

/-- The value is representable as an `int32_t`. -/
def isInt32 (x : Int) : Prop := -2147483648 ≤ x ∧ x < 2147483648

instance (x : Int) : Decidable (isInt32 x) := by unfold isInt32; infer_instance

/-! ## C4Network2ResChunkData -/

/-- One node of the range list (`ChunkRange`): the chunks `Start .. Start + Length - 1`. -/
structure ChunkRange where
  Start : Int
  Length : Int
  deriving DecidableEq

/-- The chunk map `C4Network2ResChunkData`; `pChunkRanges` is the linked list of ranges. -/
structure C4Network2ResChunkData where
  iChunkCnt : Int
  iPresentChunkCnt : Int
  pChunkRanges : List ChunkRange
  iChunkRangeCnt : Int
  deriving DecidableEq

/-- A position inside the range list during `AddChunkRange`: the node handed to
`MergeRanges`, the nodes linked behind it, and the two counters of the map. -/
structure MergeCursor where
  pRange : ChunkRange
  pNext : List ChunkRange
  iPresentChunkCnt : Int
  iChunkRangeCnt : Int
  deriving DecidableEq

namespace C4Network2ResChunkData

/-- The default constructor: an empty map over zero chunks. -/
def new : C4Network2ResChunkData :=
  { iChunkCnt := 0, iPresentChunkCnt := 0, pChunkRanges := [], iChunkRangeCnt := 0 }

/-- `Clear`: all counters zero, all ranges removed. -/
def Clear (_d : C4Network2ResChunkData) : C4Network2ResChunkData :=
  { iChunkCnt := 0, iPresentChunkCnt := 0, pChunkRanges := [], iChunkRangeCnt := 0 }

/-- `SetIncomplete`: clear, then set the total chunk count. -/
def SetIncomplete (d : C4Network2ResChunkData) (inChunkCnt : Int) : C4Network2ResChunkData :=
  { d.Clear with iChunkCnt := inChunkCnt }

/-- `SetComplete`: clear, set both counts, create the one range `[0, inChunkCnt)`.
The range counter is left at the zero that `Clear` wrote. -/
def SetComplete (d : C4Network2ResChunkData) (inChunkCnt : Int) : C4Network2ResChunkData :=
  { d.Clear with
    iChunkCnt := inChunkCnt
    iPresentChunkCnt := inChunkCnt
    pChunkRanges := [{ Start := 0, Length := inChunkCnt }] }

/-- `MergeRanges(pRange)`: `none` is the source's `false` (nothing merged), `some` the
state after the successor has been merged into `pRange`. -/
def MergeRanges (s : MergeCursor) : Option MergeCursor :=
  match s.pNext with
  | [] => none
  | pNext :: rest =>
    if wrap32 (s.pRange.Start + s.pRange.Length) < pNext.Start then none
    else
      let iOverlap := min (wrap32 (wrap32 (s.pRange.Start + s.pRange.Length) - pNext.Start)) pNext.Length
      some
        { pRange := { Start := s.pRange.Start,
                      Length := wrap32 (s.pRange.Length + wrap32 (pNext.Length - iOverlap)) }
          pNext := rest
          iPresentChunkCnt := wrap32 (s.iPresentChunkCnt - iOverlap)
          iChunkRangeCnt := wrap32 (s.iChunkRangeCnt - 1) }

/-- The loop `while (MergeRanges(p));`, at most `fuel` successful merges. -/
def MergeRangesWhile : Nat → MergeCursor → MergeCursor
  | 0, s => s
  | fuel + 1, s =>
    match MergeRanges s with
    | none => s
    | some s1 => MergeRangesWhile fuel s1

/-- The position search of `AddChunkRange`: walk the list until the first range with
`Start >= iStart`.  Returns the ranges walked over, last one first (its head is `pPrev`),
and the remaining list (its head is `pRange`). -/
def findPos (iStart : Int) : List ChunkRange → List ChunkRange → List ChunkRange × List ChunkRange
  | passed, [] => (passed, [])
  | passed, r :: rest =>
    if r.Start ≥ iStart then (passed, r :: rest) else findPos iStart (r :: passed) rest

/-- `AddChunkRange`. -/
def AddChunkRange (d : C4Network2ResChunkData) (iStart iLength : Int) : C4Network2ResChunkData :=
  if iStart < 0 ∨ wrap32 (iStart + iLength) > d.iChunkCnt ∨ iLength ≤ 0 then d
  else
    let pos := findPos iStart [] d.pChunkRanges
    let pNew : ChunkRange := { Start := iStart, Length := iLength }
    let iPresent := wrap32 (d.iPresentChunkCnt + iLength)
    let iRangeCnt := wrap32 (d.iChunkRangeCnt + 1)
    let atNew : MergeCursor :=
      { pRange := pNew, pNext := pos.2, iPresentChunkCnt := iPresent, iChunkRangeCnt := iRangeCnt }
    match pos.1 with
    | [] =>
      let s := MergeRangesWhile pos.2.length atNew
      { d with pChunkRanges := s.pRange :: s.pNext
               iPresentChunkCnt := s.iPresentChunkCnt
               iChunkRangeCnt := s.iChunkRangeCnt }
    | pPrev :: before =>
      match MergeRanges { pRange := pPrev, pNext := pNew :: pos.2,
                          iPresentChunkCnt := iPresent, iChunkRangeCnt := iRangeCnt } with
      | some s1 =>
        let s := MergeRangesWhile pos.2.length s1
        { d with pChunkRanges := before.reverse ++ s.pRange :: s.pNext
                 iPresentChunkCnt := s.iPresentChunkCnt
                 iChunkRangeCnt := s.iChunkRangeCnt }
      | none =>
        let s := MergeRangesWhile pos.2.length atNew
        { d with pChunkRanges := before.reverse ++ pPrev :: s.pRange :: s.pNext
                 iPresentChunkCnt := s.iPresentChunkCnt
                 iChunkRangeCnt := s.iChunkRangeCnt }

/-- `AddChunk`. -/
def AddChunk (d : C4Network2ResChunkData) (iChunk : Int) : C4Network2ResChunkData :=
  d.AddChunkRange iChunk 1

/-- `Merge`: add every range of `Data2` (the `assert` on equal chunk counts compiles
to nothing in a release build and is not part of the state change). -/
def Merge (d Data2 : C4Network2ResChunkData) : C4Network2ResChunkData :=
  Data2.pChunkRanges.foldl (fun acc r => acc.AddChunkRange r.Start r.Length) d

/-- The assignment operator `operator=`: `SetIncomplete` followed by `Merge`. -/
def assign (d Data2 : C4Network2ResChunkData) : C4Network2ResChunkData :=
  (d.SetIncomplete Data2.iChunkCnt).Merge Data2

/-- The copy constructor: fresh counters over `Data2`s chunk count, then `Merge`. -/
def copy (Data2 : C4Network2ResChunkData) : C4Network2ResChunkData :=
  Merge { iChunkCnt := Data2.iChunkCnt, iPresentChunkCnt := 0, pChunkRanges := [],
          iChunkRangeCnt := 0 } Data2

/-- The loop of `GetNegative`: for every range add the gap in front of it to the target
and move `iFreeStart` behind it. -/
def GetNegativeLoop : List ChunkRange → Int → C4Network2ResChunkData → Int × C4Network2ResChunkData
  | [], iFreeStart, Target => (iFreeStart, Target)
  | r :: rest, iFreeStart, Target =>
    GetNegativeLoop rest (wrap32 (r.Start + r.Length))
      (Target.AddChunkRange iFreeStart (wrap32 (r.Start - iFreeStart)))

/-- `GetNegative(Target)`, returning the new value of `Target`. -/
def GetNegative (d Target : C4Network2ResChunkData) : C4Network2ResChunkData :=
  let st := GetNegativeLoop d.pChunkRanges 0 (Target.SetIncomplete d.iChunkCnt)
  st.2.AddChunkRange st.1 (wrap32 (d.iChunkCnt - st.1))

/-- The loop of `getPresentChunk`. -/
def getPresentChunkLoop : List ChunkRange → Int → Int
  | [], _ => -1
  | r :: rest, iNr =>
    if iNr < r.Length then wrap32 (iNr + r.Start)
    else getPresentChunkLoop rest (wrap32 (iNr - r.Length))

/-- `getPresentChunk`. -/
def getPresentChunk (d : C4Network2ResChunkData) (iNr : Int) : Int :=
  getPresentChunkLoop d.pChunkRanges iNr

/-- Modelled from the spec: the accessor `isComplete` of the class declaration, which is
not part of the source file; the spec calls a map full when all of its `chunkCnt` chunks
are present (`presentChunkCnt == chunkCnt`). -/
def isComplete (d : C4Network2ResChunkData) : Bool :=
  d.iPresentChunkCnt == d.iChunkCnt

/-- `GetChunkToRetrieve`; `pLoading` is the array of `iLoadingCnt` in-flight chunk
numbers, `SafeRandom` the random source (called with the number of candidates). -/
def GetChunkToRetrieve (d Available : C4Network2ResChunkData) (pLoading : List Int)
    (SafeRandom : Int → Int) : Int :=
  let ChData := Available.GetNegative new
  let ChData := ChData.Merge d
  let ChData := pLoading.foldl (fun acc c => acc.AddChunk c) ChData
  if ChData.isComplete then -1
  else
    let ChData2 := ChData.GetNegative new
    let iRetrieveChunk := SafeRandom ChData2.iPresentChunkCnt
    ChData2.getPresentChunk iRetrieveChunk

end C4Network2ResChunkData


/-! ## Well-formed chunk maps -/

namespace C4Network2ResChunkData

/-- Consecutive ranges are separated by at least one absent chunk: sorted by start,
not overlapping, not adjacent. -/
def Gapped : List ChunkRange → Prop
  | [] => True
  | [_] => True
  | a :: b :: rest => a.Start + a.Length < b.Start ∧ Gapped (b :: rest)

instance decGapped : (l : List ChunkRange) → Decidable (Gapped l)
  | [] => isTrue trivial
  | [_] => isTrue trivial
  | a :: b :: rest =>
    match decGapped (b :: rest) with
    | isTrue h => if h1 : a.Start + a.Length < b.Start then isTrue ⟨h1, h⟩
                  else isFalse (fun h2 => h1 h2.1)
    | isFalse h => isFalse (fun h2 => h h2.2)

/-- The range lies inside `[0, n)` and has a non-negative length. -/
def rangeOk (n : Int) (r : ChunkRange) : Prop :=
  0 ≤ r.Start ∧ 0 ≤ r.Length ∧ r.Start + r.Length ≤ n

instance (n : Int) (r : ChunkRange) : Decidable (rangeOk n r) := by
  unfold rangeOk; infer_instance

/-- Sum of the lengths of the ranges. -/
def sumLen : List ChunkRange → Int
  | [] => 0
  | r :: rest => r.Length + sumLen rest

/-- Chunk `c` lies in one of the ranges. -/
def inRanges (l : List ChunkRange) (c : Int) : Prop :=
  ∃ r ∈ l, r.Start ≤ c ∧ c < r.Start + r.Length

instance (l : List ChunkRange) (c : Int) : Decidable (inRanges l c) := by
  unfold inRanges; infer_instance

/-- Chunk `c` is present in the map. -/
def isPresent (d : C4Network2ResChunkData) (c : Int) : Prop := inRanges d.pChunkRanges c

instance (d : C4Network2ResChunkData) (c : Int) : Decidable (isPresent d c) := by
  unfold isPresent; infer_instance

/-- The invariant of the chunk map: a 32-bit chunk count, every range inside
`[0, iChunkCnt)`, ranges sorted with gaps, and the present counter equal to the sum of the
range lengths. -/
def WellFormed (d : C4Network2ResChunkData) : Prop :=
  0 ≤ d.iChunkCnt ∧ d.iChunkCnt < 2147483648 ∧
  (∀ r ∈ d.pChunkRanges, rangeOk d.iChunkCnt r) ∧
  Gapped d.pChunkRanges ∧
  d.iPresentChunkCnt = sumLen d.pChunkRanges

instance (d : C4Network2ResChunkData) : Decidable (WellFormed d) := by
  unfold WellFormed; infer_instance

end C4Network2ResChunkData

namespace C4Network2ResChunkData

/-- The chunk numbers covered by a list of ranges, in list order. -/
def chunksOf : List ChunkRange → List Int
  | [] => []
  | r :: rest => (List.range r.Length.toNat).map (fun (i : Nat) => r.Start + (i : Int)) ++ chunksOf rest

/-- The chunks worth requesting, in increasing order: present at the peer, absent here
and not in flight. -/
def candidates (d Available : C4Network2ResChunkData) (pLoading : List Int) : List Int :=
  ((List.range d.iChunkCnt.toNat).map (fun (i : Nat) => (i : Int))).filter
    (fun c => decide (isPresent Available c ∧ ¬ isPresent d c ∧ c ∉ pLoading))

end C4Network2ResChunkData

namespace C4Network2ResChunkData

/-- The chunk maps built from `SetIncomplete(n)` or `SetComplete(n)` with a 32-bit
`n >= 0` by `AddChunk`, `AddChunkRange`, `Merge` with equal chunk counts, `GetNegative`,
assignment and copy construction, where the arguments of `AddChunk` and `AddChunkRange`
are 32-bit values whose sum `iStart + iLength` is a 32-bit value too. -/
inductive Built : C4Network2ResChunkData → Prop where
  | setIncomplete (d : C4Network2ResChunkData) (n : Int) :
      0 ≤ n → n < 2147483648 → Built (d.SetIncomplete n)
  | setComplete (d : C4Network2ResChunkData) (n : Int) :
      0 ≤ n → n < 2147483648 → Built (d.SetComplete n)
  | addChunk (d : C4Network2ResChunkData) (iChunk : Int) :
      Built d → isInt32 iChunk → isInt32 (iChunk + 1) → Built (d.AddChunk iChunk)
  | addChunkRange (d : C4Network2ResChunkData) (iStart iLength : Int) :
      Built d → isInt32 iStart → isInt32 iLength → isInt32 (iStart + iLength) →
      Built (d.AddChunkRange iStart iLength)
  | merge (d Data2 : C4Network2ResChunkData) :
      Built d → Built Data2 → d.iChunkCnt = Data2.iChunkCnt → Built (d.Merge Data2)
  | getNegative (d Target : C4Network2ResChunkData) : Built d → Built (d.GetNegative Target)
  | assign (d Data2 : C4Network2ResChunkData) : Built Data2 → Built (d.assign Data2)
  | copy (Data2 : C4Network2ResChunkData) : Built Data2 → Built (copy Data2)

end C4Network2ResChunkData

/-! ## The wire

The packets are written and read through `StdCompiler`, which is not part of this source
file.  A serialised value is modelled as the sequence of the field values handed to
`StdCompiler::Value`, in call order; field names and separators carry no data. -/

/-- One field value on the wire. -/
inductive WireValue where
  | int (v : Int)
  | bool (b : Bool)
  | str (s : String)
  | bytes (b : List Nat)
  deriving DecidableEq

/-- Errors raised while compiling or decompiling. -/
inductive CompileError where
  | corrupt (msg : String)
  | eof
  | nullRange
  deriving DecidableEq

/-! ## C4Network2ResCore -/

/-- The resource type `C4Network2ResType`. -/
inductive C4Network2ResType where
  | NRT_Null
  | NRT_Scenario
  | NRT_Dynamic
  | NRT_Player
  | NRT_Definitions
  | NRT_System
  | NRT_Material
  deriving DecidableEq

namespace C4Network2ResType

/-- The enumerator value written by the `uint8_t` enum adaptor. -/
def toCode : C4Network2ResType → Int
  | NRT_Null => 0
  | NRT_Scenario => 1
  | NRT_Dynamic => 2
  | NRT_Player => 3
  | NRT_Definitions => 4
  | NRT_System => 5
  | NRT_Material => 6

/-- The enumerator read back from its value. -/
def ofCode (v : Int) : Option C4Network2ResType :=
  if v = 0 then some NRT_Null
  else if v = 1 then some NRT_Scenario
  else if v = 2 then some NRT_Dynamic
  else if v = 3 then some NRT_Player
  else if v = 4 then some NRT_Definitions
  else if v = 5 then some NRT_System
  else if v = 6 then some NRT_Material
  else none

end C4Network2ResType

/-- The resource core `C4Network2ResCore`.  The `uint32_t` fields hold values in
`[0, 2^32)`; `~0u` is `4294967295`. -/
structure C4Network2ResCore where
  eType : C4Network2ResType
  iID : Int
  iDerID : Int
  fLoadable : Bool
  iFileSize : Int
  iFileCRC : Int
  iContentsCRC : Int
  iChunkSize : Int
  fHasFileSHA : Bool
  FileSHA : List Nat
  FileName : String
  Author : String
  deriving DecidableEq

/-- The pieces of the environment of `C4Network2ResCore` that live outside the source
file: the compile-time chunk size `C4NetResChunkSize` and the two directions of the
net-filename adaptor `mkNetFilenameAdapt`. -/
structure CoreEnv where
  C4NetResChunkSize : Int
  netFilenameWrite : String → String
  netFilenameRead : String → String

namespace C4Network2ResCore

/-- The default constructor. -/
def new (env : CoreEnv) : C4Network2ResCore :=
  { eType := .NRT_Null, iID := -1, iDerID := -1, fLoadable := false,
    iFileSize := 4294967295, iFileCRC := 4294967295, iContentsCRC := 4294967295,
    iChunkSize := env.C4NetResChunkSize, fHasFileSHA := false, FileSHA := [],
    FileName := "", Author := "" }

/-- `Set`. -/
def Set (env : CoreEnv) (c : C4Network2ResCore) (enType : C4Network2ResType) (iResID : Int)
    (strFileName : String) (inContentsCRC : Int) (strAuthor : String) : C4Network2ResCore :=
  { c with eType := enType, iID := iResID, iDerID := -1, fLoadable := false,
           iFileSize := 4294967295, iFileCRC := 4294967295, iContentsCRC := inContentsCRC,
           iChunkSize := env.C4NetResChunkSize, FileName := strFileName, Author := strAuthor }

/-- `SetLoadable`. -/
def SetLoadable (c : C4Network2ResCore) (iSize iCRC : Int) : C4Network2ResCore :=
  { c with fLoadable := true, iFileSize := iSize, iFileCRC := iCRC }

/-- `Clear`: every field but the chunk size and the SHA bytes is reset. -/
def Clear (c : C4Network2ResCore) : C4Network2ResCore :=
  { c with eType := .NRT_Null, iID := -1, iDerID := -1, fLoadable := false,
           FileName := "", Author := "",
           iFileSize := 4294967295, iFileCRC := 4294967295, iContentsCRC := 4294967295,
           fHasFileSHA := false }

/-- Modelled from the spec: the accessor `getChunkCnt` of the class declaration, which is
not part of the source file; the number of chunks of a file of `iFileSize` bytes cut into
chunks of `iChunkSize` bytes is the quotient rounded up, zero for an empty file. -/
def getChunkCnt (c : C4Network2ResCore) : Int :=
  if c.iFileSize ≠ 0 ∧ c.iChunkSize ≠ 0 then wrapU32 ((c.iFileSize - 1) / c.iChunkSize + 1) else 0

/-- `CompileFunc` on a writing compiler: the values handed to the compiler, or the
corruption error raised for a loadable core with chunk size zero. -/
def CompileFuncWrite (env : CoreEnv) (c : C4Network2ResCore) : Except CompileError (List WireValue) :=
  let head := [WireValue.int c.eType.toCode, .int c.iID, .int c.iDerID, .bool c.fLoadable]
  let tail := [WireValue.int c.iContentsCRC, .bool c.fHasFileSHA]
    ++ (if c.fHasFileSHA then [WireValue.bytes c.FileSHA] else [])
    ++ [WireValue.str (env.netFilenameWrite c.FileName), .str (env.netFilenameWrite c.Author)]
  if c.fLoadable then
    if c.iChunkSize = 0 then .error (.corrupt "zero chunk size")
    else .ok (head ++ [.int c.iFileSize, .int c.iFileCRC, .int c.iChunkSize] ++ tail)
  else .ok (head ++ tail)

/-- The part of `CompileFunc` on a reading compiler behind the loadable block:
`ContentsCRC`, the SHA count, the SHA, the file name and the author. -/
def CompileFuncReadTail (env : CoreEnv) (c : C4Network2ResCore) :
    List WireValue → Except CompileError C4Network2ResCore
  | .int crc :: .bool false :: .str fn :: .str au :: [] =>
    .ok { c with iContentsCRC := crc, fHasFileSHA := false,
                 FileName := env.netFilenameRead fn, Author := env.netFilenameRead au }
  | .int crc :: .bool true :: .bytes sha :: .str fn :: .str au :: [] =>
    .ok { c with iContentsCRC := crc, fHasFileSHA := true, FileSHA := sha,
                 FileName := env.netFilenameRead fn, Author := env.netFilenameRead au }
  | _ => .error .eof

/-- `CompileFunc` on a reading compiler: the fields of `c` are overwritten with the
values read; the size, CRC and chunk size only when the wire says loadable. -/
def CompileFuncRead (env : CoreEnv) (c : C4Network2ResCore) :
    List WireValue → Except CompileError C4Network2ResCore
  | .int ty :: .int id :: .int der :: .bool true :: .int size :: .int crc :: .int chunk :: rest =>
    match C4Network2ResType.ofCode ty with
    | none => .error (.corrupt "type")
    | some t =>
      if chunk = 0 then .error (.corrupt "zero chunk size")
      else CompileFuncReadTail env
        { c with eType := t, iID := id, iDerID := der, fLoadable := true,
                 iFileSize := size, iFileCRC := crc, iChunkSize := chunk } rest
  | .int ty :: .int id :: .int der :: .bool false :: rest =>
    match C4Network2ResType.ofCode ty with
    | none => .error (.corrupt "type")
    | some t =>
      CompileFuncReadTail env { c with eType := t, iID := id, iDerID := der, fLoadable := false } rest
  | _ => .error .eof

end C4Network2ResCore

namespace C4Network2ResChunkData

/-- The first `n` ranges as wire values, `none` when the list has fewer than `n` nodes
(the source then follows a null pointer). -/
def rangesToWire : Nat → List ChunkRange → Option (List WireValue)
  | 0, _ => some []
  | _ + 1, [] => none
  | n + 1, r :: rest =>
    match rangesToWire n rest with
    | none => none
    | some w => some (.int r.Start :: .int r.Length :: w)

/-- `CompileFunc` on a writing compiler: chunk count, range counter, then as many ranges
as the range counter says. -/
def CompileFuncWrite (d : C4Network2ResChunkData) : Except CompileError (List WireValue) :=
  match rangesToWire d.iChunkRangeCnt.toNat d.pChunkRanges with
  | none => .error .nullRange
  | some w => .ok (.int d.iChunkCnt :: .int d.iChunkRangeCnt :: w)

/-- Reading `n` ranges; the wire has to end behind them. -/
def rangesFromWire : Nat → List WireValue → Except CompileError (List ChunkRange)
  | 0, [] => .ok []
  | 0, _ :: _ => .error (.corrupt "trailing data")
  | n + 1, .int s :: .int l :: rest =>
    match rangesFromWire n rest with
    | .error e => .error e
    | .ok rs => .ok ({ Start := s, Length := l } :: rs)
  | _ + 1, _ => .error .eof

/-- `CompileFunc` on a reading compiler: `Clear`, then chunk count, range counter and
the ranges are read; the present counter keeps the zero that `Clear` wrote. -/
def CompileFuncRead (d : C4Network2ResChunkData) : List WireValue → Except CompileError C4Network2ResChunkData
  | .int cnt :: .int rangeCnt :: rest =>
    match rangesFromWire rangeCnt.toNat rest with
    | .error e => .error e
    | .ok rs => .ok { d.Clear with iChunkCnt := cnt, iChunkRangeCnt := rangeCnt, pChunkRanges := rs }
  | _ => .error .eof

end C4Network2ResChunkData

/-! ## C4Network2ResChunk -/

/-- The data packet `C4Network2ResChunk`: resource id, chunk number (`uint32_t`) and the
bytes. -/
structure C4Network2ResChunk where
  iResID : Int
  iChunk : Int
  Data : List Nat
  deriving DecidableEq

/-- Conversion of an `int32_t` to the 64-bit `size_t`. -/
def wrapU64 (x : Int) : Int := x % 18446744073709551616

/-- `write` of `data` at byte `offset` of a file; a gap behind the old end reads as
zero bytes. -/
def writeAt (file : List Nat) (offset : Nat) (data : List Nat) : List Nat :=
  (file ++ List.replicate (offset - file.length) 0).take offset ++ data
    ++ file.drop (offset + data.length)

/-! ## C4Network2Res -/

/-- One outstanding request (`C4Network2ResLoad`). -/
structure C4Network2ResLoad where
  iChunk : Int
  iByClient : Int
  Timestamp : Int
  deriving DecidableEq

/-- The availability record of one peer (`ClientChunks`). -/
structure ClientChunks where
  ClientID : Int
  Chunks : C4Network2ResChunkData
  deriving DecidableEq

/-- What an entity hands to its parent list and to the network. -/
inductive NetEvent where
  | ResRequest (iToClient iResID iChunk : Int)
  | ResComplete (iResID : Int)
  deriving DecidableEq

/-- The compile-time tunables of the load scheduler, declared outside the source file. -/
structure LoadLimits where
  C4NetResMaxLoad : Int
  C4NetResMaxLoadPerPeerPerFile : Int
  C4NetResLoadTimeout : Int
  C4NetResDiscoverTimeout : Int

/-- The answers of the outside world to one call of `StartLoad`: the random source, the
message connection of a client (`none`: no connection, `some b`: `Send` returns `b`) and
the clock. -/
structure LoadEnv where
  SafeRandom : Int → Int
  msgConnection : Int → Option Bool
  time : Int

/-- The results of the file calls of `AddTo`. -/
structure FileResult where
  openOk : Bool
  seekOk : Bool
  writeOk : Bool

/-- The entity `C4Network2Res`.  `fileData` is the content of the file `szStandalone`,
`events` the calls made to the parent list and the network so far, newest first. -/
structure C4Network2Res where
  Core : C4Network2ResCore
  Chunks : C4Network2ResChunkData
  fDirty : Bool
  fTempFile : Bool
  fStandaloneFailed : Bool
  fRemoved : Bool
  iLastReqTime : Int
  fLoading : Bool
  pCChunks : List ClientChunks
  iDiscoverStartTime : Int
  pLoads : List C4Network2ResLoad
  iLoadCnt : Int
  szFile : String
  szStandalone : String
  fileData : List Nat
  events : List NetEvent

namespace C4Network2ResChunk

/-- `Set`: the chunk `inChunk` of a resource with core `Core` whose standalone file can
be opened with content `file` (`none`: `OpenFileRead` fails).  The size is the rest of the
file behind the offset, capped by the compile-time `C4NetResChunkSize`.  `lseek` to a
negative offset fails with `-1`, which the source takes for success when the offset
itself is `-1`; the read then starts at the beginning of the file. -/
def Set (C4NetResChunkSize : Int) (Core : C4Network2ResCore) (file : Option (List Nat))
    (inChunk : Int) : Option C4Network2ResChunk :=
  let iOffset := wrap32 (wrapU32 (inChunk * Core.iChunkSize))
  let iSize := min (wrap32 (wrapU32 (Core.iFileSize - wrapU32 iOffset))) (wrap32 C4NetResChunkSize)
  if iSize < 0 then none
  else
    match file with
    | none => none
    | some bytes =>
      if iOffset < -1 then none
      else
        let buf := (bytes.drop iOffset.toNat).take iSize.toNat
        if (buf.length : Int) ≠ iSize then none
        else some { iResID := Core.iID, iChunk := inChunk, Data := buf }

/-- The bounds check of `AddTo`: offset (an `int32_t`) plus data size (a `size_t`)
against the file size. -/
def exceedsFile (c : C4Network2ResChunk) (Core : C4Network2ResCore) : Bool :=
  decide (wrapU64 (wrap32 (wrapU32 (c.iChunk * Core.iChunkSize)) + c.Data.length) > Core.iFileSize)

/-- `AddTo`: id check, bounds check, open, seek, write, then `AddChunk`. -/
def AddTo (c : C4Network2ResChunk) (pRes : C4Network2Res) (io : FileResult) :
    C4Network2Res × Bool :=
  if c.iResID ≠ pRes.Core.iID then (pRes, false)
  else
    let iOffset := wrap32 (wrapU32 (c.iChunk * pRes.Core.iChunkSize))
    if c.exceedsFile pRes.Core then (pRes, false)
    else if !io.openOk then (pRes, false)
    else if iOffset ≠ 0 ∧ !io.seekOk then (pRes, false)
    else if !io.writeOk then (pRes, false)
    else
      ({ pRes with fileData := writeAt pRes.fileData iOffset.toNat c.Data
                   Chunks := pRes.Chunks.AddChunk (wrap32 c.iChunk) }, true)

end C4Network2ResChunk

namespace C4Network2Res

/-- The constructor. -/
def new (env : CoreEnv) : C4Network2Res :=
  { Core := C4Network2ResCore.new env, Chunks := C4Network2ResChunkData.new,
    fDirty := false, fTempFile := false, fStandaloneFailed := false, fRemoved := false,
    iLastReqTime := 0, fLoading := false, pCChunks := [], iDiscoverStartTime := 0,
    pLoads := [], iLoadCnt := 0, szFile := "", szStandalone := "", fileData := [],
    events := [] }

/-- `RemoveLoad` applied to every load of the list that satisfies `p`, in list order:
each one is unlinked and the load counter decremented. -/
def removeLoadsWhere (p : C4Network2ResLoad → Bool) (r : C4Network2Res) : C4Network2Res :=
  { r with pLoads := r.pLoads.filter (fun l => !p l)
           iLoadCnt := wrap32 (r.iLoadCnt - (r.pLoads.filter p).length) }

/-- `ClearLoad`. -/
def ClearLoad (r : C4Network2Res) : C4Network2Res :=
  { r with fLoading := false, pCChunks := [], pLoads := [], iDiscoverStartTime := 0,
           iLoadCnt := 0 }

/-- `Clear`. -/
def Clear (r : C4Network2Res) : C4Network2Res :=
  ClearLoad { r with szFile := "", szStandalone := "", fileData := [], fDirty := false,
                     fTempFile := false, Core := r.Core.Clear, Chunks := r.Chunks.Clear,
                     fRemoved := false }

/-- `EndLoad`: clear the loading data and call the parent's `OnResComplete`. -/
def EndLoad (r : C4Network2Res) : C4Network2Res :=
  let r := r.ClearLoad
  { r with fLoading := false, events := .ResComplete r.Core.iID :: r.events }

/-- `SetLoad`; `tempName` is the result of `FindTempResFileName`, `now` the clock. -/
def SetLoad (r : C4Network2Res) (nCore : C4Network2ResCore) (tempName : Option String)
    (now : Int) : C4Network2Res × Bool :=
  let r := r.Clear
  if !nCore.fLoadable then (r, false)
  else
    let r := { r with Core := nCore, Chunks := r.Chunks.SetIncomplete (wrap32 nCore.getChunkCnt) }
    match tempName with
    | none => (r, false)
    | some name =>
      ({ r with szFile := name, szStandalone := name, fDirty := false, fTempFile := true,
                fStandaloneFailed := false, fRemoved := false, iLastReqTime := now,
                fLoading := true, iDiscoverStartTime := 0 }, true)

/-- The per-client loop of `StartLoad`: `true` when the counter of loads by `iFromClient`
reaches the per-peer limit. -/
def loadsAtClientFull (lim : LoadLimits) (iFromClient : Int) :
    List C4Network2ResLoad → Int → Bool
  | [], _ => false
  | pPos :: rest, loadsAtClient =>
    if pPos.iByClient = iFromClient then
      if loadsAtClient + 1 ≥ lim.C4NetResMaxLoadPerPeerPerFile then true
      else loadsAtClientFull lim iFromClient rest (loadsAtClient + 1)
    else loadsAtClientFull lim iFromClient rest loadsAtClient

/-- `StartLoad`. -/
def StartLoad (lim : LoadLimits) (env : LoadEnv) (r : C4Network2Res) (iFromClient : Int)
    (Available : C4Network2ResChunkData) : C4Network2Res × Bool :=
  if wrap32 (r.iLoadCnt + 1) ≥ lim.C4NetResMaxLoad then (r, true)
  else if loadsAtClientFull lim iFromClient r.pLoads 0 then (r, true)
  else
    let iLoads := r.pLoads.map (fun l => l.iChunk)
    let iRetrieveChunk := r.Chunks.GetChunkToRetrieve Available iLoads env.SafeRandom
    if iRetrieveChunk < 0 ∨ wrapU32 iRetrieveChunk ≥ r.Core.getChunkCnt then (r, true)
    else
      match env.msgConnection iFromClient with
      | none => (r, false)
      | some false => (r, false)
      | some true =>
        ({ r with pLoads := { iChunk := iRetrieveChunk, iByClient := iFromClient,
                              Timestamp := env.time } :: r.pLoads
                  iLoadCnt := wrap32 (r.iLoadCnt + 1)
                  events := .ResRequest iFromClient r.Core.iID iRetrieveChunk :: r.events }, true)

/-- One step of the shuffle of `StartNewLoads`: put `x` into the free slot number `iPos`
(counting free slots from the front).  Running past the array leaves it unchanged. -/
def placeAt (x : ClientChunks) : List (Option ClientChunks) → Int → List (Option ClientChunks)
  | [], _ => []
  | none :: rest, iPos => if iPos = 0 then some x :: rest else none :: placeAt x rest (iPos - 1)
  | some y :: rest, iPos => some y :: placeAt x rest iPos

/-- The shuffle loop of `StartNewLoads`: client number `i` goes to the free slot drawn
by `SafeRandom(iCChunkCnt - i)`. -/
def shuffle (env : Nat → LoadEnv) (iCChunkCnt : Nat) :
    List ClientChunks → Nat → List (Option ClientChunks) → List (Option ClientChunks)
  | [], _, pC => pC
  | pChunks :: rest, i, pC =>
    shuffle env iCChunkCnt rest (i + 1)
      (placeAt pChunks pC ((env i).SafeRandom ((iCChunkCnt : Int) - i)))

/-- The `for` loop inside the `while` of `StartNewLoads` over the slots from the current
one on.  `tick` numbers the calls of `StartLoad`.  Returns the entity, the slots (a slot
whose `StartLoad` failed is emptied), the next tick and whether the loop was left by
`break` (a load was started). -/
def searchSomeone (lim : LoadLimits) (env : Nat → LoadEnv) (ioLoadCnt : Int) :
    List (Option ClientChunks) → C4Network2Res → Nat →
      C4Network2Res × List (Option ClientChunks) × Nat × Bool
  | [], r, tick => (r, [], tick, false)
  | none :: rest, r, tick =>
    let out := searchSomeone lim env ioLoadCnt rest r tick
    (out.1, none :: out.2.1, out.2.2.1, out.2.2.2)
  | some c :: rest, r, tick =>
    let res := StartLoad lim (env tick) r c.ClientID c.Chunks
    if !res.2 then
      let out := searchSomeone lim env ioLoadCnt rest res.1 (tick + 1)
      (out.1, none :: out.2.1, out.2.2.1, out.2.2.2)
    else if res.1.iLoadCnt > ioLoadCnt then (res.1, some c :: rest, tick + 1, true)
    else
      let out := searchSomeone lim env ioLoadCnt rest res.1 (tick + 1)
      (out.1, some c :: out.2.1, out.2.2.1, out.2.2.2)

/-- The `while` loop of `StartNewLoads`, at most `fuel` rounds. -/
def startLoadsWhile (lim : LoadLimits) (env : Nat → LoadEnv) :
    Nat → List (Option ClientChunks) → C4Network2Res → Nat → C4Network2Res
  | 0, _, r, _ => r
  | fuel + 1, pC, r, tick =>
    if wrap32 (r.iLoadCnt + 1) ≤ lim.C4NetResMaxLoad then
      let out := searchSomeone lim env r.iLoadCnt pC r tick
      if out.2.2.2 then startLoadsWhile lim env fuel out.2.1 out.1 out.2.2.1
      else out.1
    else r

/-- `StartNewLoads`.  Every round of the `while` loop but the last starts one load, so
`C4NetResMaxLoad + 1` rounds are never exceeded. -/
def StartNewLoads (lim : LoadLimits) (env : Nat → LoadEnv) (r : C4Network2Res) : C4Network2Res :=
  match r.pCChunks with
  | [] => r
  | _ :: _ =>
    let iCChunkCnt := r.pCChunks.length
    let pC := shuffle env iCChunkCnt r.pCChunks 0 (List.replicate iCChunkCnt none)
    startLoadsWhile lim env (lim.C4NetResMaxLoad.toNat + 1) pC r iCChunkCnt

/-- The search of `OnStatus` in the list of availability records followed by the
assignment of the new map to the record found; `none` when the client has no record. -/
def setClientChunks (ClientID : Int) (rChunkData : C4Network2ResChunkData) :
    List ClientChunks → Option (List ClientChunks)
  | [] => none
  | c :: rest =>
    if c.ClientID = ClientID then
      some ({ ClientID := ClientID, Chunks := c.Chunks.assign rChunkData } :: rest)
    else match setClientChunks ClientID rChunkData rest with
      | none => none
      | some rest1 => some (c :: rest1)

/-- `OnStatus`; `byClient` is the client id of the connection `pBy`. -/
def OnStatus (lim : LoadLimits) (env : LoadEnv) (r : C4Network2Res)
    (rChunkData : C4Network2ResChunkData) (byClient : Int) : C4Network2Res :=
  let r := { r with iDiscoverStartTime := 0 }
  if rChunkData.iChunkCnt ≠ r.Chunks.iChunkCnt then r
  else
    let r := { r with pCChunks :=
      match setClientChunks byClient rChunkData r.pCChunks with
      | some l => l
      | none => { ClientID := byClient,
                  Chunks := C4Network2ResChunkData.new.assign rChunkData } :: r.pCChunks }
    if r.fLoading then
      (StartLoad lim env r byClient (C4Network2ResChunkData.new.assign rChunkData)).1
    else r

/-- `OnChunk`. -/
def OnChunk (lim : LoadLimits) (env : Nat → LoadEnv) (r : C4Network2Res)
    (rChunk : C4Network2ResChunk) (io : FileResult) : C4Network2Res :=
  if !r.fLoading then r
  else if rChunk.iResID ≠ r.Core.iID then r
  else
    let added := rChunk.AddTo r io
    let r := if added.2
      then removeLoadsWhere (fun l => decide (wrapU32 l.iChunk = rChunk.iChunk))
        { added.1 with fDirty := true }
      else added.1
    if r.Chunks.isComplete then r.EndLoad else StartNewLoads lim env r

/-- `C4Network2ResLoad::CheckTimeout` at time `now`. -/
def CheckTimeout (lim : LoadLimits) (now : Int) (l : C4Network2ResLoad) : Bool :=
  decide (now - l.Timestamp ≥ lim.C4NetResLoadTimeout)

/-- `DoLoad` at time `now`. -/
def DoLoad (lim : LoadLimits) (env : Nat → LoadEnv) (now : Int) (r : C4Network2Res) :
    C4Network2Res × Bool :=
  if !r.fLoading then (r, true)
  else if r.iLoadCnt ≠ 0 then
    let iLoadsRemoved := (r.pLoads.filter (CheckTimeout lim now)).length
    let r := removeLoadsWhere (CheckTimeout lim now) r
    if iLoadsRemoved ≠ 0 then (StartNewLoads lim env r, true) else (r, true)
  else if r.iDiscoverStartTime ≠ 0 ∧ now - r.iDiscoverStartTime > lim.C4NetResDiscoverTimeout
    then (r, false)
  else (r, true)

end C4Network2Res

/-! ## C4Network2ResList -/

/-- The catalogue `C4Network2ResList`: client id, id counter and the linked list of
entities. -/
structure C4Network2ResList where
  iClientID : Int
  iNextResID : Int
  pFirst : List C4Network2Res

namespace C4Network2ResList

/-- `getRes(int32_t)`: the first entity with that id. -/
def getRes (l : C4Network2ResList) (iResID : Int) : Option C4Network2Res :=
  l.pFirst.find? (fun r => decide (r.Core.iID = iResID))

/-- The loop `while (getRes(iNextResID)) iNextResID++;`, at most `fuel` increments. -/
def skipUsed (l : C4Network2ResList) : Nat → Int → Int
  | 0, id => id
  | fuel + 1, id => if (l.getRes id).isSome then skipUsed l fuel (wrap32 (id + 1)) else id

/-- `nextResID`: the id handed out and the list with the advanced counter.  A catalogue
of `n` entities lets the search loop advance at most `n` times. -/
def nextResID (l : C4Network2ResList) : Int × C4Network2ResList :=
  let start :=
    if l.iNextResID ≥ wrap32 (wrap32 ((l.iClientID + 1) * 65536) - 1)
    then wrap32 (max 0 l.iClientID * 65536) else l.iNextResID
  let id := skipUsed l l.pFirst.length start
  (id, { l with iNextResID := wrap32 (id + 1) })

end C4Network2ResList

/-! ## Concrete values used in the examples -/

/-- An environment with the chunk size of 10 KiB and a net-filename adaptor that leaves
names unchanged. -/
def exampleEnv : CoreEnv :=
  { C4NetResChunkSize := 10240, netFilenameWrite := fun s => s, netFilenameRead := fun s => s }

/-- A loadable core with id 7 for a file of `iFileSize` bytes in chunks of `iChunkSize`
bytes. -/
def exampleCore (iFileSize iChunkSize : Int) : C4Network2ResCore :=
  { C4Network2ResCore.new exampleEnv with
    eType := .NRT_Scenario, iID := 7, fLoadable := true, iFileSize := iFileSize,
    iFileCRC := 0, iChunkSize := iChunkSize }

/-- An entity that has just been set to load `exampleCore iFileSize iChunkSize`. -/
def exampleLoading (iFileSize iChunkSize : Int) : C4Network2Res :=
  ((C4Network2Res.new exampleEnv).SetLoad (exampleCore iFileSize iChunkSize) (some "f") 0).1

/-- A complete entity with resource id `iID`. -/
def exampleRes (iID : Int) : C4Network2Res :=
  { C4Network2Res.new exampleEnv with Core := { exampleCore 10 4 with iID := iID } }

/-- Limits of three slots per entity and one per peer. -/
def exampleLimits : LoadLimits :=
  { C4NetResMaxLoad := 3, C4NetResMaxLoadPerPeerPerFile := 1,
    C4NetResLoadTimeout := 60, C4NetResDiscoverTimeout := 10 }

/-- An outside world that always draws 0, has every connection open and sending, at
time 100. -/
def exampleLoadEnv : LoadEnv :=
  { SafeRandom := fun _ => 0, msgConnection := fun _ => some true, time := 100 }

/-- File calls that all succeed. -/
def exampleFileOk : FileResult := { openOk := true, seekOk := true, writeOk := true }

/-! ## Invariants and reachable states of the load scheduler -/

namespace C4Network2Res

/-- The number of outstanding load slots recorded for client `c`. -/
def loadsOf (r : C4Network2Res) (c : Int) : Nat :=
  r.pLoads.countP (fun l => decide (l.iByClient = c))

/-- The bookkeeping invariant of the load slots: the counter is the length of the list,
one slot of `C4NetResMaxLoad` always stays free, and no client holds more than
`C4NetResMaxLoadPerPeerPerFile` slots. -/
def LoadInv (lim : LoadLimits) (r : C4Network2Res) : Prop :=
  r.iLoadCnt = r.pLoads.length ∧
  (r.pLoads.length : Int) + 1 ≤ lim.C4NetResMaxLoad ∧
  ∀ c, (r.loadsOf c : Int) ≤ lim.C4NetResMaxLoadPerPeerPerFile

/-- `r1` differs from `r` at most in its load slots, load counter, discover timer and
dirty flag, and its new events are requests. -/
def SameButLoads (r r1 : C4Network2Res) : Prop :=
  r1.Core = r.Core ∧ r1.Chunks = r.Chunks ∧ r1.fLoading = r.fLoading ∧
  r1.fileData = r.fileData ∧ r1.pCChunks = r.pCChunks ∧
  ∀ ev ∈ r1.events, ev ∈ r.events ∨ ∃ a b c, ev = NetEvent.ResRequest a b c

/-- `r1` arises from `r` by scheduler steps: it differs at most in the load data, and
keeps the bookkeeping invariant if `r` has it. -/
def Scheduled (lim : LoadLimits) (r r1 : C4Network2Res) : Prop :=
  SameButLoads r r1 ∧ (LoadInv lim r → LoadInv lim r1)

/-- The states of an entity reachable from a freshly constructed one through `SetLoad`,
`OnStatus`, `OnChunk`, `DoLoad`, `StartNewLoads` and `StartLoad`, with any arguments and
any answers of the outside world. -/
inductive Reachable (lim : LoadLimits) (cenv : CoreEnv) : C4Network2Res → Prop where
  | init : Reachable lim cenv (C4Network2Res.new cenv)
  | setLoad (r : C4Network2Res) (nCore : C4Network2ResCore) (tempName : Option String)
      (now : Int) : Reachable lim cenv r → Reachable lim cenv (r.SetLoad nCore tempName now).1
  | onStatus (r : C4Network2Res) (env : LoadEnv) (rChunkData : C4Network2ResChunkData)
      (byClient : Int) : Reachable lim cenv r →
      Reachable lim cenv (OnStatus lim env r rChunkData byClient)
  | onChunk (r : C4Network2Res) (env : Nat → LoadEnv) (rChunk : C4Network2ResChunk)
      (io : FileResult) : Reachable lim cenv r → Reachable lim cenv (OnChunk lim env r rChunk io)
  | doLoad (r : C4Network2Res) (env : Nat → LoadEnv) (now : Int) :
      Reachable lim cenv r → Reachable lim cenv (DoLoad lim env now r).1
  | startNewLoads (r : C4Network2Res) (env : Nat → LoadEnv) :
      Reachable lim cenv r → Reachable lim cenv (StartNewLoads lim env r)
  | startLoad (r : C4Network2Res) (env : LoadEnv) (iFromClient : Int)
      (Available : C4Network2ResChunkData) : Reachable lim cenv r →
      Reachable lim cenv (StartLoad lim env r iFromClient Available).1

end C4Network2Res

/-! ## Counting present chunks -/

namespace C4Network2ResChunkData

/-- The chunk numbers `0 .. n - 1` in increasing order. -/
def chunkNumbers (n : Int) : List Int :=
  (List.range n.toNat).map (fun (i : Nat) => (i : Int))

/-- The present chunks of a map, in increasing order. -/
def presentChunks (d : C4Network2ResChunkData) : List Int :=
  (chunkNumbers d.iChunkCnt).filter (fun c => decide (isPresent d c))

/-- Every range of the list holds at least one chunk. -/
def PositiveLengths (l : List ChunkRange) : Prop := ∀ r ∈ l, 0 < r.Length

instance (l : List ChunkRange) : Decidable (PositiveLengths l) := by
  unfold PositiveLengths; infer_instance

end C4Network2ResChunkData

/-! ## Materialisation of the standalone file -/

/-- The answers of the file system and of the archive library to the calls made by
`OptimizeStandalone`. -/
structure OptimizeEnv where
  /-- The free name found by `FindTempResFileName(szStandalone, szNewStandalone)`, if any -/
  tempName : Option String
  /-- Result of `C4Group_CopyItem(szStandalone, szNewStandalone)` -/
  copyOk : Bool
  /-- Result of `Grp.Open(szStandalone)` -/
  openOk : Bool

/-- The answers of the file system, of the archive library and of the configuration to the
calls made by one run of `GetStandalone`, in the order of the calls. -/
structure StandaloneEnv where
  /-- The configured `Config.Network.MaxLoadFileSize` -/
  MaxLoadFileSize : Int
  /-- Result of `DirectoryExists(szFile)` -/
  dirExists : Bool
  /-- The size stored by `DirSizeHelper::GetDirSize`, a `uint32_t` -/
  dirSize : Int
  /-- The free name found by `FindTempResFileName(szFile, szStandalone)` before packing -/
  packName : Option String
  /-- Result of `C4Group_PackDirectoryTo(szFile, szStandalone, true)` -/
  packToOk : Bool
  /-- Result of `C4Group_PackDirectory(szStandalone)` -/
  packOk : Bool
  /-- Result of `DirectoryExists(szStandalone)` after packing -/
  stillDirectory : Bool
  /-- The first `FileExists(szStandalone)` -/
  fileExists : Bool
  /-- The free name found by `FindTempResFileName(szFile, szStandalone)` before copying -/
  copyName : Option String
  /-- Result of `C4Group_CopyItem(szFile, szStandalone)` -/
  copyOk : Bool
  /-- The second `FileExists(szStandalone)` -/
  fileExistsAfter : Bool
  /-- The calls of `OptimizeStandalone` -/
  optimize : OptimizeEnv
  /-- Result of `FileSize(szStandalone)`, a `size_t` -/
  fileSize : Int
  /-- The checksum stored by `C4Group_GetFileCRC(szStandalone, &iCRC32)`, if it succeeds -/
  fileCRC : Option Int

namespace C4Network2ResCore

/-- Modelled from the spec: the setter `SetDerived` of the class declaration, which is not
part of the source file; it records the id of the resource this one is derived from. -/
def SetDerived (c : C4Network2ResCore) (inDerID : Int) : C4Network2ResCore :=
  { c with iDerID := inDerID }

/-- Modelled from the spec: the setter `SetID` of the class declaration, which is not part
of the source file; it stores the resource id. -/
def SetID (c : C4Network2ResCore) (inID : Int) : C4Network2ResCore :=
  { c with iID := inID }

end C4Network2ResCore

namespace C4Network2Res

/-- `OptimizeStandalone`: player files are copied to a temporary file when the standalone
is still the original, and opened as a group to delete entries of the file. -/
def OptimizeStandalone (env : OptimizeEnv) (r : C4Network2Res) : C4Network2Res × Bool :=
  if r.Core.eType = .NRT_Player then
    let copied : C4Network2Res × Bool :=
      if !r.fTempFile ∧ r.szFile = r.szStandalone then
        match env.tempName with
        | none => (r, false)
        | some szNewStandalone =>
          if !env.copyOk then (r, false)
          else ({ r with szStandalone := szNewStandalone }, true)
      else (r, true)
    if !copied.2 then (copied.1, false)
    else if !env.openOk then (copied.1, false)
    else (copied.1, true)
  else (r, true)

/-- The directory branch of `GetStandalone`: size check if allowed, packing to a temporary
file or in place, check that the result is no directory any more.  `Except.error` is a
`return false` with the state at that point (`szStandalone` cleared).  `GetDirSize` is
handed a valid pointer and so always returns `true`; only the size it stores matters. -/
def packStandalone (env : StandaloneEnv) (r : C4Network2Res) (fAllowUnloadable : Bool) :
    Except C4Network2Res C4Network2Res :=
  if env.dirExists then
    if fAllowUnloadable ∧ wrapU32 env.dirSize > wrapU32 env.MaxLoadFileSize then
      .error { r with szStandalone := "" }
    else
      let packed : Except C4Network2Res C4Network2Res :=
        if !r.fTempFile then
          match env.packName with
          | none => .error { r with szStandalone := "" }
          | some name =>
            if !env.packToOk then .error { r with szStandalone := "" }
            else .ok { r with szStandalone := name }
        else if !env.packOk then .error { r with szStandalone := "" }
        else .ok r
      match packed with
      | .error r => .error r
      | .ok r =>
        if env.stillDirectory then .error { r with szStandalone := "" }
        else .ok { r with szFile := r.szStandalone, fTempFile := true }
  else .ok r

/-- The part of `GetStandalone` between the directory branch and the size check: copy the
item to a temporary file if the standalone does not exist, give up if it is still
missing, optimise. -/
def fetchStandalone (env : StandaloneEnv) (r : C4Network2Res) :
    Except C4Network2Res C4Network2Res :=
  let fetched : Except C4Network2Res C4Network2Res :=
    if !env.fileExists then
      match env.copyName with
      | none => .error { r with szStandalone := "" }
      | some name =>
        if !env.copyOk then .error { r with szStandalone := "" }
        else .ok { r with szStandalone := name }
    else .ok r
  match fetched with
  | .error r => .error r
  | .ok r =>
    if !env.fileExistsAfter then .error { r with szStandalone := "" }
    else
      let opt := OptimizeStandalone env.optimize r
      if !opt.2 then .error { opt.1 with szStandalone := "" }
      else .ok opt.1

/-- The checks of `GetStandalone` on the materialised file: size limit, size and checksum
against the core (unless the file sets the official values), then the core is marked
loadable and the chunk map complete.  When the checksum cannot be computed the function
returns `false` without clearing `szStandalone`. -/
def checkStandalone (env : StandaloneEnv) (r : C4Network2Res)
    (fSetOfficial fAllowUnloadable : Bool) : C4Network2Res × Bool :=
  let iSize := wrapU64 env.fileSize
  if fAllowUnloadable ∧ iSize > wrapU32 env.MaxLoadFileSize then
    ({ r with szStandalone := "" }, false)
  else if !fSetOfficial ∧ iSize ≠ r.Core.iFileSize then
    ({ r with szStandalone := "" }, false)
  else
    match env.fileCRC with
    | none => (r, false)
    | some iCRC32 =>
      if !fSetOfficial ∧ iCRC32 ≠ r.Core.iFileCRC then ({ r with szStandalone := "" }, false)
      else
        let Core := r.Core.SetLoadable (wrapU32 iSize) iCRC32
        ({ r with fStandaloneFailed := false, Core := Core,
                  Chunks := r.Chunks.SetComplete (wrap32 Core.getChunkCnt) }, true)

/-- `GetStandalone` with `pTo == nullptr`: the entity afterwards and the return value.
The contents of the files involved are not part of the state. -/
def GetStandalone (env : StandaloneEnv) (r : C4Network2Res)
    (fSetOfficial fAllowUnloadable : Bool) : C4Network2Res × Bool :=
  if r.szStandalone ≠ "" then (r, true)
  else if r.fStandaloneFailed then (r, false)
  else if !fSetOfficial ∧ !r.Core.fLoadable then (r, false)
  else
    let r := { r with fStandaloneFailed := true }
    let r := { r with szStandalone := r.szFile }
    match packStandalone env r fAllowUnloadable with
    | .error r => (r, false)
    | .ok r =>
      match fetchStandalone env r with
      | .error r => (r, false)
      | .ok r => checkStandalone env r fSetOfficial fAllowUnloadable

/-- One call of `GetStandalone` gets as far as the materialisation: the standalone is not
set yet, no earlier attempt has failed, and the core is loadable or the call sets the
official values. -/
def beginsMaterialization (r : C4Network2Res) (fSetOfficial : Bool) : Prop :=
  r.szStandalone = "" ∧ r.fStandaloneFailed = false ∧ (fSetOfficial = true ∨ r.Core.fLoadable = true)

instance (r : C4Network2Res) (fSetOfficial : Bool) :
    Decidable (beginsMaterialization r fSetOfficial) := by
  unfold beginsMaterialization; infer_instance

end C4Network2Res

/-- A file system in which an existing plain file of 10 bytes with checksum 77 is found
at once and nothing has to be packed or copied. -/
def examplePlainFile : StandaloneEnv :=
  { MaxLoadFileSize := 1048576, dirExists := false, dirSize := 0, packName := none,
    packToOk := false, packOk := false, stillDirectory := false, fileExists := true,
    copyName := none, copyOk := false, fileExistsAfter := true,
    optimize := { tempName := none, copyOk := false, openOk := false },
    fileSize := 10, fileCRC := some 77 }

/-- An entity installed from the plain file `Castle.c4s` whose standalone has not been
made yet. -/
def exampleLocalRes : C4Network2Res :=
  { C4Network2Res.new exampleEnv with
    Core := (C4Network2ResCore.new exampleEnv).Set exampleEnv .NRT_Scenario 7 "Castle.c4s" 5 ""
    szFile := "Castle.c4s", fDirty := true, iLastReqTime := 100 }

/-- The file system of `examplePlainFile`, except that the checksum of the file cannot be
computed. -/
def exampleNoChecksum : StandaloneEnv := { examplePlainFile with fileCRC := none }

/-! ## The catalogue: client id, reaper -/

namespace C4Network2Res

/-- Modelled from the spec: the accessor `getResClient` of the class declaration, which is
not part of the source file; the spec places the client id of the originating peer in the
upper 16 bits of the 32-bit resource id (an arithmetic shift right by 16). -/
def getResClient (r : C4Network2Res) : Int := r.Core.iID / 65536

/-- `ChangeID`. -/
def ChangeID (r : C4Network2Res) (inID : Int) : C4Network2Res :=
  { r with Core := r.Core.SetID inID }

/-- `Remove`: schedule for removal. -/
def Remove (r : C4Network2Res) : C4Network2Res := { r with fRemoved := true }

end C4Network2Res

namespace C4Network2ResList

/-- `SetLocalID`: the difference of the client ids shifted left by 16 is added to the
counter and to the id of every entity of the old client. -/
def SetLocalID (l : C4Network2ResList) (inClientID : Int) : C4Network2ResList :=
  let iOldClientID := l.iClientID
  let iIDDiff := wrap32 (wrap32 (inClientID - l.iClientID) * 65536)
  { iClientID := inClientID
    iNextResID := wrap32 (l.iNextResID + iIDDiff)
    pFirst := l.pFirst.map (fun pRes =>
      if pRes.getResClient = iOldClientID then pRes.ChangeID (wrap32 (pRes.Core.iID + iIDDiff))
      else pRes) }

/-- The test of `OnShareFree` on one entity at time `now`: removed, and never requested or
last requested more than `C4NetResDeleteTime` ago. -/
def isExpired (C4NetResDeleteTime now : Int) (pRes : C4Network2Res) : Bool :=
  pRes.fRemoved && (pRes.iLastReqTime == 0 || decide (now - pRes.iLastReqTime > C4NetResDeleteTime))

/-- The loop of `OnShareFree` over the linked list.  `kept` are the entities already
passed and kept, last one first (its head is `pPrev`); an expired entity is unlinked, any
other becomes the new `pPrev`. -/
def OnShareFreeLoop (C4NetResDeleteTime now : Int) :
    List C4Network2Res → List C4Network2Res → List C4Network2Res
  | kept, [] => kept.reverse
  | kept, pRes :: pNext =>
    if isExpired C4NetResDeleteTime now pRes then OnShareFreeLoop C4NetResDeleteTime now kept pNext
    else OnShareFreeLoop C4NetResDeleteTime now (pRes :: kept) pNext

/-- `OnShareFree(pCSec)` at time `now`; `isResListCSec` tells whether `pCSec` is the lock
of the list. -/
def OnShareFree (l : C4Network2ResList) (isResListCSec : Bool) (C4NetResDeleteTime now : Int) :
    C4Network2ResList :=
  if isResListCSec then
    { l with pFirst := OnShareFreeLoop C4NetResDeleteTime now [] l.pFirst }
  else l

end C4Network2ResList

/-- A catalogue of client 0 whose counter has reached 65534 and whose window below the
counter is used up: the entities have the ids 0 to 65533. -/
def exampleFullWindow : C4Network2ResList :=
  { iClientID := 0, iNextResID := 65534,
    pFirst := (List.range 65534).map (fun (i : Nat) => exampleRes (i : Int)) }

/-- A catalogue of client 1 with the ids 65536 and 65537 in use and the counter at
65536. -/
def exampleCatalogue : C4Network2ResList :=
  { iClientID := 1, iNextResID := 65536, pFirst := [exampleRes 65536, exampleRes 65537] }

/-! ## Installing an entity from a file, a group, a core or by derivation -/

/-- What an opened `C4Group` reports. -/
structure GroupInfo where
  /-- The result of `GetFullName()` -/
  fullName : String
  /-- The result of `Config.AtExeRelativePath` on the full name -/
  exeRelativeName : String
  /-- The result of `EntryCRC32()` -/
  EntryCRC32 : Int
  /-- The result of `GetMaker()` -/
  maker : String

/-- The answers of the file system, the archive library, the configuration and the clock
to one call of `SetByFile`. -/
structure SetByFileEnv where
  /-- The result of `Config.AtExeRelativePath(strFilePath)` -/
  exeRelativePath : String
  /-- The group opened by `Grp.Open(strFilePath)`, if it opens -/
  group : Option GroupInfo
  /-- The result of `FileExists(szFile)` -/
  fileExists : Bool
  /-- The checksum stored by `C4Group_GetFileCRC(szFile, &iCRC32)`, if it succeeds -/
  fileCRC : Option Int
  /-- The result of `time(nullptr)` -/
  now : Int

/-- The buffer written by `FindTempResFileName` and its return value. -/
structure TempName where
  name : String
  ok : Bool

mutual

/-- The answers of the outside world to one call of `SetByCore` and to the calls it makes
recursively: the file name tried, the answers to the `SetByFile` on it and to the
`GetStandalone` that follows a match, the call with the bare file name, and the entries
of the directory searched. -/
inductive CorePlan where
  | call (szFilename : String) (file : SetByFileEnv) (standalone : StandaloneEnv)
      (filenameOnly : NameOnlyPlan) (dirs : DirPlan)

/-- The comparison `szFilenameOnly != szFilenameC4` of `SetByCore`: `same` when the file
name has no folder in front, otherwise the answers to the call with the bare name. -/
inductive NameOnlyPlan where
  | same
  | differs (sub : CorePlan)

/-- The entries of the directory iterated by `SetByCore`, each with the result of the
three tests on it (an existing directory, without extension, not the network path) and
the answers to the call made for it. -/
inductive DirPlan where
  | done
  | entry (searched : Bool) (sub : CorePlan) (rest : DirPlan)

end

/-- The answers of the file system to one call of `IsBinaryCompatible`. -/
structure CompatEnv where
  /-- The result of `DirectoryExists(szFile)` -/
  dirExists : Bool
  /-- The answers to the calls of `GetStandalone` -/
  standalone : StandaloneEnv

namespace C4Network2Res

/-- Modelled from the spec: the accessor `isAnonymous` of the class declaration, which is
not part of the source file; an entity is anonymous while its id is the reserved id
`C4NetResIDAnonymous`, which is declared outside the source file and passed as
`anon`. -/
def isAnonymous (anon : Int) (r : C4Network2Res) : Bool := r.Core.iID == anon

/-- `SetByGroup`; `now` is the clock. -/
def SetByGroup (cenv : CoreEnv) (r : C4Network2Res) (pGrp : GroupInfo) (fTemp : Bool)
    (eType : C4Network2ResType) (iResID : Int) (szResName : Option String) (now : Int) :
    C4Network2Res × Bool :=
  let r := r.Clear
  let sResName := match szResName with
    | some n => n
    | none => pGrp.exeRelativeName
  ({ r with szFile := pGrp.fullName
            Core := r.Core.Set cenv eType iResID sResName pGrp.EntryCRC32 pGrp.maker
            fDirty := true, fTempFile := fTemp, fStandaloneFailed := false, fRemoved := false
            iLastReqTime := now, fLoading := false }, true)

/-- `SetByFile`.  The member `local`, which the source file only writes, is not part of
the state. -/
def SetByFile (cenv : CoreEnv) (env : SetByFileEnv) (r : C4Network2Res) (strFilePath : String)
    (fTemp : Bool) (eType : C4Network2ResType) (iResID : Int) (szResName : Option String) :
    C4Network2Res × Bool :=
  let szResName := match szResName with
    | some n => n
    | none => env.exeRelativePath
  let r := { r with szFile := strFilePath }
  match env.group with
  | some Grp => SetByGroup cenv r Grp fTemp eType iResID (some szResName) env.now
  | none =>
    if !env.fileExists then (r, false)
    else
      match env.fileCRC with
      | none => (r, false)
      | some iCRC32 =>
        ({ r with Core := r.Core.Set cenv eType iResID szResName iCRC32 ""
                  fDirty := true, fTempFile := fTemp, fStandaloneFailed := false
                  fRemoved := false, iLastReqTime := env.now, fLoading := false }, true)

/-- `SetDerived`; `anon` is `C4NetResIDAnonymous`, `now` the clock. -/
def SetDerived (cenv : CoreEnv) (anon : Int) (r : C4Network2Res) (strName strFilePath : String)
    (fTemp : Bool) (eType : C4Network2ResType) (iDResID : Int) (now : Int) :
    C4Network2Res × Bool :=
  let r := r.Clear
  ({ r with Core := (r.Core.Set cenv eType anon strName 4294967295 "").SetDerived iDResID
            szFile := strFilePath, szStandalone := ""
            fDirty := false, fTempFile := fTemp, fStandaloneFailed := false, fRemoved := false
            iLastReqTime := now, fLoading := false }, true)

mutual

/-- `SetByCore` at recursion depth `iRecursion`; `MaxRec` is
`Config.Network.MaxResSearchRecursion`. -/
def SetByCore (cenv : CoreEnv) (MaxRec : Int) (nCore : C4Network2ResCore) :
    CorePlan → C4Network2Res → Int → C4Network2Res × Bool
  | .call szFilename file standalone filenameOnly dirs, r, iRecursion =>
    let set := SetByFile cenv file r szFilename false nCore.eType nCore.iID (some nCore.FileName)
    if set.2 ∧ set.1.Core.iContentsCRC = nCore.iContentsCRC then
      ((GetStandalone standalone { set.1 with fDirty := true, Core := nCore } false false).1, true)
    else
      let only := SetByCoreNameOnly cenv MaxRec nCore filenameOnly set.1
      if only.2 then only
      else if iRecursion ≥ MaxRec then (only.1, false)
      else SetByCoreDirs cenv MaxRec nCore dirs only.1 iRecursion

/-- The call of `SetByCore` with the bare file name, at depth `MaxRec`. -/
def SetByCoreNameOnly (cenv : CoreEnv) (MaxRec : Int) (nCore : C4Network2ResCore) :
    NameOnlyPlan → C4Network2Res → C4Network2Res × Bool
  | .same, r => (r, false)
  | .differs sub, r => SetByCore cenv MaxRec nCore sub r MaxRec

/-- The loop of `SetByCore` over the entries of the search directory. -/
def SetByCoreDirs (cenv : CoreEnv) (MaxRec : Int) (nCore : C4Network2ResCore) :
    DirPlan → C4Network2Res → Int → C4Network2Res × Bool
  | .done, r, _ => (r, false)
  | .entry searched sub rest, r, iRecursion =>
    if searched then
      let res := SetByCore cenv MaxRec nCore sub r (wrap32 (iRecursion + 1))
      if res.2 then res else SetByCoreDirs cenv MaxRec nCore rest res.1 iRecursion
    else SetByCoreDirs cenv MaxRec nCore rest r iRecursion

end

/-- `IsBinaryCompatible`. -/
def IsBinaryCompatible (env : CompatEnv) (r : C4Network2Res) : C4Network2Res × Bool :=
  if r.szStandalone ≠ "" then (r, true)
  else if env.dirExists then (r, false)
  else GetStandalone env.standalone r false false

/-- `FinishDerive(const C4Network2ResCore &)`: an anonymous entity takes over the core
and is set complete. -/
def FinishDeriveCore (anon : Int) (r : C4Network2Res) (nCore : C4Network2ResCore) :
    C4Network2Res × Bool :=
  if !r.isAnonymous anon then (r, false)
  else
    ({ r with Core := nCore, Chunks := r.Chunks.SetComplete (wrap32 nCore.getChunkCnt) }, true)

end C4Network2Res

/-! ## The catalogue: adding entities, derivation, packet dispatch -/

/-- What the dispatcher sees of a connection `C4Network2IOConnection`: whether it is open
and the id of the client behind it. -/
structure C4Network2IOConnection where
  isOpen : Bool
  ClientID : Int
  deriving DecidableEq

/-- The packets handled by `HandlePacket`, one constructor for each status byte of the
`switch` and one for every other byte. -/
inductive ResPacket where
  /-- A `PID_NetResDis` packet with the ids it lists -/
  | NetResDis (iDisIDs : List Int)
  /-- A `PID_NetResStat` packet -/
  | NetResStat (iResID : Int) (Chunks : C4Network2ResChunkData)
  /-- A `PID_NetResDerive` packet -/
  | NetResDerive (Core : C4Network2ResCore)
  /-- A `PID_NetResReq` packet -/
  | NetResReq (iReqID iReqChunk : Int)
  /-- A `PID_NetResData` packet -/
  | NetResData (Chunk : C4Network2ResChunk)
  /-- Any other packet -/
  | other

/-- A packet handed to the network by an entity. -/
inductive SentPacket where
  /-- A status sent to one connection -/
  | Status (pTo : C4Network2IOConnection) (iResID : Int) (Chunks : C4Network2ResChunkData)
  /-- A chunk sent over the data connection of a client -/
  | Data (iToClient : Int) (Chunk : C4Network2ResChunk)
  /-- A derive announcement broadcast to all clients -/
  | Derive (Core : C4Network2ResCore)
  deriving DecidableEq

/-- The answers of the outside world to one call of `SendChunk`. -/
structure SendChunkEnv where
  /-- The compile-time `C4NetResChunkSize` -/
  C4NetResChunkSize : Int
  /-- The data connection of a client, if there is one, with the result of its `Send` -/
  dataConnection : Int → Option Bool
  /-- The content of the standalone file if it can be opened for reading -/
  file : Option (List Nat)
  /-- The result of `time(nullptr)` -/
  now : Int

/-- The answers of the outside world to one call of `HandlePacket`.  The calls of
`IsBinaryCompatible` are numbered: entity number `i` of the list uses the numbers `2 i`
and `2 i + 1`. -/
structure HandleEnv where
  /-- The reserved id `C4NetResIDAnonymous` -/
  anon : Int
  /-- The limits of the load scheduler -/
  lim : LoadLimits
  /-- The answers to the calls of `IsBinaryCompatible` -/
  compat : Nat → CompatEnv
  /-- The result of `time(nullptr)` -/
  now : Int
  /-- The answers to the `StartLoad` of `OnStatus` -/
  load : LoadEnv
  /-- The answers to the `StartLoad` calls of `OnChunk` -/
  loads : Nat → LoadEnv
  /-- The results of the file calls of `OnChunk` -/
  io : FileResult
  /-- The answers to `SendChunk` -/
  send : SendChunkEnv

/-- The answers of the outside world to one call of `AddByFile`. -/
structure AddByFileEnv where
  /-- The answers to `SetByFile` -/
  setByFile : SetByFileEnv
  /-- The answers to `GetStandalone` -/
  standalone : StandaloneEnv

/-- The answers of the outside world to one call of `AddByCore`. -/
structure AddByCoreEnv where
  /-- The configured `Config.Network.MaxResSearchRecursion` -/
  MaxResSearchRecursion : Int
  /-- The answers to `SetByCore` -/
  plan : CorePlan
  /-- The free name found by `FindTempResFileName` in `SetLoad`, if any -/
  tempName : Option String
  /-- The result of `time(nullptr)` -/
  now : Int

/-- The answers of the outside world to one call of `Derive`. -/
structure DeriveEnv where
  /-- The buffer and result of `FindTempResFileName(szOrgFile, szFile)` -/
  tempName : TempName
  /-- The result of `C4Group_CopyItem(szOrgFile, szFile)` -/
  copyOk : Bool
  /-- The result of `time(nullptr)` -/
  now : Int

namespace C4Network2Res

/-- `OnDiscover(pBy)`: a binary compatible entity notes the request time and sends its
status back over the connection. -/
def OnDiscover (env : CompatEnv) (now : Int) (r : C4Network2Res) (pBy : C4Network2IOConnection) :
    C4Network2Res × List SentPacket :=
  let c := r.IsBinaryCompatible env
  if !c.2 then (c.1, [])
  else ({ c.1 with iLastReqTime := now }, [.Status pBy c.1.Core.iID c.1.Chunks])

/-- `SendChunk(iChunk, iToClient)`.  The result of `C4Network2ResChunk::Set` is not
checked: when it fails, the packet holds the id and the chunk number without data. -/
def SendChunk (env : SendChunkEnv) (r : C4Network2Res) (iChunk : Int) (iToClient : Int) :
    C4Network2Res × List SentPacket × Bool :=
  if r.szStandalone = "" ∨ wrapU32 iChunk ≥ r.Core.getChunkCnt then (r, [], false)
  else
    match env.dataConnection iToClient with
    | none => (r, [], false)
    | some fSuccess =>
      let r := { r with iLastReqTime := env.now }
      let ResChunk : C4Network2ResChunk :=
        match C4Network2ResChunk.Set env.C4NetResChunkSize r.Core env.file (wrapU32 iChunk) with
        | some c => c
        | none => { iResID := r.Core.iID, iChunk := wrapU32 iChunk, Data := [] }
      (r, [.Data iToClient ResChunk], fSuccess)

/-- The first part of `Derive`: the entity leaves its file to the derived resource.
Without a standalone of its own it moves to a temporary copy of the file, otherwise to its
standalone.  The buffer `szFile` is written by `FindTempResFileName` even when the call
or the copy fails. -/
def deriveMove (env : DeriveEnv) (r : C4Network2Res) : C4Network2Res × Bool :=
  if r.szStandalone = "" ∨ r.szStandalone = r.szFile then
    let r := { r with szFile := env.tempName.name }
    if !env.tempName.ok then (r, false)
    else if !env.copyOk then (r, false)
    else
      let r := if r.szStandalone ≠ "" then { r with szStandalone := r.szFile } else r
      ({ r with fTempFile := true }, true)
  else ({ r with szFile := r.szStandalone, fTempFile := true }, true)

end C4Network2Res

namespace C4Network2ResList

/-- `getRes(const char *, bool)`: the first entity that is not anonymous, has that file
and, if `fLocalOnly`, belongs to the local client. -/
def getResByFile (l : C4Network2ResList) (anon : Int) (szFile : String) (fLocalOnly : Bool) :
    Option C4Network2Res :=
  l.pFirst.find? (fun pCur =>
    !pCur.isAnonymous anon && (pCur.szFile == szFile)
      && (!fLocalOnly || decide (pCur.getResClient = l.iClientID)))

/-- `Add`: link the entity in front of the list. -/
def Add (l : C4Network2ResList) (pRes : C4Network2Res) : C4Network2ResList :=
  { l with pFirst := pRes :: l.pFirst }

/-- `AddByFile`; `fLocalOnly` is the default argument with which the declaration lets
`getRefRes(strFilePath)` search.  Returns the list and the entity handed back. -/
def AddByFile (cenv : CoreEnv) (anon : Int) (env : AddByFileEnv) (fLocalOnly : Bool)
    (l : C4Network2ResList) (strFilePath : String) (fTemp : Bool) (eType : C4Network2ResType)
    (iResID : Int) (szResName : Option String) (fAllowUnloadable : Bool) :
    C4Network2ResList × Option C4Network2Res :=
  match l.getResByFile anon strFilePath fLocalOnly with
  | some pRes => (l, some pRes)
  | none =>
    let alloc : Int × C4Network2ResList := if iResID < 0 then l.nextResID else (iResID, l)
    if alloc.1 < 0 then (alloc.2, none)
    else
      let res := C4Network2Res.SetByFile cenv env.setByFile (C4Network2Res.new cenv)
        strFilePath fTemp eType alloc.1 szResName
      if !res.2 then (alloc.2, none)
      else if eType ≠ .NRT_System then
        let st := res.1.GetStandalone env.standalone true fAllowUnloadable
        if !st.2 ∧ !fAllowUnloadable then (alloc.2, none)
        else (alloc.2.Add st.1, some st.1)
      else (alloc.2.Add res.1, some res.1)

/-- `AddLoad`. -/
def AddLoad (cenv : CoreEnv) (l : C4Network2ResList) (Core : C4Network2ResCore)
    (tempName : Option String) (now : Int) : C4Network2ResList × Option C4Network2Res :=
  if !Core.fLoadable then (l, none)
  else
    let pRes := ((C4Network2Res.new cenv).SetLoad Core tempName now).1
    (l.Add pRes, some pRes)

/-- `AddByCore`; `SetByCore` is called with the default arguments of the declaration (no
file name, which the plan resolves, and recursion depth 0). -/
def AddByCore (cenv : CoreEnv) (env : AddByCoreEnv) (l : C4Network2ResList)
    (Core : C4Network2ResCore) (fLoad : Bool) : C4Network2ResList × Option C4Network2Res :=
  match l.getRes Core.iID with
  | some pRes => (l, some pRes)
  | none =>
    let res := C4Network2Res.SetByCore cenv env.MaxResSearchRecursion Core env.plan
      (C4Network2Res.new cenv) 0
    if !res.2 then
      if fLoad then AddLoad cenv l Core env.tempName env.now else (l, none)
    else (l.Add res.1, some res.1)

/-- `C4Network2Res::Derive` called on entity number `i` of the list: the entity moves to a
copy of its file and a new anonymous entity for the original file is linked in front of
the list. -/
def Derive (cenv : CoreEnv) (anon : Int) (env : DeriveEnv) (l : C4Network2ResList) (i : Nat) :
    C4Network2ResList × Bool :=
  match l.pFirst[i]? with
  | none => (l, false)
  | some r =>
    if r.fLoading then (l, false)
    else
      let szOrgFile := r.szFile
      let fOrgTempFile := r.fTempFile
      let moved := r.deriveMove env
      if !moved.2 then ({ l with pFirst := l.pFirst.set i moved.1 }, false)
      else
        let pDRes := (C4Network2Res.SetDerived cenv anon (C4Network2Res.new cenv)
          moved.1.Core.FileName szOrgFile fOrgTempFile moved.1.Core.eType moved.1.Core.iID
          env.now).1
        (({ l with pFirst := l.pFirst.set i moved.1 } : C4Network2ResList).Add pDRes, true)

/-- `C4Network2Res::FinishDerive()` called on entity number `i` of the list: an anonymous
entity is installed from its file under a new id, materialised, and announced.  Returns
the list, the packets broadcast and the return value. -/
def FinishDerive (cenv : CoreEnv) (anon : Int) (env : AddByFileEnv) (l : C4Network2ResList)
    (i : Nat) : C4Network2ResList × List SentPacket × Bool :=
  match l.pFirst[i]? with
  | none => (l, [], false)
  | some r =>
    if !r.isAnonymous anon then (l, [], false)
    else
      let iDerID := r.Core.iDerID
      let szName := r.Core.FileName
      let szFileC := r.szFile
      let alloc := l.nextResID
      let set := C4Network2Res.SetByFile cenv env.setByFile r szFileC r.fTempFile r.Core.eType
        alloc.1 (some szName)
      if !set.2 then ({ alloc.2 with pFirst := alloc.2.pFirst.set i set.1 }, [], false)
      else
        let st := set.1.GetStandalone env.standalone true false
        if !st.2 then ({ alloc.2 with pFirst := alloc.2.pFirst.set i st.1 }, [], false)
        else
          let r := { st.1 with Core := st.1.Core.SetDerived iDerID }
          ({ alloc.2 with pFirst := alloc.2.pFirst.set i { r with fDirty := true } },
            [.Derive r.Core], true)

/-- The entity that `getRes(iResID)` returns is replaced by the result of `f` on it;
`none` when no entity has the id. -/
def onRes {β : Type} (iResID : Int) (f : C4Network2Res → C4Network2Res × β) :
    List C4Network2Res → Option (List C4Network2Res × β)
  | [] => none
  | pCur :: rest =>
    if pCur.Core.iID = iResID then some ((f pCur).1 :: rest, (f pCur).2)
    else
      match onRes iResID f rest with
      | none => none
      | some out => some (pCur :: out.1, out.2)

/-- The loop of the `PID_NetResDis` branch from entity number `i` on. -/
def discoverLoop (env : HandleEnv) (iDisIDs : List Int) (pConn : C4Network2IOConnection) :
    Nat → List C4Network2Res → List C4Network2Res × List SentPacket
  | _, [] => ([], [])
  | i, pRes :: rest =>
    let step : C4Network2Res × List SentPacket :=
      if pRes.Core.iID ∈ iDisIDs then
        let c := pRes.IsBinaryCompatible (env.compat (2 * i))
        if c.2 then c.1.OnDiscover (env.compat (2 * i + 1)) env.now pConn else (c.1, [])
      else (pRes, [])
    let out := discoverLoop env iDisIDs pConn (i + 1) rest
    (step.1 :: out.1, step.2 ++ out.2)

/-- The loop of the `PID_NetResDerive` branch. -/
def deriveLoop (anon : Int) (Core : C4Network2ResCore) : List C4Network2Res → List C4Network2Res
  | [] => []
  | pRes :: rest =>
    (if pRes.isAnonymous anon ∧ pRes.Core.iDerID = Core.iDerID
      then (pRes.FinishDeriveCore anon Core).1 else pRes) :: deriveLoop anon Core rest

/-- `HandlePacket(cStatus, pPacket, pConn)`: the list afterwards and the packets sent
(requests started by `OnStatus` and `OnChunk` are recorded in the events of the
entity). -/
def HandlePacket (env : HandleEnv) (l : C4Network2ResList) (pPacket : ResPacket)
    (pConn : Option C4Network2IOConnection) : C4Network2ResList × List SentPacket :=
  match pConn with
  | none => (l, [])
  | some pConn =>
    match pPacket with
    | .NetResDis iDisIDs =>
      if !pConn.isOpen then (l, [])
      else
        let out := discoverLoop env iDisIDs pConn 0 l.pFirst
        ({ l with pFirst := out.1 }, out.2)
    | .NetResStat iResID Chunks =>
      if !pConn.isOpen then (l, [])
      else
        match onRes iResID (fun pRes =>
            (C4Network2Res.OnStatus env.lim env.load pRes Chunks pConn.ClientID, ())) l.pFirst with
        | none => (l, [])
        | some out => ({ l with pFirst := out.1 }, [])
    | .NetResDerive Core =>
      if Core.iDerID < 0 then (l, [])
      else ({ l with pFirst := deriveLoop env.anon Core l.pFirst }, [])
    | .NetResReq iReqID iReqChunk =>
      match onRes iReqID (fun pRes =>
          let c := pRes.IsBinaryCompatible (env.compat 0)
          if c.2 then
            let s := c.1.SendChunk env.send iReqChunk pConn.ClientID
            (s.1, s.2.1)
          else (c.1, [])) l.pFirst with
      | none => (l, [])
      | some out => ({ l with pFirst := out.1 }, out.2)
    | .NetResData Chunk =>
      match onRes Chunk.iResID (fun pRes =>
          (C4Network2Res.OnChunk env.lim env.loads pRes Chunk env.io, ())) l.pFirst with
      | none => (l, [])
      | some out => ({ l with pFirst := out.1 }, [])
    | .other => (l, [])

end C4Network2ResList

/-! ## Unique ids and the reachable catalogues -/

namespace C4Network2ResList

/-- No two entities at different places of the list that have the same id are anything
but anonymous. -/
def UniqueIDs (anon : Int) (l : C4Network2ResList) : Prop :=
  ∀ (i j : Nat) (r1 r2 : C4Network2Res), l.pFirst[i]? = some r1 → l.pFirst[j]? = some r2 →
    i ≠ j → r1.Core.iID = r2.Core.iID → r1.Core.iID = anon

/-- The catalogues reachable from an empty list through `AddByFile` without an explicit
id, `AddByCore`, `Derive` and the local `FinishDerive`, with any arguments and any answers
of the outside world, as long as the list holds fewer than `2^32 - 1` entities when an id
is allocated. -/
inductive Catalogued (cenv : CoreEnv) (anon : Int) : C4Network2ResList → Prop where
  | empty (iClientID iNextResID : Int) : isInt32 iNextResID →
      Catalogued cenv anon { iClientID := iClientID, iNextResID := iNextResID, pFirst := [] }
  | addByFile (l : C4Network2ResList) (env : AddByFileEnv) (fLocalOnly : Bool)
      (strFilePath : String) (fTemp : Bool) (eType : C4Network2ResType) (iResID : Int)
      (szResName : Option String) (fAllowUnloadable : Bool) :
      Catalogued cenv anon l → iResID < 0 → l.pFirst.length < 4294967295 →
      Catalogued cenv anon (AddByFile cenv anon env fLocalOnly l strFilePath fTemp eType iResID
        szResName fAllowUnloadable).1
  | addByCore (l : C4Network2ResList) (env : AddByCoreEnv) (Core : C4Network2ResCore)
      (fLoad : Bool) :
      Catalogued cenv anon l → Catalogued cenv anon (AddByCore cenv env l Core fLoad).1
  | derive (l : C4Network2ResList) (env : DeriveEnv) (i : Nat) :
      Catalogued cenv anon l → Catalogued cenv anon (Derive cenv anon env l i).1
  | finishDerive (l : C4Network2ResList) (env : AddByFileEnv) (i : Nat) :
      Catalogued cenv anon l → l.pFirst.length < 4294967295 →
      Catalogued cenv anon (FinishDerive cenv anon env l i).1

end C4Network2ResList

/-! ## Concrete values used in the examples of the catalogue -/

/-- The value the spec gives for the reserved id `Anonymous`. -/
def exampleAnonymous : Int := 0

/-- A file system in which `strFilePath` is an existing plain file with contents
checksum 5 at time 100. -/
def examplePlainSetByFile (strFilePath : String) : SetByFileEnv :=
  { exeRelativePath := strFilePath, group := none, fileExists := true, fileCRC := some 5,
    now := 100 }

/-- The answers to `AddByFile` for an existing plain file. -/
def exampleAddByFileEnv (strFilePath : String) : AddByFileEnv :=
  { setByFile := examplePlainSetByFile strFilePath, standalone := examplePlainFile }

/-- The empty catalogue of client 0. -/
def exampleEmptyList : C4Network2ResList := { iClientID := 0, iNextResID := 0, pFirst := [] }

/-- An anonymous entity derived from resource 7 that waits for its core. -/
def exampleDerived : C4Network2Res :=
  (C4Network2Res.SetDerived exampleEnv exampleAnonymous (C4Network2Res.new exampleEnv)
    "Castle.c4s" "Castle.c4s" false .NRT_Scenario 7 100).1

/-- A complete entity with id 7 whose standalone file `f` is in place. -/
def exampleServed : C4Network2Res := { exampleRes 7 with szStandalone := "f" }

/-- An outside world for `HandlePacket` in which nothing needs to be materialised, every
client has a data connection that sends, and the standalone file holds ten bytes. -/
def exampleHandleEnv : HandleEnv :=
  { anon := exampleAnonymous, lim := exampleLimits
    compat := fun _ => { dirExists := false, standalone := examplePlainFile }
    now := 100, load := exampleLoadEnv, loads := fun _ => exampleLoadEnv, io := exampleFileOk
    send := { C4NetResChunkSize := 10240, dataConnection := fun _ => some true
              file := some [1, 2, 3, 4, 5, 6, 7, 8, 9, 10], now := 100 } }

/-- A connection of client 3 that is not open. -/
def exampleClosedConn : C4Network2IOConnection := { isOpen := false, ClientID := 3 }

/-- The empty catalogue of client 1. -/
def exampleEmptyList1 : C4Network2ResList :=
  { iClientID := 1, iNextResID := 65536, pFirst := [] }

/-- The answers to `Derive` when a temporary copy of the file can be made. -/
def exampleDeriveEnv : DeriveEnv :=
  { tempName := { name := "Network/Castle.c4s", ok := true }, copyOk := true, now := 100 }

/-! ## Decoded chunk maps, discovery and transfer progress -/

namespace C4Network2ResChunkData

/-- The three conditions of the bounds check of `AddChunkRange` on exact integers: a
range of a map over `n` chunks that starts at or behind 0, holds at least one chunk and
ends at or before `n`. -/
def validRange (n : Int) (r : ChunkRange) : Bool :=
  decide (0 ≤ r.Start ∧ 0 < r.Length ∧ r.Start + r.Length ≤ n)

/-- The chunk maps built from `SetIncomplete(n)` with a 32-bit `n >= 0` by `AddChunk`,
`AddChunkRange`, `Merge` with a well-formed map over the same chunk count, and the maps
that `GetNegative`, the assignment operator and the copy constructor make of a
well-formed map.  The arguments of `AddChunk` and `AddChunkRange` are 32-bit values whose
sum `iStart + iLength` is a 32-bit value too. -/
inductive BuiltIncomplete : C4Network2ResChunkData → Prop where
  | setIncomplete (d : C4Network2ResChunkData) (n : Int) :
      0 ≤ n → n < 2147483648 → BuiltIncomplete (d.SetIncomplete n)
  | addChunk (d : C4Network2ResChunkData) (iChunk : Int) :
      BuiltIncomplete d → isInt32 iChunk → isInt32 (iChunk + 1) →
      BuiltIncomplete (d.AddChunk iChunk)
  | addChunkRange (d : C4Network2ResChunkData) (iStart iLength : Int) :
      BuiltIncomplete d → isInt32 iStart → isInt32 iLength → isInt32 (iStart + iLength) →
      BuiltIncomplete (d.AddChunkRange iStart iLength)
  | merge (d Data2 : C4Network2ResChunkData) :
      BuiltIncomplete d → WellFormed Data2 → d.iChunkCnt = Data2.iChunkCnt →
      BuiltIncomplete (d.Merge Data2)
  | getNegative (d Target : C4Network2ResChunkData) :
      WellFormed d → BuiltIncomplete (d.GetNegative Target)
  | assign (d Data2 : C4Network2ResChunkData) :
      WellFormed Data2 → BuiltIncomplete (d.assign Data2)
  | copy (Data2 : C4Network2ResChunkData) : WellFormed Data2 → BuiltIncomplete (copy Data2)

/-- A status map as it comes off the wire: three chunks and the one range `[1, 6)`, which
runs over the end of the map. -/
def exampleOutOfBounds : C4Network2ResChunkData :=
  { iChunkCnt := 3, iPresentChunkCnt := 0, pChunkRanges := [{ Start := 1, Length := 5 }],
    iChunkRangeCnt := 1 }

/-- A status map as it comes off the wire: five chunks and the one range that starts at
chunk 1 and has the largest 32-bit length. -/
def exampleOverflowing : C4Network2ResChunkData :=
  { iChunkCnt := 5, iPresentChunkCnt := 0,
    pChunkRanges := [{ Start := 1, Length := 2147483647 }], iChunkRangeCnt := 1 }

/-- A status map as it comes off the wire over ten chunks: ranges out of order, overlapping,
empty, starting in front of chunk 0 and running over the end. -/
def exampleMalformed : C4Network2ResChunkData :=
  { iChunkCnt := 10, iPresentChunkCnt := 0,
    pChunkRanges := [{ Start := 6, Length := 2 }, { Start := 0, Length := 3 },
                     { Start := 2, Length := 2 }, { Start := 5, Length := 0 },
                     { Start := -1, Length := 4 }, { Start := 8, Length := 5 }],
    iChunkRangeCnt := 6 }

end C4Network2ResChunkData

namespace C4Network2Res

/-- `NeedsDiscover` at time `now`: the discover timer is started if it is not running. -/
def NeedsDiscover (now : Int) (r : C4Network2Res) : C4Network2Res × Bool :=
  (if r.iDiscoverStartTime = 0 then { r with iDiscoverStartTime := now } else r, true)

/-- `GetClientProgress(clientID, presentChunkCnt, chunkCnt)`: `none` is the source's
`false` (no availability record of that client), otherwise the present counter of the
first record of the client and the chunk count of the entity's own map. -/
def GetClientProgress (r : C4Network2Res) (clientID : Int) : Option (Int × Int) :=
  match r.pCChunks.find? (fun c => decide (c.ClientID = clientID)) with
  | none => none
  | some chunks => some (chunks.Chunks.iPresentChunkCnt, r.Chunks.iChunkCnt)

/-- The counting part of the bookkeeping invariant of the load slots: the counter is the
length of the list and one slot of `C4NetResMaxLoad` always stays free. -/
def CountInv (lim : LoadLimits) (r : C4Network2Res) : Prop :=
  r.iLoadCnt = r.pLoads.length ∧ (r.pLoads.length : Int) + 1 ≤ lim.C4NetResMaxLoad

/-- The client ids of the availability records, in list order. -/
def clientIDs (r : C4Network2Res) : List Int := r.pCChunks.map (fun c => c.ClientID)

/-- Every availability record holds a well-formed map over the chunk count of the
entity's own map, as `OnStatus` stores it. -/
def StatusInstalled (r : C4Network2Res) : Prop :=
  ∀ c ∈ r.pCChunks, c.Chunks.WellFormed ∧ c.Chunks.iChunkCnt = r.Chunks.iChunkCnt

instance (r : C4Network2Res) : Decidable (StatusInstalled r) := by
  unfold StatusInstalled; infer_instance

end C4Network2Res

namespace C4Network2ResList

/-- The loop of `GetClientProgress`: the two 32-bit sums over the entities that are not
removed and have a record of the client. -/
def progressSums (clientID : Int) : List C4Network2Res → Int × Int → Int × Int
  | [], sums => sums
  | res :: rest, sums =>
    if res.fRemoved then progressSums clientID rest sums
    else
      match res.GetClientProgress clientID with
      | none => progressSums clientID rest sums
      | some pc => progressSums clientID rest (wrap32 (sums.1 + pc.1), wrap32 (sums.2 + pc.2))

/-- `GetClientProgress`: the quotient is the truncating division of `int32_t`. -/
def GetClientProgress (l : C4Network2ResList) (clientID : Int) : Int :=
  let sums := progressSums clientID l.pFirst (0, 0)
  if sums.2 = 0 then 100 else wrap32 (Int.tdiv (wrap32 (sums.1 * 100)) sums.2)

/-- The pairs of present counter and chunk count that the entities of the list which are
not removed report for the client. -/
def holders (clientID : Int) (L : List C4Network2Res) : List (Int × Int) :=
  L.filterMap (fun r => if r.fRemoved then none else r.GetClientProgress clientID)

/-- The exact sum of the present counters reported for the client. -/
def sumPresent (clientID : Int) (L : List C4Network2Res) : Int :=
  ((holders clientID L).map (fun pc => pc.1)).sum

/-- The exact sum of the chunk counts reported for the client. -/
def sumChunks (clientID : Int) (L : List C4Network2Res) : Int :=
  ((holders clientID L).map (fun pc => pc.2)).sum

end C4Network2ResList

/-! ## Further concrete values used in the examples -/

/-- An outside world in which no client has a message connection, at time 200. -/
def exampleNoConnEnv : LoadEnv :=
  { SafeRandom := fun _ => 0, msgConnection := fun _ => none, time := 200 }

/-- The loading example entity of three chunks after peer 9 has announced the complete
file at time 100 (one chunk is requested from it) and the discover timer has been started
at time 110. -/
def exampleWaiting : C4Network2Res :=
  (C4Network2Res.NeedsDiscover 110
    (C4Network2Res.OnStatus exampleLimits exampleLoadEnv (exampleLoading 10 4)
      (C4Network2ResChunkData.new.SetComplete 3) 9)).1

/-- An entity loading a file of 30000000 bytes in chunks of one byte, after peer 9 has
announced the complete file. -/
def exampleManyChunks : C4Network2Res :=
  C4Network2Res.OnStatus exampleLimits exampleLoadEnv (exampleLoading 30000000 1)
    (C4Network2ResChunkData.new.SetComplete 30000000) 9

/-- A catalogue holding `exampleManyChunks`. -/
def exampleProgressList : C4Network2ResList :=
  { iClientID := 0, iNextResID := 0, pFirst := [exampleManyChunks] }

/-- A catalogue of two loading entities of three chunks each: peer 9 has announced chunk 0
of the first and the complete second. -/
def exampleHalfwayList : C4Network2ResList :=
  { iClientID := 0, iNextResID := 0,
    pFirst := [C4Network2Res.OnStatus exampleLimits exampleLoadEnv (exampleLoading 10 4)
                 ((C4Network2ResChunkData.new.SetIncomplete 3).AddChunk 0) 9,
               C4Network2Res.OnStatus exampleLimits exampleLoadEnv (exampleLoading 10 4)
                 (C4Network2ResChunkData.new.SetComplete 3) 9] }

/-! ## Machine integer lemmas -/

theorem wrap32_of_isInt32 (x : Int) (h1 : -2147483648 ≤ x) (h2 : x < 2147483648) :
    wrap32 x = x := by
  unfold wrap32; omega

theorem wrap32_bounds (x : Int) : -2147483648 ≤ wrap32 x ∧ wrap32 x < 2147483648 := by
  unfold wrap32; omega

/-! ## Chunk map lemmas -/

namespace C4Network2ResChunkData

theorem Gapped_tail (a : ChunkRange) (l : List ChunkRange) (h : Gapped (a :: l)) : Gapped l := by
  cases l with
  | nil => trivial
  | cons b rest => exact h.2

theorem Gapped_cons (a : ChunkRange) (l : List ChunkRange) (hl : Gapped l)
    (h : ∀ b ∈ l.head?, a.Start + a.Length < b.Start) : Gapped (a :: l) := by
  cases l with
  | nil => trivial
  | cons b rest => exact ⟨h b (by simp), hl⟩

theorem Gapped_append (A : List ChunkRange) (x : ChunkRange) (B : List ChunkRange) :
    Gapped (A ++ x :: B) ↔ Gapped (A ++ [x]) ∧ Gapped (x :: B) := by
  induction A with
  | nil => simp [Gapped]
  | cons a A ih =>
    cases A with
    | nil =>
      cases B with
      | nil => simp [Gapped]
      | cons b B => simp [Gapped]
    | cons a2 A2 =>
      show (a.Start + a.Length < a2.Start ∧ Gapped (a2 :: A2 ++ x :: B)) ↔
        (a.Start + a.Length < a2.Start ∧ Gapped (a2 :: A2 ++ [x])) ∧ Gapped (x :: B)
      rw [ih]; tauto

theorem Gapped_append_last (A : List ChunkRange) (x y : ChunkRange) (h : x.Start = y.Start)
    (hx : Gapped (A ++ [x])) : Gapped (A ++ [y]) := by
  induction A with
  | nil => trivial
  | cons a A ih =>
    cases A with
    | nil => simp [Gapped] at hx ⊢; omega
    | cons a2 A2 =>
      simp only [List.cons_append, Gapped] at ih hx ⊢
      exact ⟨hx.1, ih hx.2⟩

/-- In a gapped list of ranges with non-negative lengths every later range starts
behind the end of the first. -/
theorem Gapped_start_lt (n : Int) (a : ChunkRange) (l : List ChunkRange)
    (hg : Gapped (a :: l)) (hok : ∀ r ∈ l, rangeOk n r) :
    ∀ r ∈ l, a.Start + a.Length < r.Start := by
  induction l generalizing a with
  | nil => simp
  | cons b rest ih =>
    intro r hr
    rcases List.mem_cons.1 hr with rfl | hr
    · exact hg.1
    · have h1 := ih b hg.2 (fun r hr => hok r (List.mem_cons_of_mem _ hr)) r hr
      have h2 := hok b (List.mem_cons_self _ _)
      unfold rangeOk at h2
      have := hg.1
      omega

theorem inRanges_cons (a : ChunkRange) (l : List ChunkRange) (c : Int) :
    inRanges (a :: l) c ↔ (a.Start ≤ c ∧ c < a.Start + a.Length) ∨ inRanges l c := by
  simp [inRanges]

theorem inRanges_append (A B : List ChunkRange) (c : Int) :
    inRanges (A ++ B) c ↔ inRanges A c ∨ inRanges B c := by
  simp only [inRanges, List.mem_append]
  constructor
  · rintro ⟨r, hr | hr, h⟩
    · exact Or.inl ⟨r, hr, h⟩
    · exact Or.inr ⟨r, hr, h⟩
  · rintro (⟨r, hr, h⟩ | ⟨r, hr, h⟩)
    · exact ⟨r, Or.inl hr, h⟩
    · exact ⟨r, Or.inr hr, h⟩

theorem sumLen_append (A B : List ChunkRange) : sumLen (A ++ B) = sumLen A + sumLen B := by
  induction A with
  | nil => simp [sumLen]
  | cons a A ih => simp [sumLen, ih]; omega

/-- The merge loop started at a node that starts no later than all of its successors:
the node keeps its start, absorbs every successor it touches, the chunks covered and the
difference between the counters and the list stay the same. -/
theorem MergeRangesWhile_spec (n : Int) (hn : n < 2147483648) :
    ∀ (L : List ChunkRange) (p : ChunkRange) (P C : Int),
      0 ≤ p.Start → 0 ≤ p.Length → p.Start + p.Length ≤ n →
      (∀ r ∈ L, rangeOk n r) → Gapped L → (∀ r ∈ L, p.Start ≤ r.Start) →
      (MergeRangesWhile L.length ⟨p, L, P, C⟩).pRange.Start = p.Start ∧
      p.Start + p.Length ≤ (MergeRangesWhile L.length ⟨p, L, P, C⟩).pRange.Start
          + (MergeRangesWhile L.length ⟨p, L, P, C⟩).pRange.Length ∧
      (MergeRangesWhile L.length ⟨p, L, P, C⟩).pRange.Start
          + (MergeRangesWhile L.length ⟨p, L, P, C⟩).pRange.Length ≤ n ∧
      (∀ r ∈ (MergeRangesWhile L.length ⟨p, L, P, C⟩).pNext, rangeOk n r) ∧
      Gapped ((MergeRangesWhile L.length ⟨p, L, P, C⟩).pRange
          :: (MergeRangesWhile L.length ⟨p, L, P, C⟩).pNext) ∧
      (∀ c, inRanges ((MergeRangesWhile L.length ⟨p, L, P, C⟩).pRange
          :: (MergeRangesWhile L.length ⟨p, L, P, C⟩).pNext) c ↔ inRanges (p :: L) c) ∧
      wrap32 ((MergeRangesWhile L.length ⟨p, L, P, C⟩).iPresentChunkCnt
          - sumLen ((MergeRangesWhile L.length ⟨p, L, P, C⟩).pRange
            :: (MergeRangesWhile L.length ⟨p, L, P, C⟩).pNext)) = wrap32 (P - sumLen (p :: L)) ∧
      wrap32 ((MergeRangesWhile L.length ⟨p, L, P, C⟩).iChunkRangeCnt
          - ((MergeRangesWhile L.length ⟨p, L, P, C⟩).pNext.length + 1))
        = wrap32 (C - (L.length + 1)) ∧
      (isInt32 P → isInt32 (MergeRangesWhile L.length ⟨p, L, P, C⟩).iPresentChunkCnt) := by
  intro L
  induction L with
  | nil =>
    intro p P C h0 h1 h2 _ _ _
    simp [MergeRangesWhile, Gapped]
    omega
  | cons q rest ih =>
    intro p P C h0 h1 h2 hok hg hst
    have hq := hok q (List.mem_cons_self _ _)
    have hpq := hst q (List.mem_cons_self _ _)
    unfold rangeOk at hq
    have hwe : wrap32 (p.Start + p.Length) = p.Start + p.Length :=
      wrap32_of_isInt32 _ (by omega) (by omega)
    by_cases hlt : p.Start + p.Length < q.Start
    · have hm : MergeRanges ⟨p, q :: rest, P, C⟩ = none := by
        simp [MergeRanges, hwe, hlt]
      have hs : MergeRangesWhile (q :: rest).length ⟨p, q :: rest, P, C⟩
          = ⟨p, q :: rest, P, C⟩ := by
        simp only [List.length_cons, MergeRangesWhile, hm]
      rw [hs]
      exact ⟨rfl, le_refl _, h2, hok, ⟨hlt, hg⟩, fun c => Iff.rfl, rfl, rfl, id⟩
    · obtain ⟨ov, hov⟩ : ∃ ov, ov = min (p.Start + p.Length - q.Start) q.Length := ⟨_, rfl⟩
      have hw1 : wrap32 (p.Start + p.Length - q.Start) = p.Start + p.Length - q.Start :=
        wrap32_of_isInt32 _ (by omega) (by omega)
      have hw2 : wrap32 (p.Length + wrap32 (q.Length - ov)) = p.Length + (q.Length - ov) := by
        rw [wrap32_of_isInt32 (q.Length - ov) (by omega) (by omega)]
        exact wrap32_of_isInt32 _ (by omega) (by omega)
      have hm : MergeRanges ⟨p, q :: rest, P, C⟩
          = some ⟨⟨p.Start, p.Length + (q.Length - ov)⟩, rest, wrap32 (P - ov), wrap32 (C - 1)⟩ := by
        simp only [MergeRanges, hwe, hlt, if_false, hw1, ← hov, hw2]
      have hs : MergeRangesWhile (q :: rest).length ⟨p, q :: rest, P, C⟩
          = MergeRangesWhile rest.length
              ⟨⟨p.Start, p.Length + (q.Length - ov)⟩, rest, wrap32 (P - ov), wrap32 (C - 1)⟩ := by
        simp only [List.length_cons, MergeRangesWhile, hm]
      rw [hs]
      have hrest : ∀ r ∈ rest, rangeOk n r := fun r hr => hok r (List.mem_cons_of_mem _ hr)
      have hst2 : ∀ r ∈ rest, p.Start ≤ r.Start := fun r hr => hst r (List.mem_cons_of_mem _ hr)
      have IH := ih ⟨p.Start, p.Length + (q.Length - ov)⟩ (wrap32 (P - ov)) (wrap32 (C - 1))
        h0 (by show 0 ≤ p.Length + (q.Length - ov); omega)
        (by show p.Start + (p.Length + (q.Length - ov)) ≤ n; omega) hrest (Gapped_tail _ _ hg) hst2
      obtain ⟨i1, i2, i3, i4, i5, i6, i7, i8, i9⟩ := IH
      refine ⟨i1, ?_, i3, i4, i5, ?_, ?_, ?_, fun _ => i9 (wrap32_bounds _)⟩
      · simp only at i2; omega
      · intro c
        rw [i6 c, inRanges_cons, inRanges_cons, inRanges_cons]
        simp only
        constructor
        · rintro (h | h)
          · by_cases hc : c < p.Start + p.Length
            · exact Or.inl ⟨h.1, hc⟩
            · exact Or.inr (Or.inl ⟨by omega, by omega⟩)
          · exact Or.inr (Or.inr h)
        · rintro (h | h | h)
          · exact Or.inl ⟨h.1, by omega⟩
          · exact Or.inl ⟨by omega, by omega⟩
          · exact Or.inr h
      · rw [i7]; simp only [sumLen, wrap32]; omega
      · rw [i8]; simp only [List.length_cons, wrap32]; push_cast; omega

end C4Network2ResChunkData

namespace C4Network2ResChunkData

theorem Gapped_left (A B : List ChunkRange) (h : Gapped (A ++ B)) : Gapped A := by
  induction A with
  | nil => trivial
  | cons a A ih =>
    cases A with
    | nil => trivial
    | cons a2 A2 => exact ⟨h.1, ih h.2⟩

theorem Gapped_right (A B : List ChunkRange) (h : Gapped (A ++ B)) : Gapped B := by
  induction A with
  | nil => exact h
  | cons a A ih => exact ih (Gapped_tail _ _ h)

/-- A gapped list of ranges inside `[0, n)` covers at most the chunks behind its first
start. -/
theorem sumLen_le (n : Int) (a : ChunkRange) (l : List ChunkRange)
    (hg : Gapped (a :: l)) (hok : ∀ r ∈ a :: l, rangeOk n r) :
    0 ≤ sumLen (a :: l) ∧ a.Start + sumLen (a :: l) ≤ n := by
  induction l generalizing a with
  | nil =>
    have := hok a (List.mem_cons_self _ _)
    unfold rangeOk at this
    simp only [sumLen]; omega
  | cons b rest ih =>
    have ha := hok a (List.mem_cons_self _ _)
    have := ih b hg.2 (fun r hr => hok r (List.mem_cons_of_mem _ hr))
    have := hg.1
    unfold rangeOk at ha
    simp only [sumLen] at *; omega

theorem sumLen_bounds (n : Int) (hn : 0 ≤ n) (l : List ChunkRange)
    (hg : Gapped l) (hok : ∀ r ∈ l, rangeOk n r) : 0 ≤ sumLen l ∧ sumLen l ≤ n := by
  cases l with
  | nil => simp [sumLen, hn]
  | cons a l =>
    have := sumLen_le n a l hg hok
    have ha := hok a (List.mem_cons_self _ _)
    unfold rangeOk at ha
    omega

theorem findPos_spec (iStart : Int) :
    ∀ (l passed : List ChunkRange),
      (findPos iStart passed l).1.reverse ++ (findPos iStart passed l).2 = passed.reverse ++ l ∧
      (∀ r ∈ (findPos iStart passed l).1, r ∈ passed ∨ r.Start < iStart) ∧
      (∀ r ∈ (findPos iStart passed l).2.head?, iStart ≤ r.Start) := by
  intro l
  induction l with
  | nil =>
    intro passed
    refine ⟨by simp [findPos], fun r hr => Or.inl (by simpa [findPos] using hr), ?_⟩
    simp [findPos]
  | cons a l ih =>
    intro passed
    by_cases h : a.Start ≥ iStart
    · have hf : findPos iStart passed (a :: l) = (passed, a :: l) := by
        simp only [findPos, h, if_true]
      rw [hf]
      refine ⟨rfl, fun r hr => Or.inl hr, ?_⟩
      intro r hr
      simp at hr; subst hr; exact h
    · have hf : findPos iStart passed (a :: l) = findPos iStart (a :: passed) l := by
        simp only [findPos, h, if_false]
      rw [hf]
      obtain ⟨h1, h2, h3⟩ := ih (a :: passed)
      refine ⟨by rw [h1]; simp, ?_, h3⟩
      intro r hr
      rcases h2 r hr with h4 | h4
      · rcases List.mem_cons.1 h4 with rfl | h5
        · right; omega
        · exact Or.inl h5
      · exact Or.inr h4

/-- The single merge step in its two outcomes, for a node that starts no later than its
successor. -/
theorem MergeRanges_step (n : Int) (hn : n < 2147483648) (p q : ChunkRange)
    (rest : List ChunkRange) (P C : Int)
    (h0 : 0 ≤ p.Start) (h1 : 0 ≤ p.Length) (h2 : p.Start + p.Length ≤ n)
    (hq : rangeOk n q) (hpq : p.Start ≤ q.Start) :
    (p.Start + p.Length < q.Start → MergeRanges ⟨p, q :: rest, P, C⟩ = none) ∧
    (¬ p.Start + p.Length < q.Start → MergeRanges ⟨p, q :: rest, P, C⟩
      = some ⟨⟨p.Start, p.Length + (q.Length - min (p.Start + p.Length - q.Start) q.Length)⟩,
          rest, wrap32 (P - min (p.Start + p.Length - q.Start) q.Length), wrap32 (C - 1)⟩) := by
  unfold rangeOk at hq
  have hwe : wrap32 (p.Start + p.Length) = p.Start + p.Length :=
    wrap32_of_isInt32 _ (by omega) (by omega)
  constructor
  · intro hlt
    simp [MergeRanges, hwe, hlt]
  · intro hlt
    obtain ⟨ov, hov⟩ : ∃ ov, ov = min (p.Start + p.Length - q.Start) q.Length := ⟨_, rfl⟩
    have hw1 : wrap32 (p.Start + p.Length - q.Start) = p.Start + p.Length - q.Start :=
      wrap32_of_isInt32 _ (by omega) (by omega)
    have hw2 : wrap32 (p.Length + wrap32 (q.Length - ov)) = p.Length + (q.Length - ov) := by
      rw [wrap32_of_isInt32 (q.Length - ov) (by omega) (by omega)]
      exact wrap32_of_isInt32 _ (by omega) (by omega)
    simp only [MergeRanges, hwe, hlt, if_false, hw1, ← hov, hw2]

end C4Network2ResChunkData

namespace C4Network2ResChunkData

/-- An accepted `AddChunkRange` (no 32-bit overflow in the bounds check) on a well-formed
map: the map stays well-formed over the same chunk count, the present set grows by
exactly `[iStart, iStart + iLength)`, and the range counter moves with the list length. -/
theorem AddChunkRange_spec (d : C4Network2ResChunkData) (s l : Int) (hwf : WellFormed d)
    (hs : 0 ≤ s) (hl : 0 < l) (hsl : s + l ≤ d.iChunkCnt) :
    WellFormed (d.AddChunkRange s l) ∧ (d.AddChunkRange s l).iChunkCnt = d.iChunkCnt ∧
    (∀ c, isPresent (d.AddChunkRange s l) c ↔ (isPresent d c ∨ (s ≤ c ∧ c < s + l))) ∧
    wrap32 ((d.AddChunkRange s l).iChunkRangeCnt - (d.AddChunkRange s l).pChunkRanges.length)
      = wrap32 (d.iChunkRangeCnt - d.pChunkRanges.length) := by
  obtain ⟨hn0, hn, hok, hg, hP⟩ := hwf
  have hguard : ¬ (s < 0 ∨ wrap32 (s + l) > d.iChunkCnt ∨ l ≤ 0) := by
    rw [wrap32_of_isInt32 (s + l) (by omega) (by omega)]; omega
  obtain ⟨f1, f2, f3⟩ := findPos_spec s d.pChunkRanges []
  unfold AddChunkRange
  rw [if_neg hguard]
  dsimp only
  generalize findPos s [] d.pChunkRanges = pos at f1 f2 f3 ⊢
  obtain ⟨pre, post⟩ := pos
  simp only [List.reverse_nil, List.nil_append, List.not_mem_nil, false_or] at f1 f2 f3
  have hgpost : Gapped post := Gapped_right pre.reverse post (f1 ▸ hg)
  have hokpost : ∀ r ∈ post, rangeOk d.iChunkCnt r := fun r hr =>
    hok r (f1 ▸ List.mem_append_right _ hr)
  have hstpost : ∀ r ∈ post, s ≤ r.Start := by
    cases post with
    | nil => simp
    | cons b rest =>
      have hb : s ≤ b.Start := f3 b (by simp)
      have hbok := hokpost b (List.mem_cons_self _ _)
      unfold rangeOk at hbok
      intro r hr
      rcases List.mem_cons.1 hr with rfl | hr
      · exact hb
      · have := Gapped_start_lt d.iChunkCnt b rest hgpost
          (fun r hr => hokpost r (List.mem_cons_of_mem _ hr)) r hr
        omega
  have hPr : isInt32 (wrap32 (d.iPresentChunkCnt + l)) := wrap32_bounds _
  cases pre with
  | nil =>
    simp only [List.reverse_nil, List.nil_append] at f1
    obtain ⟨i1, i2, i3, i4, i5, i6, i7, i8, i9⟩ :=
      MergeRangesWhile_spec d.iChunkCnt hn post ⟨s, l⟩ (wrap32 (d.iPresentChunkCnt + l))
        (wrap32 (d.iChunkRangeCnt + 1)) hs (le_of_lt hl) hsl hokpost hgpost hstpost
    generalize MergeRangesWhile post.length
      ⟨⟨s, l⟩, post, wrap32 (d.iPresentChunkCnt + l), wrap32 (d.iChunkRangeCnt + 1)⟩ = st
      at i1 i2 i3 i4 i5 i6 i7 i8 i9 ⊢
    dsimp only at i1 i2 i3
    have hokall : ∀ r ∈ st.pRange :: st.pNext, rangeOk d.iChunkCnt r := by
      intro r hr
      rcases List.mem_cons.1 hr with rfl | hr
      · unfold rangeOk; omega
      · exact i4 r hr
    have hb := sumLen_bounds d.iChunkCnt hn0 _ i5 hokall
    have i9 := i9 hPr
    unfold isInt32 at i9
    refine ⟨⟨hn0, hn, hokall, i5, ?_⟩, rfl, ?_, ?_⟩
    · dsimp only
      rw [hP, ← f1] at i7
      simp only [sumLen, wrap32] at i7 hb ⊢
      omega
    · intro c
      show inRanges (st.pRange :: st.pNext) c ↔ _
      rw [i6 c, inRanges_cons, isPresent, ← f1]
      dsimp only
      constructor
      · rintro (h | h)
        · exact Or.inr h
        · exact Or.inl h
      · rintro (h | h)
        · exact Or.inr h
        · exact Or.inl h
    · dsimp only
      rw [← f1]
      simp only [List.length_cons, wrap32] at i8 ⊢
      push_cast at i8 ⊢
      omega
  | cons pPrev before =>
    have f1a : before.reverse ++ pPrev :: post = d.pChunkRanges := by
      rw [← f1]; simp
    have hpok : rangeOk d.iChunkCnt pPrev := hok pPrev (by rw [← f1a]; simp)
    have hplt : pPrev.Start < s := f2 pPrev (List.mem_cons_self _ _)
    have hokbefore : ∀ r ∈ before.reverse, rangeOk d.iChunkCnt r := fun r hr =>
      hok r (by rw [← f1a]; exact List.mem_append_left _ hr)
    have hgsplit := (Gapped_append before.reverse pPrev post).1 (f1a ▸ hg)
    have hlenall : sumLen d.pChunkRanges = sumLen before.reverse + (pPrev.Length + sumLen post) := by
      rw [← f1a, sumLen_append]; rfl
    have hpresall : ∀ c, isPresent d c ↔
        (inRanges before.reverse c ∨ ((pPrev.Start ≤ c ∧ c < pPrev.Start + pPrev.Length)
          ∨ inRanges post c)) := by
      intro c
      rw [isPresent, ← f1a, inRanges_append, inRanges_cons]
    have hcntall : (d.pChunkRanges.length : Int) = before.reverse.length + (post.length + 1) := by
      rw [← f1a]; simp
    obtain ⟨m1, m2⟩ := MergeRanges_step d.iChunkCnt hn pPrev ⟨s, l⟩ post
      (wrap32 (d.iPresentChunkCnt + l)) (wrap32 (d.iChunkRangeCnt + 1))
      hpok.1 hpok.2.1 hpok.2.2 ⟨hs, le_of_lt hl, hsl⟩ (le_of_lt hplt)
    unfold rangeOk at hpok
    dsimp only at m1 m2 ⊢
    by_cases hlt : pPrev.Start + pPrev.Length < s
    · rw [m1 hlt]
      dsimp only
      obtain ⟨i1, i2, i3, i4, i5, i6, i7, i8, i9⟩ :=
        MergeRangesWhile_spec d.iChunkCnt hn post ⟨s, l⟩ (wrap32 (d.iPresentChunkCnt + l))
          (wrap32 (d.iChunkRangeCnt + 1)) hs (le_of_lt hl) hsl hokpost hgpost hstpost
      generalize MergeRangesWhile post.length
        ⟨⟨s, l⟩, post, wrap32 (d.iPresentChunkCnt + l), wrap32 (d.iChunkRangeCnt + 1)⟩ = st
        at i1 i2 i3 i4 i5 i6 i7 i8 i9 ⊢
      dsimp only at i1 i2 i3
      have hokst : ∀ r ∈ st.pRange :: st.pNext, rangeOk d.iChunkCnt r := by
        intro r hr
        rcases List.mem_cons.1 hr with rfl | hr
        · unfold rangeOk; omega
        · exact i4 r hr
      have hokall : ∀ r ∈ before.reverse ++ pPrev :: st.pRange :: st.pNext,
          rangeOk d.iChunkCnt r := by
        intro r hr
        rcases List.mem_append.1 hr with hr | hr
        · exact hokbefore r hr
        · rcases List.mem_cons.1 hr with rfl | hr
          · exact hpok
          · exact hokst r hr
      have hgall : Gapped (before.reverse ++ pPrev :: st.pRange :: st.pNext) :=
        (Gapped_append _ _ _).2 ⟨hgsplit.1, ⟨by omega, i5⟩⟩
      have hb := sumLen_bounds d.iChunkCnt hn0 _ hgall hokall
      have i9 := i9 hPr
      unfold isInt32 at i9
      refine ⟨⟨hn0, hn, hokall, hgall, ?_⟩, rfl, ?_, ?_⟩
      · dsimp only
        rw [hP, hlenall] at i7
        rw [sumLen_append] at hb ⊢
        simp only [sumLen, wrap32] at i7 hb ⊢
        omega
      · intro c
        show inRanges (before.reverse ++ pPrev :: st.pRange :: st.pNext) c ↔ _
        rw [inRanges_append, inRanges_cons, i6 c, inRanges_cons, hpresall c]
        dsimp only
        constructor
        · rintro (h | h | h | h)
          · exact Or.inl (Or.inl h)
          · exact Or.inl (Or.inr (Or.inl h))
          · exact Or.inr h
          · exact Or.inl (Or.inr (Or.inr h))
        · rintro ((h | h | h) | h)
          · exact Or.inl h
          · exact Or.inr (Or.inl h)
          · exact Or.inr (Or.inr (Or.inr h))
          · exact Or.inr (Or.inr (Or.inl h))
      · dsimp only
        simp only [List.length_append, List.length_cons, wrap32] at i8 hcntall ⊢
        push_cast at i8 hcntall ⊢
        omega
    · rw [m2 hlt]
      dsimp only
      obtain ⟨ov, hov⟩ : ∃ ov, ov = min (pPrev.Start + pPrev.Length - s) l := ⟨_, rfl⟩
      rw [← hov]
      obtain ⟨i1, i2, i3, i4, i5, i6, i7, i8, i9⟩ :=
        MergeRangesWhile_spec d.iChunkCnt hn post ⟨pPrev.Start, pPrev.Length + (l - ov)⟩
          (wrap32 (wrap32 (d.iPresentChunkCnt + l) - ov)) (wrap32 (wrap32 (d.iChunkRangeCnt + 1) - 1))
          hpok.1 (by show 0 ≤ pPrev.Length + (l - ov); omega)
          (by show pPrev.Start + (pPrev.Length + (l - ov)) ≤ d.iChunkCnt; omega)
          hokpost hgpost (fun r hr => by have := hstpost r hr; show pPrev.Start ≤ r.Start; omega)
      generalize MergeRangesWhile post.length
        ⟨⟨pPrev.Start, pPrev.Length + (l - ov)⟩, post,
          wrap32 (wrap32 (d.iPresentChunkCnt + l) - ov),
          wrap32 (wrap32 (d.iChunkRangeCnt + 1) - 1)⟩ = st
        at i1 i2 i3 i4 i5 i6 i7 i8 i9 ⊢
      dsimp only at i1 i2 i3
      have hokst : ∀ r ∈ st.pRange :: st.pNext, rangeOk d.iChunkCnt r := by
        intro r hr
        rcases List.mem_cons.1 hr with rfl | hr
        · unfold rangeOk; omega
        · exact i4 r hr
      have hokall : ∀ r ∈ before.reverse ++ st.pRange :: st.pNext,
          rangeOk d.iChunkCnt r := by
        intro r hr
        rcases List.mem_append.1 hr with hr | hr
        · exact hokbefore r hr
        · exact hokst r hr
      have hgall : Gapped (before.reverse ++ st.pRange :: st.pNext) :=
        (Gapped_append _ _ _).2 ⟨Gapped_append_last _ pPrev st.pRange i1.symm hgsplit.1, i5⟩
      have hb := sumLen_bounds d.iChunkCnt hn0 _ hgall hokall
      have i9 := i9 (wrap32_bounds _)
      unfold isInt32 at i9
      refine ⟨⟨hn0, hn, hokall, hgall, ?_⟩, rfl, ?_, ?_⟩
      · dsimp only
        rw [hP, hlenall] at i7
        rw [sumLen_append] at hb ⊢
        simp only [sumLen, wrap32] at i7 hb ⊢
        omega
      · intro c
        show inRanges (before.reverse ++ st.pRange :: st.pNext) c ↔ _
        rw [inRanges_append, i6 c, inRanges_cons, hpresall c]
        dsimp only
        constructor
        · rintro (h | h | h)
          · exact Or.inl (Or.inl h)
          · by_cases hc : c < pPrev.Start + pPrev.Length
            · exact Or.inl (Or.inr (Or.inl ⟨h.1, hc⟩))
            · exact Or.inr ⟨by omega, by omega⟩
          · exact Or.inl (Or.inr (Or.inr h))
        · rintro ((h | h | h) | h)
          · exact Or.inl h
          · exact Or.inr (Or.inl ⟨h.1, by omega⟩)
          · exact Or.inr (Or.inr h)
          · exact Or.inr (Or.inl ⟨by omega, by omega⟩)
      · dsimp only
        simp only [List.length_append, List.length_cons, wrap32] at i8 hcntall ⊢
        push_cast at i8 hcntall ⊢
        omega

end C4Network2ResChunkData

namespace C4Network2ResChunkData

/-- A range that the bounds check of `AddChunkRange` rejects leaves the map untouched. -/
theorem AddChunkRange_rejected (d : C4Network2ResChunkData) (s l : Int)
    (h : s < 0 ∨ wrap32 (s + l) > d.iChunkCnt ∨ l ≤ 0) : d.AddChunkRange s l = d := by
  unfold AddChunkRange
  rw [if_pos h]

/-- Adding a list of ranges that all lie inside `[0, iChunkCnt)`. -/
theorem foldl_AddChunkRange_spec (L : List ChunkRange) :
    ∀ (d : C4Network2ResChunkData), WellFormed d → (∀ r ∈ L, rangeOk d.iChunkCnt r) →
      WellFormed (L.foldl (fun acc r => acc.AddChunkRange r.Start r.Length) d) ∧
      (L.foldl (fun acc r => acc.AddChunkRange r.Start r.Length) d).iChunkCnt = d.iChunkCnt ∧
      (∀ c, isPresent (L.foldl (fun acc r => acc.AddChunkRange r.Start r.Length) d) c ↔
        (isPresent d c ∨ inRanges L c)) := by
  induction L with
  | nil => intro d hwf _; simp [inRanges]; exact hwf
  | cons r L ih =>
    intro d hwf hok
    have hr := hok r (List.mem_cons_self _ _)
    unfold rangeOk at hr
    simp only [List.foldl_cons]
    by_cases hl : 0 < r.Length
    · obtain ⟨a1, a2, a3, _⟩ := AddChunkRange_spec d r.Start r.Length hwf hr.1 hl hr.2.2
      obtain ⟨b1, b2, b3⟩ := ih (d.AddChunkRange r.Start r.Length) a1
        (fun x hx => a2 ▸ hok x (List.mem_cons_of_mem _ hx))
      refine ⟨b1, b2.trans a2, fun c => ?_⟩
      rw [b3 c, a3 c, inRanges_cons]
      constructor
      · rintro ((h | h) | h)
        · exact Or.inl h
        · exact Or.inr (Or.inl h)
        · exact Or.inr (Or.inr h)
      · rintro (h | h | h)
        · exact Or.inl (Or.inl h)
        · exact Or.inl (Or.inr h)
        · exact Or.inr h
    · rw [AddChunkRange_rejected d r.Start r.Length (Or.inr (Or.inr (by omega)))]
      obtain ⟨b1, b2, b3⟩ := ih d hwf (fun x hx => hok x (List.mem_cons_of_mem _ hx))
      refine ⟨b1, b2, fun c => ?_⟩
      rw [b3 c, inRanges_cons]
      constructor
      · rintro (h | h)
        · exact Or.inl h
        · exact Or.inr (Or.inr h)
      · rintro (h | h | h)
        · exact Or.inl h
        · omega
        · exact Or.inr h

/-- `Merge` of two well-formed maps over the same chunk count is their union. -/
theorem Merge_spec (d Data2 : C4Network2ResChunkData) (hd : WellFormed d)
    (h2 : WellFormed Data2) (hcnt : d.iChunkCnt = Data2.iChunkCnt) :
    WellFormed (d.Merge Data2) ∧ (d.Merge Data2).iChunkCnt = d.iChunkCnt ∧
    (∀ c, isPresent (d.Merge Data2) c ↔ (isPresent d c ∨ isPresent Data2 c)) :=
  foldl_AddChunkRange_spec Data2.pChunkRanges d hd (hcnt ▸ h2.2.2.1)

/-- Adding a list of single chunks none of which is the largest `int32_t`: exactly the
listed chunks inside `[0, iChunkCnt)` become present. -/
theorem foldl_AddChunk_spec (L : List Int) :
    ∀ (d : C4Network2ResChunkData), WellFormed d →
      (∀ x ∈ L, isInt32 x ∧ x ≠ 2147483647) →
      WellFormed (L.foldl (fun acc c => acc.AddChunk c) d) ∧
      (L.foldl (fun acc c => acc.AddChunk c) d).iChunkCnt = d.iChunkCnt ∧
      (∀ c, isPresent (L.foldl (fun acc c => acc.AddChunk c) d) c ↔
        (isPresent d c ∨ (c ∈ L ∧ 0 ≤ c ∧ c < d.iChunkCnt))) := by
  induction L with
  | nil => intro d hwf _; simp; exact hwf
  | cons x L ih =>
    intro d hwf hL
    have hx := hL x (List.mem_cons_self _ _)
    unfold isInt32 at hx
    simp only [List.foldl_cons]
    by_cases hin : 0 ≤ x ∧ x + 1 ≤ d.iChunkCnt
    · obtain ⟨a1, a2, a3, _⟩ := AddChunkRange_spec d x 1 hwf hin.1 (by omega) hin.2
      obtain ⟨b1, b2, b3⟩ := ih (d.AddChunk x) a1 (fun y hy => hL y (List.mem_cons_of_mem _ hy))
      refine ⟨b1, b2.trans a2, fun c => ?_⟩
      have a2' : (d.AddChunk x).iChunkCnt = d.iChunkCnt := a2
      rw [b3 c, a2']
      have a3c : isPresent (d.AddChunk x) c ↔ (isPresent d c ∨ (x ≤ c ∧ c < x + 1)) := a3 c
      rw [a3c, List.mem_cons]
      constructor
      · rintro ((h | h) | h)
        · exact Or.inl h
        · exact Or.inr ⟨Or.inl (by omega), by omega, by omega⟩
        · exact Or.inr ⟨Or.inr h.1, h.2⟩
      · rintro (h | ⟨h | h, h2⟩)
        · exact Or.inl (Or.inl h)
        · exact Or.inl (Or.inr (by omega))
        · exact Or.inr ⟨h, h2⟩
    · have hrej : d.AddChunk x = d := by
        apply AddChunkRange_rejected
        rw [wrap32_of_isInt32 (x + 1) (by omega) (by omega)]
        omega
      rw [hrej]
      obtain ⟨b1, b2, b3⟩ := ih d hwf (fun y hy => hL y (List.mem_cons_of_mem _ hy))
      refine ⟨b1, b2, fun c => ?_⟩
      rw [b3 c, List.mem_cons]
      constructor
      · rintro (h | h)
        · exact Or.inl h
        · exact Or.inr ⟨Or.inr h.1, h.2⟩
      · rintro (h | ⟨h | h, h2⟩)
        · exact Or.inl h
        · omega
        · exact Or.inr ⟨h, h2⟩

theorem SetIncomplete_wf (d : C4Network2ResChunkData) (n : Int) (h0 : 0 ≤ n)
    (hn : n < 2147483648) : WellFormed (d.SetIncomplete n) := by
  refine ⟨h0, hn, ?_, trivial, rfl⟩
  intro r hr
  simp [SetIncomplete, Clear] at hr

theorem SetComplete_wf (d : C4Network2ResChunkData) (n : Int) (h0 : 0 ≤ n)
    (hn : n < 2147483648) : WellFormed (d.SetComplete n) := by
  refine ⟨h0, hn, ?_, trivial, ?_⟩
  · intro r hr
    simp only [SetComplete, Clear, List.mem_singleton] at hr
    subst hr
    exact ⟨le_refl _, h0, by simp [SetComplete]⟩
  · simp [SetComplete, Clear, sumLen]

/-- The loop of `GetNegative` on a gapped list of ranges that starts at or behind
`iFreeStart`: the target receives exactly the chunks between `iFreeStart` and the end of
the last range that are in none of the ranges. -/
theorem GetNegativeLoop_spec (n : Int) (hn : n < 2147483648) (L : List ChunkRange) :
    ∀ (free : Int) (T : C4Network2ResChunkData), WellFormed T → T.iChunkCnt = n →
      0 ≤ free → free ≤ n → (∀ r ∈ L, rangeOk n r) → Gapped L → (∀ r ∈ L, free ≤ r.Start) →
      WellFormed (GetNegativeLoop L free T).2 ∧ (GetNegativeLoop L free T).2.iChunkCnt = n ∧
      free ≤ (GetNegativeLoop L free T).1 ∧ (GetNegativeLoop L free T).1 ≤ n ∧
      (∀ c, inRanges L c → c < (GetNegativeLoop L free T).1) ∧
      (∀ c, isPresent (GetNegativeLoop L free T).2 c ↔
        (isPresent T c ∨ (free ≤ c ∧ c < (GetNegativeLoop L free T).1 ∧ ¬ inRanges L c))) := by
  induction L with
  | nil =>
    intro free T hT hTn h0 h1 _ _ _
    refine ⟨hT, hTn, le_refl _, h1, ?_, ?_⟩
    · intro c hc; simp [inRanges] at hc
    · intro c
      simp only [GetNegativeLoop]
      constructor
      · exact Or.inl
      · rintro (h | h)
        · exact h
        · omega
  | cons r L ih =>
    intro free T hT hTn h0 h1 hok hg hst
    have hr := hok r (List.mem_cons_self _ _)
    have hfr := hst r (List.mem_cons_self _ _)
    unfold rangeOk at hr
    have hlater := Gapped_start_lt n r L hg (fun x hx => hok x (List.mem_cons_of_mem _ hx))
    have hw1 : wrap32 (r.Start + r.Length) = r.Start + r.Length :=
      wrap32_of_isInt32 _ (by omega) (by omega)
    have hw2 : wrap32 (r.Start - free) = r.Start - free :=
      wrap32_of_isInt32 _ (by omega) (by omega)
    simp only [GetNegativeLoop, hw1, hw2]
    have hT1 : WellFormed (T.AddChunkRange free (r.Start - free)) ∧
        (T.AddChunkRange free (r.Start - free)).iChunkCnt = n ∧
        (∀ c, isPresent (T.AddChunkRange free (r.Start - free)) c ↔
          (isPresent T c ∨ (free ≤ c ∧ c < r.Start))) := by
      by_cases hpos : 0 < r.Start - free
      · obtain ⟨a1, a2, a3, _⟩ := AddChunkRange_spec T free (r.Start - free) hT h0 hpos
          (by rw [hTn]; omega)
        refine ⟨a1, a2.trans hTn, fun c => ?_⟩
        rw [a3 c]
        constructor
        · rintro (h | h)
          · exact Or.inl h
          · exact Or.inr ⟨h.1, by omega⟩
        · rintro (h | h)
          · exact Or.inl h
          · exact Or.inr ⟨h.1, by omega⟩
      · rw [AddChunkRange_rejected T free (r.Start - free) (Or.inr (Or.inr (by omega)))]
        refine ⟨hT, hTn, fun c => ?_⟩
        constructor
        · exact Or.inl
        · rintro (h | h)
          · exact h
          · omega
    obtain ⟨t1, t2, t3⟩ := hT1
    obtain ⟨i1, i2, i3, i4, i5, i6⟩ := ih (r.Start + r.Length) (T.AddChunkRange free (r.Start - free))
      t1 t2 (by omega) hr.2.2 (fun x hx => hok x (List.mem_cons_of_mem _ hx)) (Gapped_tail _ _ hg)
      (fun x hx => le_of_lt (hlater x hx))
    refine ⟨i1, i2, by omega, i4, ?_, ?_⟩
    · intro c hc
      rcases (inRanges_cons r L c).1 hc with h | h
      · omega
      · exact i5 c h
    · intro c
      rw [i6 c, t3 c, inRanges_cons]
      have hnotL : c < r.Start + r.Length → ¬ inRanges L c := by
        rintro hc ⟨x, hx, hx1, _⟩
        have := hlater x hx
        omega
      constructor
      · rintro ((h | h) | h)
        · exact Or.inl h
        · exact Or.inr ⟨h.1, by omega, fun hh => by
            rcases hh with hh | hh
            · omega
            · exact hnotL (by omega) hh⟩
        · exact Or.inr ⟨by omega, h.2.1, fun hh => by
            rcases hh with hh | hh
            · omega
            · exact h.2.2 hh⟩
      · rintro (h | ⟨h1, h2, h3⟩)
        · exact Or.inl (Or.inl h)
        · by_cases hc : c < r.Start
          · exact Or.inl (Or.inr ⟨h1, hc⟩)
          · have : ¬ c < r.Start + r.Length := fun hh => h3 (Or.inl ⟨by omega, hh⟩)
            exact Or.inr ⟨by omega, h2, fun hh => h3 (Or.inr hh)⟩

/-- `GetNegative` of a well-formed map is the well-formed map of its absent chunks. -/
theorem GetNegative_spec (d Target : C4Network2ResChunkData) (hd : WellFormed d) :
    WellFormed (d.GetNegative Target) ∧ (d.GetNegative Target).iChunkCnt = d.iChunkCnt ∧
    (∀ c, isPresent (d.GetNegative Target) c ↔
      (0 ≤ c ∧ c < d.iChunkCnt ∧ ¬ isPresent d c)) := by
  obtain ⟨hn0, hn, hok, hg, hP⟩ := hd
  have hT0 : WellFormed (Target.SetIncomplete d.iChunkCnt) := SetIncomplete_wf _ _ hn0 hn
  have hst : ∀ r ∈ d.pChunkRanges, (0 : Int) ≤ r.Start := fun r hr => (hok r hr).1
  obtain ⟨i1, i2, i3, i4, i5, i6⟩ := GetNegativeLoop_spec d.iChunkCnt hn d.pChunkRanges 0
    (Target.SetIncomplete d.iChunkCnt) hT0 rfl (le_refl _) hn0 hok hg hst
  unfold GetNegative
  dsimp only
  generalize GetNegativeLoop d.pChunkRanges 0 (Target.SetIncomplete d.iChunkCnt) = st
    at i1 i2 i3 i4 i5 i6 ⊢
  have hw : wrap32 (d.iChunkCnt - st.1) = d.iChunkCnt - st.1 :=
    wrap32_of_isInt32 _ (by omega) (by omega)
  rw [hw]
  have hempty : ∀ c, ¬ isPresent (Target.SetIncomplete d.iChunkCnt) c := by
    rintro c ⟨r, hr, _⟩
    simp [SetIncomplete, Clear] at hr
  by_cases hpos : 0 < d.iChunkCnt - st.1
  · obtain ⟨a1, a2, a3, _⟩ := AddChunkRange_spec st.2 st.1 (d.iChunkCnt - st.1) i1 i3 hpos
      (by rw [i2]; omega)
    refine ⟨a1, a2.trans i2, fun c => ?_⟩
    rw [a3 c, i6 c]
    constructor
    · rintro ((h | h) | h)
      · exact absurd h (hempty c)
      · exact ⟨h.1, by omega, h.2.2⟩
      · exact ⟨by omega, by omega, fun hh => by have := i5 c hh; omega⟩
    · rintro ⟨h1, h2, h3⟩
      by_cases hc : c < st.1
      · exact Or.inl (Or.inr ⟨h1, hc, h3⟩)
      · exact Or.inr ⟨by omega, by omega⟩
  · rw [AddChunkRange_rejected st.2 st.1 (d.iChunkCnt - st.1) (Or.inr (Or.inr (by omega)))]
    refine ⟨i1, i2, fun c => ?_⟩
    rw [i6 c]
    constructor
    · rintro (h | h)
      · exact absurd h (hempty c)
      · exact ⟨h.1, by omega, h.2.2⟩
    · rintro ⟨h1, h2, h3⟩
      exact Or.inr ⟨h1, by omega, h3⟩

end C4Network2ResChunkData

namespace C4Network2ResChunkData

theorem mem_chunksOf (L : List ChunkRange) (c : Int) : c ∈ chunksOf L ↔ inRanges L c := by
  induction L with
  | nil => simp [chunksOf, inRanges]
  | cons r L ih =>
    rw [inRanges_cons, ← ih]
    simp only [chunksOf, List.mem_append, List.mem_map, List.mem_range]
    constructor
    · rintro (⟨i, hi, rfl⟩ | h)
      · left; omega
      · exact Or.inr h
    · rintro (h | h)
      · exact Or.inl ⟨(c - r.Start).toNat, by omega, by omega⟩
      · exact Or.inr h

theorem chunksOf_length (n : Int) (L : List ChunkRange) (hok : ∀ r ∈ L, rangeOk n r) :
    ((chunksOf L).length : Int) = sumLen L := by
  induction L with
  | nil => simp [chunksOf, sumLen]
  | cons r L ih =>
    have hr := hok r (List.mem_cons_self _ _)
    unfold rangeOk at hr
    have := ih (fun x hx => hok x (List.mem_cons_of_mem _ hx))
    simp only [chunksOf, sumLen, List.length_append, List.length_map, List.length_range]
    push_cast
    omega

theorem chunksOf_sorted (n : Int) (L : List ChunkRange) (hok : ∀ r ∈ L, rangeOk n r)
    (hg : Gapped L) : (chunksOf L).Pairwise (· < ·) := by
  induction L with
  | nil => simp [chunksOf]
  | cons r L ih =>
    have hr := hok r (List.mem_cons_self _ _)
    unfold rangeOk at hr
    have hokL : ∀ x ∈ L, rangeOk n x := fun x hx => hok x (List.mem_cons_of_mem _ hx)
    have hlater := Gapped_start_lt n r L hg hokL
    simp only [chunksOf]
    rw [List.pairwise_append]
    refine ⟨?_, ih hokL (Gapped_tail _ _ hg), ?_⟩
    · exact (List.pairwise_lt_range _).map _ (fun a b hab => by omega)
    · intro a ha b hb
      simp only [List.mem_map, List.mem_range] at ha
      obtain ⟨i, hi, rfl⟩ := ha
      obtain ⟨x, hx, hx1, _⟩ := (mem_chunksOf L b).1 hb
      have := hlater x hx
      omega

/-- `getPresentChunk` returns the entry number `k` of the chunk enumeration when
`0 <= k < sum of lengths`. -/
theorem getPresentChunkLoop_spec (n : Int) (hn : n < 2147483648) (L : List ChunkRange) :
    ∀ (k : Int), (∀ r ∈ L, rangeOk n r) → 0 ≤ k → k < 2147483648 → k < sumLen L →
      (chunksOf L)[k.toNat]? = some (getPresentChunkLoop L k) := by
  induction L with
  | nil => intro k _ h0 _ h1; simp [sumLen] at h1; omega
  | cons r L ih =>
    intro k hok h0 hk32 h1
    have hr := hok r (List.mem_cons_self _ _)
    unfold rangeOk at hr
    have hokL : ∀ x ∈ L, rangeOk n x := fun x hx => hok x (List.mem_cons_of_mem _ hx)
    simp only [sumLen] at h1
    by_cases hk : k < r.Length
    · simp only [getPresentChunkLoop, hk, if_true, chunksOf]
      rw [List.getElem?_append_left (by simp; omega)]
      rw [List.getElem?_map, List.getElem?_range (by omega)]
      simp only [Option.map_some']
      rw [wrap32_of_isInt32 _ (by omega) (by omega)]
      congr 1
      omega
    · simp only [getPresentChunkLoop, hk, if_false, chunksOf]
      rw [wrap32_of_isInt32 (k - r.Length) (by omega) (by omega)]
      rw [List.getElem?_append_right (by simp; omega)]
      rw [← ih (k - r.Length) hokL (by omega) (by omega) (by omega)]
      congr 1
      simp only [List.length_map, List.length_range]
      omega

theorem candidates_sorted (d Available : C4Network2ResChunkData) (pLoading : List Int) :
    (candidates d Available pLoading).Pairwise (· < ·) := by
  unfold candidates
  apply List.Pairwise.filter
  exact (List.pairwise_lt_range _).map _ (fun a b hab => by omega)

theorem mem_candidates (d Available : C4Network2ResChunkData) (pLoading : List Int) (c : Int) :
    c ∈ candidates d Available pLoading ↔
      (0 ≤ c ∧ c < d.iChunkCnt ∧ isPresent Available c ∧ ¬ isPresent d c ∧ c ∉ pLoading) := by
  unfold candidates
  simp only [List.mem_filter, List.mem_map, List.mem_range, decide_eq_true_eq]
  constructor
  · rintro ⟨⟨i, hi, rfl⟩, h⟩
    exact ⟨by omega, by omega, h⟩
  · rintro ⟨h0, h1, h⟩
    exact ⟨⟨c.toNat, by omega, by omega⟩, h⟩

/-- Two strictly increasing lists of integers with the same members are equal. -/
theorem eq_of_sorted_of_mem_iff (l1 l2 : List Int) (h1 : l1.Pairwise (· < ·))
    (h2 : l2.Pairwise (· < ·)) (h : ∀ c, c ∈ l1 ↔ c ∈ l2) : l1 = l2 := by
  have n1 : l1.Nodup := List.Sorted.nodup h1
  have n2 : l2.Nodup := List.Sorted.nodup h2
  exact List.eq_of_perm_of_sorted ((List.perm_ext_iff_of_nodup n1 n2).2 h) h1 h2

end C4Network2ResChunkData

namespace C4Network2ResChunkData

theorem isPresent_bounds (m : C4Network2ResChunkData) (hm : WellFormed m) (c : Int)
    (hc : isPresent m c) : 0 ≤ c ∧ c < m.iChunkCnt := by
  obtain ⟨r, hr, h1, h2⟩ := hc
  have := hm.2.2.1 r hr
  unfold rangeOk at this
  omega

/-- The ranges of a well-formed map enumerate its present chunks in increasing order. -/
theorem chunksOf_eq_filter (m : C4Network2ResChunkData) (hm : WellFormed m) :
    chunksOf m.pChunkRanges = ((List.range m.iChunkCnt.toNat).map (fun (i : Nat) => (i : Int))).filter
      (fun c => decide (isPresent m c)) := by
  apply eq_of_sorted_of_mem_iff
  · exact chunksOf_sorted m.iChunkCnt _ hm.2.2.1 hm.2.2.2.1
  · apply List.Pairwise.filter
    exact (List.pairwise_lt_range _).map _ (fun a b hab => by omega)
  · intro c
    rw [mem_chunksOf]
    simp only [List.mem_filter, List.mem_map, List.mem_range, decide_eq_true_eq]
    constructor
    · intro h
      have := isPresent_bounds m hm c h
      exact ⟨⟨c.toNat, by omega, by omega⟩, h⟩
    · exact fun h => h.2

/-- A well-formed map is complete exactly when every chunk of `[0, iChunkCnt)` is
present. -/
theorem isComplete_iff (m : C4Network2ResChunkData) (hm : WellFormed m) :
    m.isComplete = true ↔ ∀ c, 0 ≤ c → c < m.iChunkCnt → isPresent m c := by
  have hlen := chunksOf_length m.iChunkCnt m.pChunkRanges hm.2.2.1
  rw [chunksOf_eq_filter m hm, ← hm.2.2.2.2] at hlen
  have hn0 := hm.1
  have hrl : (((List.range m.iChunkCnt.toNat).map (fun (i : Nat) => (i : Int))).length : Int)
      = m.iChunkCnt := by
    simp only [List.length_map, List.length_range]; omega
  unfold isComplete
  rw [beq_iff_eq]
  constructor
  · intro h c h0 h1
    have h2 : (((List.range m.iChunkCnt.toNat).map (fun (i : Nat) => (i : Int))).filter
        (fun c => decide (isPresent m c))).length
        = ((List.range m.iChunkCnt.toNat).map (fun (i : Nat) => (i : Int))).length := by
      omega
    have h3 := List.filter_length_eq_length.1 h2 c
      (List.mem_map.2 ⟨c.toNat, List.mem_range.2 (by omega), by omega⟩)
    simpa using h3
  · intro h
    have h2 : (((List.range m.iChunkCnt.toNat).map (fun (i : Nat) => (i : Int))).filter
        (fun c => decide (isPresent m c))).length
        = ((List.range m.iChunkCnt.toNat).map (fun (i : Nat) => (i : Int))).length := by
      apply List.filter_length_eq_length.2
      intro a ha
      obtain ⟨i, hi, rfl⟩ := List.mem_map.1 ha
      have hi2 := List.mem_range.1 hi
      simp only [decide_eq_true_eq]
      exact h _ (by omega) (by omega)
    omega

/-- `GetChunkToRetrieve` on well-formed maps with in-flight chunk numbers below the
largest `int32_t`: nothing is returned when there is no candidate, otherwise the candidate
whose rank is the random draw. -/
theorem GetChunkToRetrieve_spec (d Available : C4Network2ResChunkData) (pLoading : List Int)
    (SafeRandom : Int → Int) (hd : WellFormed d) (ha : WellFormed Available)
    (hcnt : d.iChunkCnt = Available.iChunkCnt)
    (hL : ∀ x ∈ pLoading, isInt32 x ∧ x ≠ 2147483647)
    (hrnd : ∀ n, 0 < n → 0 ≤ SafeRandom n ∧ SafeRandom n < n) :
    (candidates d Available pLoading = [] →
      d.GetChunkToRetrieve Available pLoading SafeRandom = -1) ∧
    (candidates d Available pLoading ≠ [] →
      (candidates d Available pLoading)[(SafeRandom
          (candidates d Available pLoading).length).toNat]?
        = some (d.GetChunkToRetrieve Available pLoading SafeRandom)) := by
  obtain ⟨a1, a2, a3⟩ := GetNegative_spec Available new ha
  obtain ⟨m1, m2, m3⟩ := Merge_spec (Available.GetNegative new) d a1 hd (by rw [a2, hcnt])
  obtain ⟨f1, f2, f3⟩ := foldl_AddChunk_spec pLoading ((Available.GetNegative new).Merge d) m1 hL
  have hcd : (pLoading.foldl (fun acc c => acc.AddChunk c)
      ((Available.GetNegative new).Merge d)).iChunkCnt = d.iChunkCnt := by
    rw [f2, m2, a2, hcnt]
  have hpres : ∀ c, isPresent (pLoading.foldl (fun acc c => acc.AddChunk c)
      ((Available.GetNegative new).Merge d)) c ↔
      (((0 ≤ c ∧ c < d.iChunkCnt ∧ ¬ isPresent Available c) ∨ isPresent d c) ∨
        (c ∈ pLoading ∧ 0 ≤ c ∧ c < d.iChunkCnt)) := by
    intro c
    rw [f3 c, m3 c, a3 c, m2, a2, hcnt]
  obtain ⟨n1, n2, n3⟩ := GetNegative_spec (pLoading.foldl (fun acc c => acc.AddChunk c)
      ((Available.GetNegative new).Merge d)) new f1
  have hcomp := isComplete_iff _ f1
  unfold GetChunkToRetrieve
  dsimp only
  generalize pLoading.foldl (fun acc c => acc.AddChunk c)
      ((Available.GetNegative new).Merge d) = ChData at f1 hcd hpres n1 n2 n3 hcomp ⊢
  have hmem : ∀ c, c ∈ chunksOf (ChData.GetNegative new).pChunkRanges ↔
      c ∈ candidates d Available pLoading := by
    intro c
    rw [mem_chunksOf, mem_candidates]
    have hn3 : inRanges (ChData.GetNegative new).pChunkRanges c ↔
        (0 ≤ c ∧ c < ChData.iChunkCnt ∧ ¬ isPresent ChData c) := n3 c
    rw [hn3, hpres c, hcd]
    constructor
    · rintro ⟨h0, h1, h2⟩
      refine ⟨h0, h1, ?_, ?_, ?_⟩
      · by_contra h
        exact h2 (Or.inl (Or.inl ⟨h0, h1, h⟩))
      · exact fun h => h2 (Or.inl (Or.inr h))
      · exact fun h => h2 (Or.inr ⟨h, h0, h1⟩)
    · rintro ⟨h0, h1, h2, h3, h4⟩
      refine ⟨h0, h1, ?_⟩
      rintro ((h | h) | h)
      · exact h.2.2 h2
      · exact h3 h
      · exact h4 h.1
  have heq : chunksOf (ChData.GetNegative new).pChunkRanges = candidates d Available pLoading :=
    eq_of_sorted_of_mem_iff _ _ (chunksOf_sorted _ _ n1.2.2.1 n1.2.2.2.1)
      (candidates_sorted _ _ _) hmem
  have hlen : ((candidates d Available pLoading).length : Int)
      = (ChData.GetNegative new).iPresentChunkCnt := by
    rw [← heq, chunksOf_length _ _ n1.2.2.1, n1.2.2.2.2]
  have hnone : ChData.isComplete = true ↔ candidates d Available pLoading = [] := by
    rw [hcomp]
    constructor
    · intro h
      apply List.eq_nil_iff_forall_not_mem.2
      intro c hc
      rw [← hmem c, mem_chunksOf] at hc
      have hn3 := (n3 c).1 hc
      exact hn3.2.2 (h c hn3.1 hn3.2.1)
    · intro h c h0 h1
      by_contra hc
      have : c ∈ candidates d Available pLoading := by
        rw [← hmem c, mem_chunksOf]
        exact (n3 c).2 ⟨h0, h1, hc⟩
      rw [h] at this
      exact absurd this (List.not_mem_nil _)
  constructor
  · intro h
    rw [if_pos (hnone.2 h)]
  · intro h
    have hnc : ¬ ChData.isComplete = true := fun hc => h (hnone.1 hc)
    rw [if_neg hnc, ← hlen]
    have hpos : (0 : Int) < ((candidates d Available pLoading).length : Int) := by
      have := List.length_pos.2 h
      omega
    obtain ⟨r0, r1⟩ := hrnd _ hpos
    have hb := n1.2.1
    have hsl := sumLen_bounds _ n1.1 _ n1.2.2.2.1 n1.2.2.1
    have hlen2 : ((candidates d Available pLoading).length : Int)
        = sumLen (ChData.GetNegative new).pChunkRanges := by rw [hlen, n1.2.2.2.2]
    have key := getPresentChunkLoop_spec (ChData.GetNegative new).iChunkCnt hb
      (ChData.GetNegative new).pChunkRanges
      (SafeRandom ((candidates d Available pLoading).length : Int)) n1.2.2.1 r0
      (by omega) (by omega)
    rw [heq] at key
    exact key

end C4Network2ResChunkData

namespace C4Network2ResChunkData

/-- `AddChunkRange` with arguments whose sum does not overflow keeps a well-formed map
well-formed over the same chunk count, whether the range is accepted or rejected. -/
theorem AddChunkRange_wf (d : C4Network2ResChunkData) (s l : Int) (hwf : WellFormed d)
    (hsum : isInt32 (s + l)) :
    WellFormed (d.AddChunkRange s l) ∧ (d.AddChunkRange s l).iChunkCnt = d.iChunkCnt := by
  unfold isInt32 at hsum
  by_cases hg : s < 0 ∨ wrap32 (s + l) > d.iChunkCnt ∨ l ≤ 0
  · rw [AddChunkRange_rejected d s l hg]
    exact ⟨hwf, rfl⟩
  · rw [wrap32_of_isInt32 (s + l) hsum.1 hsum.2] at hg
    obtain ⟨a1, a2, _, _⟩ := AddChunkRange_spec d s l hwf (by omega) (by omega) (by omega)
    exact ⟨a1, a2⟩

/-- The assignment operator stores a well-formed copy of a well-formed map. -/
theorem assign_wf (d Data2 : C4Network2ResChunkData) (h2 : WellFormed Data2) :
    WellFormed (d.assign Data2) ∧ (d.assign Data2).iChunkCnt = Data2.iChunkCnt ∧
    (∀ c, isPresent (d.assign Data2) c ↔ isPresent Data2 c) := by
  have h0 : WellFormed (d.SetIncomplete Data2.iChunkCnt) :=
    SetIncomplete_wf d _ h2.1 h2.2.1
  obtain ⟨m1, m2, m3⟩ := Merge_spec (d.SetIncomplete Data2.iChunkCnt) Data2 h0 h2 rfl
  refine ⟨m1, m2, fun c => ?_⟩
  have hm : isPresent (d.assign Data2) c ↔
      (isPresent (d.SetIncomplete Data2.iChunkCnt) c ∨ isPresent Data2 c) := m3 c
  rw [hm]
  constructor
  · rintro (⟨r, hr, _⟩ | h)
    · simp [SetIncomplete, Clear] at hr
    · exact h
  · exact Or.inr

/-- The assignment operator does not depend on the previous content of its target. -/
theorem assign_eq (d Data2 : C4Network2ResChunkData) : d.assign Data2 = new.assign Data2 := rfl

/-- Every chunk map built by the chunk-map operations without a 32-bit overflow in the
bounds check of `AddChunkRange` is well-formed: ranges sorted by start with a gap between
neighbours, inside `[0, iChunkCnt)`, and the present counter equal to the sum of the range
lengths. -/
theorem Built_wf (d : C4Network2ResChunkData) (h : Built d) : WellFormed d := by
  induction h with
  | setIncomplete d n h0 hn => exact SetIncomplete_wf d n h0 hn
  | setComplete d n h0 hn => exact SetComplete_wf d n h0 hn
  | addChunk d iChunk _ _ hsum ih => exact (AddChunkRange_wf d iChunk 1 ih hsum).1
  | addChunkRange d iStart iLength _ _ _ hsum ih => exact (AddChunkRange_wf d iStart iLength ih hsum).1
  | merge d Data2 _ _ hcnt ih1 ih2 => exact (Merge_spec d Data2 ih1 ih2 hcnt).1
  | getNegative d Target _ ih => exact (GetNegative_spec d Target ih).1
  | assign d Data2 _ ih => exact (assign_wf d Data2 ih).1
  | copy Data2 _ ih =>
    have h0 : WellFormed ⟨Data2.iChunkCnt, 0, [], 0⟩ :=
      ⟨ih.1, ih.2.1, fun r hr => by simp at hr, trivial, rfl⟩
    exact (Merge_spec _ Data2 h0 ih rfl).1

end C4Network2ResChunkData

namespace C4Network2ResChunkData

theorem findPos_all_lt (iStart : Int) :
    ∀ (l passed : List ChunkRange), (∀ r ∈ l, r.Start < iStart) →
      findPos iStart passed l = (l.reverse ++ passed, []) := by
  intro l
  induction l with
  | nil => intro passed _; simp [findPos]
  | cons a l ih =>
    intro passed h
    have ha := h a (List.mem_cons_self _ _)
    have hf : findPos iStart passed (a :: l) = findPos iStart (a :: passed) l := by
      simp only [findPos, if_neg (show ¬ a.Start ≥ iStart by omega)]
    rw [hf, ih (a :: passed) (fun r hr => h r (List.mem_cons_of_mem _ hr))]
    simp

/-- A gapped list of non-empty ranges has at most as many ranges as chunks. -/
theorem length_le_sumLen (L : List ChunkRange) (hpos : ∀ r ∈ L, 0 < r.Length) :
    (L.length : Int) ≤ sumLen L := by
  induction L with
  | nil => simp [sumLen]
  | cons r L ih =>
    have := hpos r (List.mem_cons_self _ _)
    have := ih (fun x hx => hpos x (List.mem_cons_of_mem _ hx))
    simp only [List.length_cons, sumLen]
    push_cast
    omega

/-- Appending a non-empty range behind all ranges of a map with correct counters:
`AddChunkRange` links it at the end and merges nothing. -/
theorem AddChunkRange_append (n : Int) (A : List ChunkRange) (r : ChunkRange)
    (hn0 : 0 ≤ n) (hn : n < 2147483648)
    (hok : ∀ x ∈ A ++ [r], rangeOk n x) (hpos : ∀ x ∈ A ++ [r], 0 < x.Length)
    (hg : Gapped (A ++ [r])) :
    AddChunkRange ⟨n, sumLen A, A, A.length⟩ r.Start r.Length
      = ⟨n, sumLen (A ++ [r]), A ++ [r], (A ++ [r]).length⟩ := by
  have hr := hok r (by simp)
  have hrpos := hpos r (by simp)
  unfold rangeOk at hr
  have hsum := sumLen_bounds n hn0 (A ++ [r]) hg hok
  have hlen := length_le_sumLen (A ++ [r]) hpos
  rw [sumLen_append] at hsum hlen
  simp only [sumLen, List.length_append, List.length_singleton] at hsum hlen
  push_cast at hlen
  have hguard : ¬ (r.Start < 0 ∨ wrap32 (r.Start + r.Length) > n ∨ r.Length ≤ 0) := by
    rw [wrap32_of_isInt32 _ (by omega) (by omega)]; omega
  have hlt : ∀ x ∈ A, x.Start + x.Length < r.Start := by
    intro x hx
    obtain ⟨pre, post, rfl⟩ := List.append_of_mem hx
    have h1 : Gapped (x :: (post ++ [r])) := by
      have := Gapped_right pre (x :: post ++ [r]) (by simpa using hg)
      simpa using this
    exact Gapped_start_lt n x (post ++ [r]) h1
      (fun y hy => hok y (by simp at hy ⊢; tauto)) r (by simp)
  have hstart : ∀ x ∈ A, x.Start < r.Start := by
    intro x hx
    have h1 := hlt x hx
    have h2 := (hok x (List.mem_append_left _ hx)).2.1
    omega
  have hw1 : wrap32 (sumLen A + r.Length) = sumLen A + r.Length :=
    wrap32_of_isInt32 _ (by omega) (by omega)
  have hw2 : wrap32 ((A.length : Int) + 1) = (A.length : Int) + 1 :=
    wrap32_of_isInt32 _ (by omega) (by omega)
  unfold AddChunkRange
  rw [if_neg hguard]
  dsimp only
  rw [findPos_all_lt r.Start A [] hstart, hw1, hw2]
  simp only [List.append_nil, List.length_nil, MergeRangesWhile]
  rcases hrev : A.reverse with _ | ⟨pPrev, before⟩
  · have hA : A = [] := by simpa using hrev
    subst hA
    simp [sumLen]
  · have hA : A = before.reverse ++ [pPrev] := by
      have := congrArg List.reverse hrev
      simpa using this
    have hp := hlt pPrev (by rw [hA]; simp)
    have hpok := hok pPrev (by rw [hA]; simp)
    unfold rangeOk at hpok
    have hm : MergeRanges ⟨pPrev, [⟨r.Start, r.Length⟩], sumLen A + r.Length, (A.length : Int) + 1⟩
        = none := by
      have hwe : wrap32 (pPrev.Start + pPrev.Length) = pPrev.Start + pPrev.Length :=
        wrap32_of_isInt32 _ (by omega) (by omega)
      simp [MergeRanges, hwe, hp]
    dsimp only
    rw [hm]
    dsimp only
    rw [sumLen_append, hA]
    simp [sumLen]
    omega

/-- Adding the ranges of a well-formed list of non-empty ranges one after the other to a
map that already holds the ranges in front of them rebuilds the list with its counters. -/
theorem foldl_AddChunkRange_rebuild (n : Int) (hn0 : 0 ≤ n) (hn : n < 2147483648) :
    ∀ (B A : List ChunkRange), (∀ x ∈ A ++ B, rangeOk n x) → (∀ x ∈ A ++ B, 0 < x.Length) →
      Gapped (A ++ B) →
      B.foldl (fun acc r => acc.AddChunkRange r.Start r.Length)
          (⟨n, sumLen A, A, A.length⟩ : C4Network2ResChunkData)
        = ⟨n, sumLen (A ++ B), A ++ B, (A ++ B).length⟩ := by
  intro B
  induction B with
  | nil => intro A _ _ _; simp
  | cons r B ih =>
    intro A hok hpos hg
    have hsplit : A ++ r :: B = (A ++ [r]) ++ B := by simp
    rw [hsplit] at hok hpos hg ⊢
    simp only [List.foldl_cons]
    rw [AddChunkRange_append n A r hn0 hn
      (fun x hx => hok x (List.mem_append_left _ hx))
      (fun x hx => hpos x (List.mem_append_left _ hx)) (Gapped_left _ _ hg)]
    exact ih (A ++ [r]) hok hpos hg

/-- The copy of a map whose ranges are well-formed and non-empty has the same chunk
count and ranges, the present counter equal to the sum of the range lengths and the range
counter equal to the number of ranges, whatever the two counters of the original. -/
theorem copy_rebuild (D : C4Network2ResChunkData) (hn0 : 0 ≤ D.iChunkCnt)
    (hn : D.iChunkCnt < 2147483648) (hok : ∀ x ∈ D.pChunkRanges, rangeOk D.iChunkCnt x)
    (hpos : ∀ x ∈ D.pChunkRanges, 0 < x.Length) (hg : Gapped D.pChunkRanges) :
    copy D = ⟨D.iChunkCnt, sumLen D.pChunkRanges, D.pChunkRanges, D.pChunkRanges.length⟩ ∧
    new.assign D = ⟨D.iChunkCnt, sumLen D.pChunkRanges, D.pChunkRanges, D.pChunkRanges.length⟩ := by
  have h := foldl_AddChunkRange_rebuild D.iChunkCnt hn0 hn D.pChunkRanges []
    (by simpa using hok) (by simpa using hpos) (by simpa using hg)
  simp only [List.nil_append, sumLen, List.length_nil] at h
  exact ⟨h, h⟩

end C4Network2ResChunkData

/-! ## Claims on the chunk map -/

namespace C4Network2ResChunkData

/-- C1 (failing input): on a map over 5 chunks `AddChunkRange(1, 2147483647)` passes the
bounds check, because `iStart + iLength` wraps to `-2147483648` in 32-bit arithmetic, and
stores the range `[1, 2147483648)`; the resulting map is not well-formed, its range ends
behind the chunk count and its present counter exceeds the chunk count. -/
theorem AddChunkRange_overflow_breaks_invariant :
    (new.SetIncomplete 5).AddChunkRange 1 2147483647
      = { iChunkCnt := 5, iPresentChunkCnt := 2147483647,
          pChunkRanges := [{ Start := 1, Length := 2147483647 }], iChunkRangeCnt := 1 } ∧
    WellFormed (new.SetIncomplete 5) ∧
    ¬ WellFormed ((new.SetIncomplete 5).AddChunkRange 1 2147483647) ∧
    ¬ (∀ r ∈ ((new.SetIncomplete 5).AddChunkRange 1 2147483647).pChunkRanges,
        r.Start + r.Length ≤ ((new.SetIncomplete 5).AddChunkRange 1 2147483647).iChunkCnt) := by
  decide

/-- C2 (failing input): both maps complete over 2147483647 chunks, in-flight list
`[2147483647, 7]`, random draw `0`: chunk 8 is returned although it is present in the own
map. The in-flight entry 2147483647 passes the bounds check of `AddChunkRange`, whose sum
`iStart + iLength` wraps in 32-bit arithmetic, and the merged range hides the end of the
map from `GetNegative`. -/
theorem GetChunkToRetrieve_overflow_returns_present :
    WellFormed (new.SetComplete 2147483647) ∧
    (∀ n : Int, 0 < n → 0 ≤ (fun _ : Int => (0 : Int)) n ∧ (fun _ : Int => (0 : Int)) n < n) ∧
    (new.SetComplete 2147483647).GetChunkToRetrieve (new.SetComplete 2147483647)
      [2147483647, 7] (fun _ => 0) = 8 ∧
    isPresent (new.SetComplete 2147483647) 8 :=
  ⟨by decide, fun _ hn => ⟨le_refl 0, hn⟩, by decide, by decide⟩

/-- Soundness of the retrieval choice away from the overflowing bounds check (the
behaviour C2 describes): for well-formed maps over the same chunk count, in-flight chunk
numbers that are 32-bit values other than 2147483647 and a random source that draws from
`[0, n)`: a chunk returned by `GetChunkToRetrieve` (not `-1`) lies in `[0, iChunkCnt)`,
is present in `Available`, is not present in the own map and is not in flight. -/
theorem GetChunkToRetrieve_sound (d Available : C4Network2ResChunkData) (pLoading : List Int)
    (SafeRandom : Int → Int) (hd : WellFormed d) (ha : WellFormed Available)
    (hcnt : d.iChunkCnt = Available.iChunkCnt)
    (hL : ∀ x ∈ pLoading, isInt32 x ∧ x ≠ 2147483647)
    (hrnd : ∀ n, 0 < n → 0 ≤ SafeRandom n ∧ SafeRandom n < n)
    (hret : d.GetChunkToRetrieve Available pLoading SafeRandom ≠ -1) :
    0 ≤ d.GetChunkToRetrieve Available pLoading SafeRandom ∧
    d.GetChunkToRetrieve Available pLoading SafeRandom < d.iChunkCnt ∧
    isPresent Available (d.GetChunkToRetrieve Available pLoading SafeRandom) ∧
    ¬ isPresent d (d.GetChunkToRetrieve Available pLoading SafeRandom) ∧
    d.GetChunkToRetrieve Available pLoading SafeRandom ∉ pLoading := by
  obtain ⟨h1, h2⟩ := GetChunkToRetrieve_spec d Available pLoading SafeRandom hd ha hcnt hL hrnd
  by_cases hc : candidates d Available pLoading = []
  · exact absurd (h1 hc) hret
  · have hmem := List.getElem?_mem (h2 hc)
    exact (mem_candidates d Available pLoading _).1 hmem

/-- Instance of `GetChunkToRetrieve_sound`: own map `{0}` of 3 chunks, peer complete,
chunk 1 in flight, draw 0: chunk 2 is returned. -/
theorem GetChunkToRetrieve_sound_witness :
    0 ≤ ((new.SetIncomplete 3).AddChunk 0).GetChunkToRetrieve (new.SetComplete 3) [1] (fun _ => 0) ∧
    ((new.SetIncomplete 3).AddChunk 0).GetChunkToRetrieve (new.SetComplete 3) [1] (fun _ => 0)
      < ((new.SetIncomplete 3).AddChunk 0).iChunkCnt ∧
    isPresent (new.SetComplete 3)
      (((new.SetIncomplete 3).AddChunk 0).GetChunkToRetrieve (new.SetComplete 3) [1] (fun _ => 0)) ∧
    ¬ isPresent ((new.SetIncomplete 3).AddChunk 0)
      (((new.SetIncomplete 3).AddChunk 0).GetChunkToRetrieve (new.SetComplete 3) [1] (fun _ => 0)) ∧
    ((new.SetIncomplete 3).AddChunk 0).GetChunkToRetrieve (new.SetComplete 3) [1] (fun _ => 0)
      ∉ [1] :=
  GetChunkToRetrieve_sound ((new.SetIncomplete 3).AddChunk 0) (new.SetComplete 3) [1]
    (fun _ => 0) (by decide) (by decide) (by decide) (by decide)
    (fun _ hn => ⟨le_refl 0, hn⟩) (by decide)

/-- C3 (failing input): own map empty over 1 chunk, peer complete, in-flight list
`[2147483647]`: `-1` is returned although chunk 0 is present at the peer, absent here and
not in flight. The in-flight entry passes the bounds check of `AddChunkRange`, whose sum
`iStart + iLength` wraps in 32-bit arithmetic, is counted as a present chunk, and the
present counter reaches the chunk count. -/
theorem GetChunkToRetrieve_overflow_returns_none :
    WellFormed (new.SetIncomplete 1) ∧ WellFormed (new.SetComplete 1) ∧
    (new.SetIncomplete 1).GetChunkToRetrieve (new.SetComplete 1) [2147483647] (fun _ => 0) = -1 ∧
    isPresent (new.SetComplete 1) 0 ∧ ¬ isPresent (new.SetIncomplete 1) 0 ∧
    (0 : Int) ∉ [(2147483647 : Int)] := by
  decide

/-- Completeness of the retrieval choice away from the overflowing bounds check (the
behaviour C3 describes): for well-formed maps over the same chunk count, in-flight chunk
numbers that are 32-bit values other than 2147483647 and a random source that draws from
`[0, n)`: `GetChunkToRetrieve` returns `-1` exactly when every chunk present in
`Available` is present in the own map or in flight; otherwise it returns the candidate
whose rank among the candidates in increasing order is the draw `SafeRandom(number of
candidates)`. -/
theorem GetChunkToRetrieve_complete (d Available : C4Network2ResChunkData) (pLoading : List Int)
    (SafeRandom : Int → Int) (hd : WellFormed d) (ha : WellFormed Available)
    (hcnt : d.iChunkCnt = Available.iChunkCnt)
    (hL : ∀ x ∈ pLoading, isInt32 x ∧ x ≠ 2147483647)
    (hrnd : ∀ n, 0 < n → 0 ≤ SafeRandom n ∧ SafeRandom n < n) :
    (d.GetChunkToRetrieve Available pLoading SafeRandom = -1 ↔
      ∀ c, isPresent Available c → (isPresent d c ∨ c ∈ pLoading)) ∧
    (d.GetChunkToRetrieve Available pLoading SafeRandom ≠ -1 →
      (candidates d Available pLoading)[(SafeRandom
          (candidates d Available pLoading).length).toNat]?
        = some (d.GetChunkToRetrieve Available pLoading SafeRandom)) := by
  obtain ⟨h1, h2⟩ := GetChunkToRetrieve_spec d Available pLoading SafeRandom hd ha hcnt hL hrnd
  have hnil : candidates d Available pLoading = [] ↔
      ∀ c, isPresent Available c → (isPresent d c ∨ c ∈ pLoading) := by
    constructor
    · intro h c hc
      by_contra hn
      have hb := isPresent_bounds Available ha c hc
      have : c ∈ candidates d Available pLoading :=
        (mem_candidates d Available pLoading c).2
          ⟨hb.1, hcnt ▸ hb.2, hc, fun h => hn (Or.inl h), fun h => hn (Or.inr h)⟩
      rw [h] at this
      exact absurd this (List.not_mem_nil _)
    · intro h
      apply List.eq_nil_iff_forall_not_mem.2
      intro c hc
      obtain ⟨_, _, h3, h4, h5⟩ := (mem_candidates d Available pLoading c).1 hc
      rcases h c h3 with h6 | h6
      · exact h4 h6
      · exact h5 h6
  constructor
  · rw [← hnil]
    constructor
    · intro h
      by_contra hc
      have hmem := List.getElem?_mem (h2 hc)
      rw [h] at hmem
      have := ((mem_candidates d Available pLoading _).1 hmem).1
      omega
    · exact h1
  · intro h
    by_cases hc : candidates d Available pLoading = []
    · exact absurd (h1 hc) h
    · exact h2 hc

/-- Instance of `GetChunkToRetrieve_complete`: own map `{0}` of 3 chunks, peer complete,
chunk 1 in flight. -/
theorem GetChunkToRetrieve_complete_witness :
    (((new.SetIncomplete 3).AddChunk 0).GetChunkToRetrieve (new.SetComplete 3) [1] (fun _ => 0)
        = -1 ↔
      ∀ c, isPresent (new.SetComplete 3) c →
        (isPresent ((new.SetIncomplete 3).AddChunk 0) c ∨ c ∈ [(1 : Int)])) ∧
    (((new.SetIncomplete 3).AddChunk 0).GetChunkToRetrieve (new.SetComplete 3) [1] (fun _ => 0)
        ≠ -1 →
      (candidates ((new.SetIncomplete 3).AddChunk 0) (new.SetComplete 3) [1])[((fun _ : Int => (0 : Int))
          (candidates ((new.SetIncomplete 3).AddChunk 0) (new.SetComplete 3) [1]).length).toNat]?
        = some (((new.SetIncomplete 3).AddChunk 0).GetChunkToRetrieve (new.SetComplete 3) [1]
            (fun _ => 0))) :=
  GetChunkToRetrieve_complete ((new.SetIncomplete 3).AddChunk 0) (new.SetComplete 3) [1]
    (fun _ => 0) (by decide) (by decide) (by decide) (by decide)
    (fun _ hn => ⟨le_refl 0, hn⟩)

end C4Network2ResChunkData

/-! ## Claims on chunk assembly, serialisation and resource ids -/

/-- C4 (failing input): a core for a 10 byte file in chunks of 4 bytes has 3 chunks; with
the compile-time chunk size 10240 `Set` builds chunk 0 from all 10 bytes, chunk 1 from
the 6 bytes behind offset 4 and chunk 2 from the 2 bytes behind offset 8: 18 bytes in
total, since the size is capped by the compile-time constant and not by the chunk size
of the core. -/
theorem Set_caps_by_compile_time_chunk_size :
    (exampleCore 10 4).getChunkCnt = 3 ∧
    C4Network2ResChunk.Set 10240 (exampleCore 10 4) (some [10, 11, 12, 13, 14, 15, 16, 17, 18, 19]) 0
      = some { iResID := 7, iChunk := 0, Data := [10, 11, 12, 13, 14, 15, 16, 17, 18, 19] } ∧
    C4Network2ResChunk.Set 10240 (exampleCore 10 4) (some [10, 11, 12, 13, 14, 15, 16, 17, 18, 19]) 1
      = some { iResID := 7, iChunk := 1, Data := [14, 15, 16, 17, 18, 19] } ∧
    C4Network2ResChunk.Set 10240 (exampleCore 10 4) (some [10, 11, 12, 13, 14, 15, 16, 17, 18, 19]) 2
      = some { iResID := 7, iChunk := 2, Data := [18, 19] } := by
  decide

namespace C4Network2ResChunkData

theorem rangesToWire_length (L : List ChunkRange) :
    ∃ w, rangesToWire L.length L = some w ∧ rangesFromWire L.length w = .ok L := by
  induction L with
  | nil => exact ⟨[], rfl, rfl⟩
  | cons r L ih =>
    obtain ⟨w, h1, h2⟩ := ih
    refine ⟨.int r.Start :: .int r.Length :: w, ?_, ?_⟩
    · simp only [List.length_cons, rangesToWire, h1]
    · simp only [List.length_cons, rangesFromWire, h2]

/-- C8 (counterexample): the map built by `SetIncomplete(5)` and `AddChunk(1)` has one
present chunk; the map decoded from its serialised form has the same chunk count and
ranges but a present counter of 0. -/
theorem CompileFunc_loses_present_count :
    CompileFuncWrite ((new.SetIncomplete 5).AddChunk 1)
      = .ok [.int 5, .int 1, .int 1, .int 1] ∧
    CompileFuncRead new [.int 5, .int 1, .int 1, .int 1]
      = .ok { iChunkCnt := 5, iPresentChunkCnt := 0,
              pChunkRanges := [{ Start := 1, Length := 1 }], iChunkRangeCnt := 1 } ∧
    ((new.SetIncomplete 5).AddChunk 1).iPresentChunkCnt = 1 := by
  have h : (new.SetIncomplete 5).AddChunk 1
      = { iChunkCnt := 5, iPresentChunkCnt := 1, pChunkRanges := [{ Start := 1, Length := 1 }],
          iChunkRangeCnt := 1 } := by decide
  rw [h]
  exact ⟨rfl, rfl, rfl⟩

/-- C8 (amended): for every chunk map whose range counter equals the number of ranges in
its list, writing succeeds and reading the written values into any chunk map yields the
same chunk count, the same ranges and the same range counter, with the present counter
at 0; if the map is well-formed with non-empty ranges, the copy of the decoded map (copy
construction or assignment) is the map itself, present counter included. -/
theorem ChunkData_CompileFunc_roundtrip (d Target : C4Network2ResChunkData)
    (hcnt : d.iChunkRangeCnt = d.pChunkRanges.length) :
    ∃ w decoded, CompileFuncWrite d = .ok w ∧ CompileFuncRead Target w = .ok decoded ∧
      decoded.iChunkCnt = d.iChunkCnt ∧ decoded.pChunkRanges = d.pChunkRanges ∧
      decoded.iChunkRangeCnt = d.iChunkRangeCnt ∧ decoded.iPresentChunkCnt = 0 ∧
      (WellFormed d → (∀ x ∈ d.pChunkRanges, 0 < x.Length) →
        copy decoded = d ∧ new.assign decoded = d) := by
  obtain ⟨w, h1, h2⟩ := rangesToWire_length d.pChunkRanges
  have hn : d.iChunkRangeCnt.toNat = d.pChunkRanges.length := by omega
  refine ⟨.int d.iChunkCnt :: .int d.iChunkRangeCnt :: w,
    ⟨d.iChunkCnt, 0, d.pChunkRanges, d.iChunkRangeCnt⟩, ?_, ?_, rfl, rfl, rfl, rfl, ?_⟩
  · simp only [CompileFuncWrite, hn, h1]
  · simp only [CompileFuncRead, hn, h2, Clear]
  · intro hwf hpos
    obtain ⟨hn0, hn32, hok, hg, hP⟩ := hwf
    have hd : d = ⟨d.iChunkCnt, sumLen d.pChunkRanges, d.pChunkRanges, d.pChunkRanges.length⟩ := by
      cases d
      simp only at hP hcnt
      rw [hP, hcnt]
    have hc := copy_rebuild ⟨d.iChunkCnt, 0, d.pChunkRanges, d.iChunkRangeCnt⟩ hn0 hn32 hok hpos hg
    dsimp only at hc
    rw [← hd] at hc
    exact hc

/-- C8 (witness): the map built by `SetIncomplete(5)` and `AddChunk(1)`. -/
theorem ChunkData_CompileFunc_roundtrip_witness :
    ∃ w decoded, CompileFuncWrite ((new.SetIncomplete 5).AddChunk 1) = .ok w ∧
      CompileFuncRead new w = .ok decoded ∧
      decoded.iChunkCnt = ((new.SetIncomplete 5).AddChunk 1).iChunkCnt ∧
      decoded.pChunkRanges = ((new.SetIncomplete 5).AddChunk 1).pChunkRanges ∧
      decoded.iChunkRangeCnt = ((new.SetIncomplete 5).AddChunk 1).iChunkRangeCnt ∧
      decoded.iPresentChunkCnt = 0 ∧
      (WellFormed ((new.SetIncomplete 5).AddChunk 1) →
        (∀ x ∈ ((new.SetIncomplete 5).AddChunk 1).pChunkRanges, 0 < x.Length) →
        copy decoded = (new.SetIncomplete 5).AddChunk 1 ∧
        new.assign decoded = (new.SetIncomplete 5).AddChunk 1) :=
  ChunkData_CompileFunc_roundtrip ((new.SetIncomplete 5).AddChunk 1) new (by decide)

end C4Network2ResChunkData

namespace C4Network2ResCore

/-- C9 (counterexample): a loadable core with chunk size 4 that has been cleared is not
loadable and keeps the chunk size 4; its serialised form carries no chunk size, and the
core decoded into a default-constructed one has the compile-time chunk size 10240. -/
theorem CompileFunc_loses_chunk_size :
    (exampleCore 10 4).Clear.fLoadable = false ∧ (exampleCore 10 4).Clear.iChunkSize = 4 ∧
    CompileFuncWrite exampleEnv (exampleCore 10 4).Clear
      = .ok [.int 0, .int (-1), .int (-1), .bool false, .int 4294967295, .bool false,
             .str "", .str ""] ∧
    (CompileFuncRead exampleEnv (new exampleEnv)
        [.int 0, .int (-1), .int (-1), .bool false, .int 4294967295, .bool false,
         .str "", .str ""]).toOption.map (fun c => c.iChunkSize) = some 10240 := by
  refine ⟨rfl, rfl, rfl, rfl⟩

/-- C9 (amended): a core that is loadable with a non-zero chunk size, or not loadable
with file size, file CRC and chunk size at their default-constructed values, and whose
file name and author pass the net-filename adaptor unchanged, is written without error
and read back into a default-constructed core with every field equal; the SHA bytes are
compared when a SHA is present. -/
theorem Core_CompileFunc_roundtrip (env : CoreEnv) (c : C4Network2ResCore)
    (hload : (c.fLoadable = true ∧ c.iChunkSize ≠ 0) ∨
      (c.fLoadable = false ∧ c.iFileSize = 4294967295 ∧ c.iFileCRC = 4294967295 ∧
        c.iChunkSize = env.C4NetResChunkSize))
    (hname : env.netFilenameRead (env.netFilenameWrite c.FileName) = c.FileName)
    (hauthor : env.netFilenameRead (env.netFilenameWrite c.Author) = c.Author) :
    ∃ w, CompileFuncWrite env c = .ok w ∧
      CompileFuncRead env (new env) w
        = .ok { c with FileSHA := if c.fHasFileSHA then c.FileSHA else [] } := by
  obtain ⟨eType, iID, iDerID, fLoadable, iFileSize, iFileCRC, iContentsCRC, iChunkSize,
    fHasFileSHA, FileSHA, FileName, Author⟩ := c
  have hty : C4Network2ResType.ofCode eType.toCode = some eType := by
    cases eType <;> rfl
  simp only at hload hname hauthor
  rcases hload with ⟨h1, h2⟩ | ⟨h1, h2, h3, h4⟩
  · subst h1
    cases fHasFileSHA
    · refine ⟨_, by simp only [CompileFuncWrite, if_true, if_neg h2]; rfl, ?_⟩
      simp [CompileFuncRead, CompileFuncReadTail, hty, h2, hname, hauthor, new]
    · refine ⟨_, by simp only [CompileFuncWrite, if_true, if_neg h2]; rfl, ?_⟩
      simp [CompileFuncRead, CompileFuncReadTail, hty, h2, hname, hauthor, new]
  · subst h1 h2 h3 h4
    cases fHasFileSHA
    · refine ⟨_, by simp only [CompileFuncWrite]; rfl, ?_⟩
      simp [CompileFuncRead, CompileFuncReadTail, hty, hname, hauthor, new]
    · refine ⟨_, by simp only [CompileFuncWrite]; rfl, ?_⟩
      simp [CompileFuncRead, CompileFuncReadTail, hty, hname, hauthor, new]

/-- C9 (witness): the loadable example core. -/
theorem Core_CompileFunc_roundtrip_witness :
    ∃ w, CompileFuncWrite exampleEnv (exampleCore 10 4) = .ok w ∧
      CompileFuncRead exampleEnv (new exampleEnv) w
        = .ok { exampleCore 10 4 with
                FileSHA := if (exampleCore 10 4).fHasFileSHA then (exampleCore 10 4).FileSHA
                           else [] } :=
  Core_CompileFunc_roundtrip exampleEnv (exampleCore 10 4) (Or.inl ⟨rfl, by decide⟩) rfl rfl

end C4Network2ResCore

namespace C4Network2ResList

/-- C10 (failing input): local client 0, counter 65534 inside the window `[0, 65536)`,
catalogue holding the ids 65534 and 65535: `nextResID` returns 65536, the first id of the
window of client 1. -/
theorem nextResID_leaves_window :
    (nextResID { iClientID := 0, iNextResID := 65534,
                 pFirst := [exampleRes 65534, exampleRes 65535] }).1 = 65536 ∧
    ¬ ((nextResID { iClientID := 0, iNextResID := 65534,
                    pFirst := [exampleRes 65534, exampleRes 65535] }).1 < (0 + 1) * 65536) := by
  decide

end C4Network2ResList

/-- With the chunk size of the core equal to the compile-time `C4NetResChunkSize`, and a
file below `2^31` bytes, `Set` builds chunk `i < chunkCnt` from exactly the bytes
`[i * C, min((i + 1) * C, S))` of the file. -/
theorem Set_covers_with_default_chunk_size (D : Int) (Core : C4Network2ResCore)
    (bytes : List Nat) (i : Int) (hD : 0 < D) (hD32 : D < 2147483648)
    (hC : Core.iChunkSize = D) (hS0 : 0 < Core.iFileSize) (hS : Core.iFileSize < 2147483648)
    (hlen : (bytes.length : Int) = Core.iFileSize) (hi0 : 0 ≤ i) (hi : i < Core.getChunkCnt) :
    C4Network2ResChunk.Set D Core (some bytes) i
      = some { iResID := Core.iID, iChunk := i,
               Data := (bytes.drop (i * D).toNat).take (min (Core.iFileSize - i * D) D).toNat } ∧
    0 < min (Core.iFileSize - i * D) D := by
  have hq0 : 0 ≤ (Core.iFileSize - 1) / D := Int.ediv_nonneg (by omega) (by omega)
  have hqle : (Core.iFileSize - 1) / D ≤ Core.iFileSize - 1 :=
    Int.ediv_le_self _ (by omega)
  have hcnt : Core.getChunkCnt = (Core.iFileSize - 1) / D + 1 := by
    unfold C4Network2ResCore.getChunkCnt wrapU32
    rw [if_pos ⟨by omega, by omega⟩, hC]
    omega
  rw [hcnt] at hi
  have hmul : i * D ≤ Core.iFileSize - 1 := by
    have h1 : i * D ≤ (Core.iFileSize - 1) / D * D :=
      Int.mul_le_mul_of_nonneg_right (by omega) (by omega)
    have h2 : (Core.iFileSize - 1) / D * D ≤ Core.iFileSize - 1 :=
      Int.ediv_mul_le _ (by omega)
    omega
  have hmul0 : 0 ≤ i * D := Int.mul_nonneg hi0 (by omega)
  unfold C4Network2ResChunk.Set
  rw [hC]
  generalize i * D = o at hmul hmul0 ⊢
  have ho : wrap32 (wrapU32 o) = o := by unfold wrap32 wrapU32; omega
  have hsz : min (wrap32 (wrapU32 (Core.iFileSize - wrapU32 o))) (wrap32 D)
      = min (Core.iFileSize - o) D := by
    unfold wrap32 wrapU32; omega
  simp only [ho, hsz]
  have hpos : 0 < min (Core.iFileSize - o) D := by omega
  have hbuf : (((bytes.drop o.toNat).take (min (Core.iFileSize - o) D).toNat).length : Int)
      = min (Core.iFileSize - o) D := by
    rw [List.length_take, List.length_drop]
    omega
  rw [if_neg (by omega), if_neg (by omega), if_neg (by rw [hbuf]; simp)]
  exact ⟨rfl, hpos⟩

/-! ## The load scheduler -/

namespace C4Network2Res

theorem SameButLoads_refl (r : C4Network2Res) : SameButLoads r r :=
  ⟨rfl, rfl, rfl, rfl, rfl, fun _ h => Or.inl h⟩

theorem SameButLoads_trans (r r1 r2 : C4Network2Res) (h1 : SameButLoads r r1)
    (h2 : SameButLoads r1 r2) : SameButLoads r r2 := by
  obtain ⟨a1, a2, a3, a4, a5, a6⟩ := h1
  obtain ⟨b1, b2, b3, b4, b5, b6⟩ := h2
  refine ⟨b1.trans a1, b2.trans a2, b3.trans a3, b4.trans a4, b5.trans a5, ?_⟩
  intro ev hev
  rcases b6 ev hev with h | h
  · exact a6 ev h
  · exact Or.inr h

/-- The two outcomes of `StartLoad`: the entity is returned as it is, or with one more
load slot at the front, which happens only below both limits. -/
theorem StartLoad_cases (lim : LoadLimits) (env : LoadEnv) (r : C4Network2Res)
    (iFromClient : Int) (Available : C4Network2ResChunkData) :
    (StartLoad lim env r iFromClient Available).1 = r ∨
    (wrap32 (r.iLoadCnt + 1) < lim.C4NetResMaxLoad ∧
      loadsAtClientFull lim iFromClient r.pLoads 0 = false ∧
      ∃ ch, StartLoad lim env r iFromClient Available =
        ({ r with pLoads := { iChunk := ch, iByClient := iFromClient,
                              Timestamp := env.time } :: r.pLoads
                  iLoadCnt := wrap32 (r.iLoadCnt + 1)
                  events := .ResRequest iFromClient r.Core.iID ch :: r.events }, true)) := by
  unfold StartLoad
  by_cases h1 : wrap32 (r.iLoadCnt + 1) ≥ lim.C4NetResMaxLoad
  · left; rw [if_pos h1]
  · rw [if_neg h1]
    by_cases h2 : loadsAtClientFull lim iFromClient r.pLoads 0 = true
    · left; rw [if_pos h2]
    · rw [if_neg h2]
      dsimp only
      split_ifs with h3
      · left; rfl
      · cases hconn : env.msgConnection iFromClient with
        | none => left; rfl
        | some b =>
          cases b with
          | false => left; rfl
          | true =>
            right
            exact ⟨by omega, by simpa using h2, _, rfl⟩

theorem loadsAtClientFull_false (lim : LoadLimits) (c : Int) :
    ∀ (L : List C4Network2ResLoad) (n : Int),
      loadsAtClientFull lim c L n = false →
      L.countP (fun l => decide (l.iByClient = c)) = 0 ∨
      n + (L.countP (fun l => decide (l.iByClient = c)) : Int)
        < lim.C4NetResMaxLoadPerPeerPerFile := by
  intro L
  induction L with
  | nil => intro n _; left; rfl
  | cons p rest ih =>
    intro n h
    unfold loadsAtClientFull at h
    by_cases hp : p.iByClient = c
    · rw [if_pos hp] at h
      by_cases hfull : n + 1 ≥ lim.C4NetResMaxLoadPerPeerPerFile
      · rw [if_pos hfull] at h
        exact absurd h (by simp)
      · rw [if_neg hfull] at h
        right
        rw [List.countP_cons_of_pos _ _ (by simpa using hp)]
        push_cast
        rcases ih (n + 1) h with h0 | h0
        · rw [h0]; push_cast; omega
        · omega
    · rw [if_neg hp] at h
      rw [List.countP_cons_of_neg _ _ (by simpa using hp)]
      exact ih n h

theorem StartLoad_same (lim : LoadLimits) (env : LoadEnv) (r : C4Network2Res)
    (iFromClient : Int) (Available : C4Network2ResChunkData) :
    SameButLoads r (StartLoad lim env r iFromClient Available).1 := by
  rcases StartLoad_cases lim env r iFromClient Available with h | ⟨_, _, ch, h⟩
  · rw [h]; exact SameButLoads_refl r
  · rw [h]
    refine ⟨rfl, rfl, rfl, rfl, rfl, ?_⟩
    intro ev hev
    rcases List.mem_cons.1 hev with h1 | h1
    · exact Or.inr ⟨_, _, _, h1⟩
    · exact Or.inl h1

theorem StartLoad_inv (lim : LoadLimits) (env : LoadEnv) (r : C4Network2Res)
    (iFromClient : Int) (Available : C4Network2ResChunkData)
    (hmax : lim.C4NetResMaxLoad < 2147483648) (hpeer : 1 ≤ lim.C4NetResMaxLoadPerPeerPerFile)
    (hinv : LoadInv lim r) : LoadInv lim (StartLoad lim env r iFromClient Available).1 := by
  rcases StartLoad_cases lim env r iFromClient Available with h | ⟨h1, h2, ch, h⟩
  · rw [h]; exact hinv
  · rw [h]
    obtain ⟨i1, i2, i3⟩ := hinv
    have hw : wrap32 (r.iLoadCnt + 1) = r.iLoadCnt + 1 :=
      wrap32_of_isInt32 _ (by omega) (by omega)
    rw [hw] at h1
    refine ⟨?_, ?_, ?_⟩
    · show wrap32 (r.iLoadCnt + 1) = _
      rw [hw, i1]; simp
    · show ((List.length (_ :: r.pLoads) : Nat) : Int) + 1 ≤ _
      simp only [List.length_cons]; push_cast; omega
    · intro c
      show ((List.countP _ (_ :: r.pLoads) : Nat) : Int) ≤ _
      by_cases hc : iFromClient = c
      · subst hc
        rw [List.countP_cons_of_pos _ _ (by simp)]
        push_cast
        rcases loadsAtClientFull_false lim iFromClient r.pLoads 0 h2 with h0 | h0
        · rw [h0]; push_cast; omega
        · omega
      · rw [List.countP_cons_of_neg _ _ (by simpa using hc)]
        exact i3 c

end C4Network2Res

namespace C4Network2Res

theorem Scheduled_refl (lim : LoadLimits) (r : C4Network2Res) : Scheduled lim r r :=
  ⟨SameButLoads_refl r, id⟩

theorem Scheduled_trans (lim : LoadLimits) (r r1 r2 : C4Network2Res)
    (h1 : Scheduled lim r r1) (h2 : Scheduled lim r1 r2) : Scheduled lim r r2 :=
  ⟨SameButLoads_trans r r1 r2 h1.1 h2.1, fun h => h2.2 (h1.2 h)⟩

theorem StartLoad_scheduled (lim : LoadLimits) (env : LoadEnv) (r : C4Network2Res)
    (iFromClient : Int) (Available : C4Network2ResChunkData)
    (hmax : lim.C4NetResMaxLoad < 2147483648) (hpeer : 1 ≤ lim.C4NetResMaxLoadPerPeerPerFile) :
    Scheduled lim r (StartLoad lim env r iFromClient Available).1 :=
  ⟨StartLoad_same lim env r iFromClient Available,
   StartLoad_inv lim env r iFromClient Available hmax hpeer⟩

theorem searchSomeone_scheduled (lim : LoadLimits) (env : Nat → LoadEnv) (ioLoadCnt : Int)
    (hmax : lim.C4NetResMaxLoad < 2147483648) (hpeer : 1 ≤ lim.C4NetResMaxLoadPerPeerPerFile) :
    ∀ (pC : List (Option ClientChunks)) (r : C4Network2Res) (tick : Nat),
      Scheduled lim r (searchSomeone lim env ioLoadCnt pC r tick).1 := by
  intro pC
  induction pC with
  | nil => intro r tick; exact Scheduled_refl lim r
  | cons x rest ih =>
    intro r tick
    cases x with
    | none => exact ih r tick
    | some c =>
      have hs := StartLoad_scheduled lim (env tick) r c.ClientID c.Chunks hmax hpeer
      unfold searchSomeone
      dsimp only
      split_ifs with h1 h2
      · exact Scheduled_trans lim _ _ _ hs (ih _ _)
      · exact hs
      · exact Scheduled_trans lim _ _ _ hs (ih _ _)

theorem startLoadsWhile_scheduled (lim : LoadLimits) (env : Nat → LoadEnv)
    (hmax : lim.C4NetResMaxLoad < 2147483648) (hpeer : 1 ≤ lim.C4NetResMaxLoadPerPeerPerFile) :
    ∀ (fuel : Nat) (pC : List (Option ClientChunks)) (r : C4Network2Res) (tick : Nat),
      Scheduled lim r (startLoadsWhile lim env fuel pC r tick) := by
  intro fuel
  induction fuel with
  | zero => intro pC r tick; exact Scheduled_refl lim r
  | succ fuel ih =>
    intro pC r tick
    have hs := searchSomeone_scheduled lim env r.iLoadCnt hmax hpeer pC r tick
    unfold startLoadsWhile
    dsimp only
    split_ifs with h1 h2
    · exact Scheduled_trans lim _ _ _ hs (ih _ _ _)
    · exact hs
    · exact Scheduled_refl lim r

theorem StartNewLoads_scheduled (lim : LoadLimits) (env : Nat → LoadEnv) (r : C4Network2Res)
    (hmax : lim.C4NetResMaxLoad < 2147483648) (hpeer : 1 ≤ lim.C4NetResMaxLoadPerPeerPerFile) :
    Scheduled lim r (StartNewLoads lim env r) := by
  unfold StartNewLoads
  split
  · exact Scheduled_refl lim r
  · exact startLoadsWhile_scheduled lim env hmax hpeer _ _ _ _

theorem searchSomeone_same (lim : LoadLimits) (env : Nat → LoadEnv) (ioLoadCnt : Int) :
    ∀ (pC : List (Option ClientChunks)) (r : C4Network2Res) (tick : Nat),
      SameButLoads r (searchSomeone lim env ioLoadCnt pC r tick).1 := by
  intro pC
  induction pC with
  | nil => intro r tick; exact SameButLoads_refl r
  | cons x rest ih =>
    intro r tick
    cases x with
    | none => exact ih r tick
    | some c =>
      have hs := StartLoad_same lim (env tick) r c.ClientID c.Chunks
      unfold searchSomeone
      dsimp only
      split_ifs with h1 h2
      · exact SameButLoads_trans _ _ _ hs (ih _ _)
      · exact hs
      · exact SameButLoads_trans _ _ _ hs (ih _ _)

theorem startLoadsWhile_same (lim : LoadLimits) (env : Nat → LoadEnv) :
    ∀ (fuel : Nat) (pC : List (Option ClientChunks)) (r : C4Network2Res) (tick : Nat),
      SameButLoads r (startLoadsWhile lim env fuel pC r tick) := by
  intro fuel
  induction fuel with
  | zero => intro pC r tick; exact SameButLoads_refl r
  | succ fuel ih =>
    intro pC r tick
    have hs := searchSomeone_same lim env r.iLoadCnt pC r tick
    unfold startLoadsWhile
    dsimp only
    split_ifs with h1 h2
    · exact SameButLoads_trans _ _ _ hs (ih _ _ _)
    · exact hs
    · exact SameButLoads_refl r

/-- `StartNewLoads` changes nothing but the load slots, and sends only requests. -/
theorem StartNewLoads_same (lim : LoadLimits) (env : Nat → LoadEnv) (r : C4Network2Res) :
    SameButLoads r (StartNewLoads lim env r) := by
  unfold StartNewLoads
  split
  · exact SameButLoads_refl r
  · exact startLoadsWhile_same lim env _ _ _ _

theorem removeLoadsWhere_inv (lim : LoadLimits) (p : C4Network2ResLoad → Bool)
    (r : C4Network2Res) (hmax : lim.C4NetResMaxLoad < 2147483648) (hinv : LoadInv lim r) :
    LoadInv lim (removeLoadsWhere p r) := by
  obtain ⟨i1, i2, i3⟩ := hinv
  have hlen : (r.pLoads.filter p).length + (r.pLoads.filter (fun l => !p l)).length
      = r.pLoads.length := by
    induction r.pLoads with
    | nil => rfl
    | cons a l ih =>
      by_cases ha : p a = true
      · simp only [List.filter_cons, ha, if_true, Bool.not_true, List.length_cons]
        simp only [Bool.false_eq_true, if_false]
        omega
      · simp only [Bool.not_eq_true] at ha
        simp only [List.filter_cons, ha, Bool.false_eq_true, if_false, Bool.not_false, if_true,
          List.length_cons]
        omega
  refine ⟨?_, ?_, ?_⟩
  · show wrap32 (r.iLoadCnt - (r.pLoads.filter p).length) = ((r.pLoads.filter _).length : Int)
    rw [i1, wrap32_of_isInt32 _ (by omega) (by omega)]
    omega
  · show (((r.pLoads.filter _).length : Nat) : Int) + 1 ≤ _
    omega
  · intro c
    have hsub : (r.pLoads.filter (fun l => !p l)).countP (fun l => decide (l.iByClient = c))
        ≤ r.pLoads.countP (fun l => decide (l.iByClient = c)) :=
      List.Sublist.countP_le _ (List.filter_sublist _)
    have := i3 c
    unfold loadsOf at this ⊢
    show (((r.pLoads.filter _).countP _ : Nat) : Int) ≤ _
    omega

theorem EndLoad_inv (lim : LoadLimits) (r : C4Network2Res)
    (hmax1 : 1 ≤ lim.C4NetResMaxLoad) (hpeer : 1 ≤ lim.C4NetResMaxLoadPerPeerPerFile) :
    LoadInv lim r.EndLoad := by
  refine ⟨rfl, ?_, ?_⟩
  · show ((0 : Nat) : Int) + 1 ≤ _
    omega
  · intro c
    show ((0 : Nat) : Int) ≤ _
    omega

theorem Clear_inv (lim : LoadLimits) (r : C4Network2Res)
    (hmax1 : 1 ≤ lim.C4NetResMaxLoad) (hpeer : 1 ≤ lim.C4NetResMaxLoadPerPeerPerFile) :
    LoadInv lim r.Clear := by
  refine ⟨rfl, ?_, ?_⟩
  · show ((0 : Nat) : Int) + 1 ≤ _
    omega
  · intro c
    show ((0 : Nat) : Int) ≤ _
    omega

theorem SetLoad_inv (lim : LoadLimits) (r : C4Network2Res) (nCore : C4Network2ResCore)
    (tempName : Option String) (now : Int)
    (hmax1 : 1 ≤ lim.C4NetResMaxLoad) (hpeer : 1 ≤ lim.C4NetResMaxLoadPerPeerPerFile) :
    LoadInv lim (r.SetLoad nCore tempName now).1 := by
  have hc := Clear_inv lim r hmax1 hpeer
  unfold SetLoad
  dsimp only
  split_ifs
  · exact hc
  · cases tempName with
    | none => exact hc
    | some name => exact hc

theorem OnStatus_inv (lim : LoadLimits) (env : LoadEnv) (r : C4Network2Res)
    (rChunkData : C4Network2ResChunkData) (byClient : Int)
    (hmax : lim.C4NetResMaxLoad < 2147483648) (hpeer : 1 ≤ lim.C4NetResMaxLoadPerPeerPerFile)
    (hinv : LoadInv lim r) : LoadInv lim (OnStatus lim env r rChunkData byClient) := by
  unfold OnStatus
  dsimp only
  split_ifs with h1 h2
  · exact hinv
  · exact StartLoad_inv lim env _ _ _ hmax hpeer hinv
  · exact hinv

theorem OnChunk_inv (lim : LoadLimits) (env : Nat → LoadEnv) (r : C4Network2Res)
    (rChunk : C4Network2ResChunk) (io : FileResult)
    (hmax1 : 1 ≤ lim.C4NetResMaxLoad)
    (hmax : lim.C4NetResMaxLoad < 2147483648) (hpeer : 1 ≤ lim.C4NetResMaxLoadPerPeerPerFile)
    (hinv : LoadInv lim r) : LoadInv lim (OnChunk lim env r rChunk io) := by
  have hadd : LoadInv lim (rChunk.AddTo r io).1 := by
    unfold C4Network2ResChunk.AddTo
    dsimp only
    split_ifs <;> exact hinv
  unfold OnChunk
  dsimp only
  split_ifs with h1 h2 h3 h4 h5
  · exact hinv
  · exact hinv
  · exact EndLoad_inv lim _ hmax1 hpeer
  · exact (StartNewLoads_scheduled lim env _ hmax hpeer).2
      (removeLoadsWhere_inv lim _ _ hmax hadd)
  · exact EndLoad_inv lim _ hmax1 hpeer
  · exact (StartNewLoads_scheduled lim env _ hmax hpeer).2 hadd

theorem DoLoad_inv (lim : LoadLimits) (env : Nat → LoadEnv) (now : Int) (r : C4Network2Res)
    (hmax : lim.C4NetResMaxLoad < 2147483648) (hpeer : 1 ≤ lim.C4NetResMaxLoadPerPeerPerFile)
    (hinv : LoadInv lim r) : LoadInv lim (DoLoad lim env now r).1 := by
  unfold DoLoad
  dsimp only
  split_ifs
  · exact hinv
  · exact (StartNewLoads_scheduled lim env _ hmax hpeer).2
      (removeLoadsWhere_inv lim _ _ hmax hinv)
  · exact removeLoadsWhere_inv lim _ _ hmax hinv
  · exact hinv
  · exact hinv

/-- Every reachable state satisfies the bookkeeping invariant of the load slots. -/
theorem Reachable_inv (lim : LoadLimits) (cenv : CoreEnv) (hmax1 : 1 ≤ lim.C4NetResMaxLoad)
    (hmax : lim.C4NetResMaxLoad < 2147483648) (hpeer : 1 ≤ lim.C4NetResMaxLoadPerPeerPerFile)
    (r : C4Network2Res) (hr : Reachable lim cenv r) : LoadInv lim r := by
  induction hr with
  | init =>
    refine ⟨rfl, ?_, ?_⟩
    · show ((0 : Nat) : Int) + 1 ≤ _
      omega
    · intro c
      show ((0 : Nat) : Int) ≤ _
      omega
  | setLoad r nCore tempName now _ _ => exact SetLoad_inv lim r nCore tempName now hmax1 hpeer
  | onStatus r env rChunkData byClient _ ih =>
    exact OnStatus_inv lim env r rChunkData byClient hmax hpeer ih
  | onChunk r env rChunk io _ ih => exact OnChunk_inv lim env r rChunk io hmax1 hmax hpeer ih
  | doLoad r env now _ ih => exact DoLoad_inv lim env now r hmax hpeer ih
  | startNewLoads r env _ ih => exact (StartNewLoads_scheduled lim env r hmax hpeer).2 ih
  | startLoad r env iFromClient Available _ ih =>
    exact StartLoad_inv lim env r iFromClient Available hmax hpeer ih

end C4Network2Res

namespace C4Network2Res

theorem searchSomeone_found (lim : LoadLimits) (env : Nat → LoadEnv) (ioLoadCnt : Int) :
    ∀ (pC : List (Option ClientChunks)) (r : C4Network2Res) (tick : Nat),
      (searchSomeone lim env ioLoadCnt pC r tick).2.2.2 = true →
      (searchSomeone lim env ioLoadCnt pC r tick).1.iLoadCnt > ioLoadCnt := by
  intro pC
  induction pC with
  | nil => intro r tick h; simp [searchSomeone] at h
  | cons x rest ih =>
    intro r tick
    cases x with
    | none => exact ih r tick
    | some c =>
      unfold searchSomeone
      dsimp only
      split_ifs with h1 h2
      · exact ih _ _
      · exact fun _ => h2
      · exact ih _ _

theorem startLoadsWhile_succ (lim : LoadLimits) (env : Nat → LoadEnv) (fuel : Nat)
    (pC : List (Option ClientChunks)) (r : C4Network2Res) (tick : Nat) :
    startLoadsWhile lim env (fuel + 1) pC r tick =
      if wrap32 (r.iLoadCnt + 1) ≤ lim.C4NetResMaxLoad then
        if (searchSomeone lim env r.iLoadCnt pC r tick).2.2.2 then
          startLoadsWhile lim env fuel (searchSomeone lim env r.iLoadCnt pC r tick).2.1
            (searchSomeone lim env r.iLoadCnt pC r tick).1
            (searchSomeone lim env r.iLoadCnt pC r tick).2.2.1
        else (searchSomeone lim env r.iLoadCnt pC r tick).1
      else r := rfl

/-- The `while` loop of `StartNewLoads` never runs out of fuel: once the fuel covers the
free slots, one more round of fuel changes nothing. -/
theorem startLoadsWhile_fuel (lim : LoadLimits) (env : Nat → LoadEnv)
    (hmax : lim.C4NetResMaxLoad < 2147483648) (hpeer : 1 ≤ lim.C4NetResMaxLoadPerPeerPerFile) :
    ∀ (fuel : Nat) (pC : List (Option ClientChunks)) (r : C4Network2Res) (tick : Nat),
      LoadInv lim r → (lim.C4NetResMaxLoad - r.iLoadCnt).toNat ≤ fuel →
      startLoadsWhile lim env (fuel + 1) pC r tick = startLoadsWhile lim env fuel pC r tick := by
  intro fuel
  induction fuel with
  | zero =>
    intro pC r tick hinv hf
    obtain ⟨i1, i2, _⟩ := hinv
    omega
  | succ fuel ih =>
    intro pC r tick hinv hf
    have hs := searchSomeone_scheduled lim env r.iLoadCnt hmax hpeer pC r tick
    have hfound := searchSomeone_found lim env r.iLoadCnt pC r tick
    rw [startLoadsWhile_succ lim env (fuel + 1) pC r tick, startLoadsWhile_succ lim env fuel pC r tick]
    split_ifs with h1 h2
    · exact ih _ _ _ (hs.2 hinv) (by have := hfound h2; omega)
    · rfl
    · rfl

/-- `StartNewLoads` computes the full `while` loop: any larger amount of fuel gives the
same entity. -/
theorem StartNewLoads_fuel_enough (lim : LoadLimits) (env : Nat → LoadEnv)
    (hmax : lim.C4NetResMaxLoad < 2147483648) (hpeer : 1 ≤ lim.C4NetResMaxLoadPerPeerPerFile)
    (pC : List (Option ClientChunks)) (r : C4Network2Res) (tick : Nat) (hinv : LoadInv lim r)
    (extra : Nat) :
    startLoadsWhile lim env (lim.C4NetResMaxLoad.toNat + 1 + extra) pC r tick
      = startLoadsWhile lim env (lim.C4NetResMaxLoad.toNat + 1) pC r tick := by
  induction extra with
  | zero => rfl
  | succ extra ih =>
    rw [← ih, ← Nat.add_assoc]
    apply startLoadsWhile_fuel lim env hmax hpeer _ pC r tick hinv
    obtain ⟨i1, _, _⟩ := hinv
    omega

/-- C7: in every state reachable through `SetLoad`, `OnStatus`, `OnChunk`, `DoLoad`,
`StartNewLoads` and `StartLoad`, with limits of at least 1 that are 32-bit values, the
number of outstanding load slots is at most `C4NetResMaxLoad` and for every peer the
number of slots recorded for it is at most `C4NetResMaxLoadPerPeerPerFile`. -/
theorem load_slots_bounded (lim : LoadLimits) (cenv : CoreEnv)
    (hmax1 : 1 ≤ lim.C4NetResMaxLoad) (hmax : lim.C4NetResMaxLoad < 2147483648)
    (hpeer : 1 ≤ lim.C4NetResMaxLoadPerPeerPerFile)
    (r : C4Network2Res) (hr : Reachable lim cenv r) :
    (r.pLoads.length : Int) ≤ lim.C4NetResMaxLoad ∧
    ∀ c, (r.loadsOf c : Int) ≤ lim.C4NetResMaxLoadPerPeerPerFile := by
  obtain ⟨_, i2, i3⟩ := Reachable_inv lim cenv hmax1 hmax hpeer r hr
  exact ⟨by omega, i3⟩

/-- C7 (witness): the loading example entity after a status of a complete peer 9. -/
theorem load_slots_bounded_witness :
    (((OnStatus exampleLimits exampleLoadEnv (exampleLoading 10 4)
        (C4Network2ResChunkData.new.SetComplete 3) 9).pLoads.length : Nat) : Int)
      ≤ exampleLimits.C4NetResMaxLoad ∧
    ∀ c, ((OnStatus exampleLimits exampleLoadEnv (exampleLoading 10 4)
        (C4Network2ResChunkData.new.SetComplete 3) 9).loadsOf c : Int)
      ≤ exampleLimits.C4NetResMaxLoadPerPeerPerFile :=
  load_slots_bounded exampleLimits exampleEnv (by decide) (by decide) (by decide) _
    (Reachable.onStatus _ exampleLoadEnv _ 9
      (Reachable.setLoad _ (exampleCore 10 4) (some "f") 0 Reachable.init))

theorem removeLoadsWhere_same (p : C4Network2ResLoad → Bool) (r : C4Network2Res) :
    SameButLoads r (removeLoadsWhere p r) :=
  ⟨rfl, rfl, rfl, rfl, rfl, fun _ h => Or.inl h⟩

/-- `OnChunk` on a loading entity with a chunk of its resource: the chunk map and the
file are those left by `AddTo`; if that map is complete the entity stops loading and
reports `OnResComplete`, otherwise it keeps loading and only requests are sent. -/
theorem OnChunk_spec (lim : LoadLimits) (env : Nat → LoadEnv) (r : C4Network2Res)
    (rChunk : C4Network2ResChunk) (io : FileResult)
    (hload : r.fLoading = true) (hid : rChunk.iResID = r.Core.iID) :
    (OnChunk lim env r rChunk io).Chunks = (rChunk.AddTo r io).1.Chunks ∧
    (OnChunk lim env r rChunk io).fileData = (rChunk.AddTo r io).1.fileData ∧
    ((rChunk.AddTo r io).1.Chunks.isComplete = true →
      (OnChunk lim env r rChunk io).fLoading = false ∧
      (OnChunk lim env r rChunk io).events = .ResComplete r.Core.iID :: r.events) ∧
    ((rChunk.AddTo r io).1.Chunks.isComplete = false →
      (OnChunk lim env r rChunk io).fLoading = true ∧
      ∀ ev ∈ (OnChunk lim env r rChunk io).events,
        ev ∈ r.events ∨ ∃ a b c, ev = NetEvent.ResRequest a b c) := by
  have hadd : SameButLoads r { (rChunk.AddTo r io).1 with Chunks := r.Chunks, fileData := r.fileData } := by
    unfold C4Network2ResChunk.AddTo
    dsimp only
    split_ifs <;> exact ⟨rfl, rfl, rfl, rfl, rfl, fun _ h => Or.inl h⟩
  obtain ⟨a1, _, a3, _, _, a6⟩ := hadd
  dsimp only at a1 a3 a6
  unfold OnChunk
  rw [hload]
  simp only [Bool.not_true, Bool.false_eq_true, if_false, hid, ne_eq, not_true_eq_false]
  by_cases hs : (rChunk.AddTo r io).2 = true
  · rw [if_pos hs]
    by_cases hc : (rChunk.AddTo r io).1.Chunks.isComplete = true
    · have hc2 : (removeLoadsWhere (fun l => decide (wrapU32 l.iChunk = rChunk.iChunk))
          { (rChunk.AddTo r io).1 with fDirty := true }).Chunks.isComplete = true := hc
      rw [if_pos hc2]
      refine ⟨rfl, rfl, fun _ => ⟨rfl, ?_⟩, fun h => absurd hc (by simp [h])⟩
      show NetEvent.ResComplete (rChunk.AddTo r io).1.Core.iID :: (rChunk.AddTo r io).1.events = _
      have hev : (rChunk.AddTo r io).1.events = r.events := by
        unfold C4Network2ResChunk.AddTo
        dsimp only
        split_ifs <;> rfl
      rw [a1, hev]
    · have hc2 : ¬ (removeLoadsWhere (fun l => decide (wrapU32 l.iChunk = rChunk.iChunk))
          { (rChunk.AddTo r io).1 with fDirty := true }).Chunks.isComplete = true := hc
      rw [if_neg hc2]
      obtain ⟨s1, s2, s3, s4, s5, s6⟩ := StartNewLoads_same lim env
        (removeLoadsWhere (fun l => decide (wrapU32 l.iChunk = rChunk.iChunk))
          { (rChunk.AddTo r io).1 with fDirty := true })
      refine ⟨s2, s4, fun h => absurd h hc, fun _ => ⟨?_, ?_⟩⟩
      · rw [s3]; exact a3.trans hload
      · intro ev hev
        rcases s6 ev hev with h | h
        · exact a6 ev h
        · exact Or.inr h
  · rw [if_neg hs]
    by_cases hc : (rChunk.AddTo r io).1.Chunks.isComplete = true
    · rw [if_pos hc]
      refine ⟨rfl, rfl, fun _ => ⟨rfl, ?_⟩, fun h => absurd hc (by simp [h])⟩
      show NetEvent.ResComplete (rChunk.AddTo r io).1.Core.iID :: (rChunk.AddTo r io).1.events = _
      have hev : (rChunk.AddTo r io).1.events = r.events := by
        unfold C4Network2ResChunk.AddTo
        dsimp only
        split_ifs <;> rfl
      rw [a1, hev]
    · rw [if_neg hc]
      obtain ⟨s1, s2, s3, s4, s5, s6⟩ := StartNewLoads_same lim env (rChunk.AddTo r io).1
      refine ⟨s2, s4, fun h => absurd h hc, fun _ => ⟨?_, ?_⟩⟩
      · rw [s3]; exact a3.trans hload
      · intro ev hev
        rcases s6 ev hev with h | h
        · exact a6 ev h
        · exact Or.inr h

end C4Network2Res

/-! ## Claims on incoming chunks -/

namespace C4Network2Res

/-- C5 (counterexample): a loading entity for a 10 byte file in chunks of 5 bytes (chunks
0 and 1) receives a data chunk of its resource with chunk number 2 and no bytes; offset
`2 * 5` plus length 0 does not exceed the file size and all file calls succeed, `AddTo`
returns `true` and the entity is marked dirty, but chunk 2 is not present in the chunk
map afterwards. -/
theorem OnChunk_accepts_without_adding :
    (exampleLoading 10 5).fLoading = true ∧
    (7 : Int) = (exampleLoading 10 5).Core.iID ∧
    wrap32 (wrapU32 (2 * (exampleLoading 10 5).Core.iChunkSize)) + (([] : List Nat).length : Int)
      ≤ (exampleLoading 10 5).Core.iFileSize ∧
    (C4Network2ResChunk.AddTo { iResID := 7, iChunk := 2, Data := [] }
      (exampleLoading 10 5) exampleFileOk).2 = true ∧
    (OnChunk exampleLimits (fun _ => exampleLoadEnv) (exampleLoading 10 5)
      { iResID := 7, iChunk := 2, Data := [] } exampleFileOk).fDirty = true ∧
    ¬ C4Network2ResChunkData.isPresent
      (OnChunk exampleLimits (fun _ => exampleLoadEnv) (exampleLoading 10 5)
        { iResID := 7, iChunk := 2, Data := [] } exampleFileOk).Chunks 2 := by
  decide

/-- C5 (amended): for a loading entity with a well-formed chunk map and a 32-bit file
size, and a data chunk of its resource whose chunk number lies in `[0, iChunkCnt)` of the
chunk map, whose offset, as the `int32_t` the code computes, is not negative and with the
data length does not exceed the file size, and whose file calls succeed: `AddTo` returns
`true` and after `OnChunk` the chunk number is present in the chunk map of the entity. -/
theorem OnChunk_adds_chunk (lim : LoadLimits) (env : Nat → LoadEnv) (r : C4Network2Res)
    (rChunk : C4Network2ResChunk) (io : FileResult)
    (hload : r.fLoading = true) (hid : rChunk.iResID = r.Core.iID)
    (hwf : C4Network2ResChunkData.WellFormed r.Chunks)
    (hsize : r.Core.iFileSize < 4294967296)
    (hnr : 0 ≤ rChunk.iChunk ∧ rChunk.iChunk < r.Chunks.iChunkCnt)
    (hoff : 0 ≤ wrap32 (wrapU32 (rChunk.iChunk * r.Core.iChunkSize)))
    (hfit : wrap32 (wrapU32 (rChunk.iChunk * r.Core.iChunkSize)) + (rChunk.Data.length : Int)
      ≤ r.Core.iFileSize)
    (hio : io.openOk = true ∧ io.seekOk = true ∧ io.writeOk = true) :
    (rChunk.AddTo r io).2 = true ∧
    C4Network2ResChunkData.isPresent (OnChunk lim env r rChunk io).Chunks rChunk.iChunk := by
  obtain ⟨h1, h2, h3⟩ := hio
  have hw : wrap32 rChunk.iChunk = rChunk.iChunk :=
    wrap32_of_isInt32 _ (by omega) (by have := hwf.2.1; omega)
  have hex : rChunk.exceedsFile r.Core = false := by
    unfold C4Network2ResChunk.exceedsFile wrapU64
    simp only [decide_eq_false_iff_not, not_lt]
    have : (0 : Int) ≤ (rChunk.Data.length : Int) := Int.ofNat_nonneg _
    omega
  have hadd : rChunk.AddTo r io
      = ({ r with fileData := writeAt r.fileData
                    (wrap32 (wrapU32 (rChunk.iChunk * r.Core.iChunkSize))).toNat rChunk.Data
                  Chunks := r.Chunks.AddChunk rChunk.iChunk }, true) := by
    unfold C4Network2ResChunk.AddTo
    simp [hid, hex, h1, h2, h3, hw]
  obtain ⟨s1, _, _, _⟩ := OnChunk_spec lim env r rChunk io hload hid
  refine ⟨by rw [hadd], ?_⟩
  rw [s1, hadd]
  show C4Network2ResChunkData.isPresent (r.Chunks.AddChunkRange rChunk.iChunk 1) rChunk.iChunk
  obtain ⟨_, _, a3, _⟩ := C4Network2ResChunkData.AddChunkRange_spec r.Chunks rChunk.iChunk 1 hwf
    hnr.1 (by omega) (by omega)
  exact (a3 rChunk.iChunk).2 (Or.inr ⟨le_refl _, by omega⟩)

/-- C5 (witness): chunk 1 with 5 bytes for the 10 byte file in chunks of 5 bytes. -/
theorem OnChunk_adds_chunk_witness :
    (C4Network2ResChunk.AddTo { iResID := 7, iChunk := 1, Data := [1, 2, 3, 4, 5] }
      (exampleLoading 10 5) exampleFileOk).2 = true ∧
    C4Network2ResChunkData.isPresent
      (OnChunk exampleLimits (fun _ => exampleLoadEnv) (exampleLoading 10 5)
        { iResID := 7, iChunk := 1, Data := [1, 2, 3, 4, 5] } exampleFileOk).Chunks 1 :=
  OnChunk_adds_chunk exampleLimits (fun _ => exampleLoadEnv) (exampleLoading 10 5)
    { iResID := 7, iChunk := 1, Data := [1, 2, 3, 4, 5] } exampleFileOk
    (by decide) (by decide) (by decide) (by decide) (by decide) (by decide) (by decide)
    (by decide)

/-- C6 (counterexample): a loading entity for a 1 byte file whose core carries the file
CRC 0 receives chunk 0 with the byte 9.  It stops loading and reports `OnResComplete`
with the file content `[9]`, whatever the CRC of that content is: for every checksum
function that does not map `[9]` to 0 the entity is complete with a CRC that differs
from the one of the core. -/
theorem OnChunk_completes_without_crc_check :
    (exampleLoading 1 1).fLoading = true ∧
    (OnChunk exampleLimits (fun _ => exampleLoadEnv) (exampleLoading 1 1)
      { iResID := 7, iChunk := 0, Data := [9] } exampleFileOk).fLoading = false ∧
    (OnChunk exampleLimits (fun _ => exampleLoadEnv) (exampleLoading 1 1)
      { iResID := 7, iChunk := 0, Data := [9] } exampleFileOk).events = [.ResComplete 7] ∧
    (OnChunk exampleLimits (fun _ => exampleLoadEnv) (exampleLoading 1 1)
      { iResID := 7, iChunk := 0, Data := [9] } exampleFileOk).Core.iFileCRC = 0 ∧
    (∀ crc : List Nat → Int, crc [9] ≠ 0 →
      crc (OnChunk exampleLimits (fun _ => exampleLoadEnv) (exampleLoading 1 1)
          { iResID := 7, iChunk := 0, Data := [9] } exampleFileOk).fileData
        ≠ (OnChunk exampleLimits (fun _ => exampleLoadEnv) (exampleLoading 1 1)
          { iResID := 7, iChunk := 0, Data := [9] } exampleFileOk).Core.iFileCRC) := by
  refine ⟨by decide, by decide, by decide, by decide, ?_⟩
  intro crc h
  have h1 : (OnChunk exampleLimits (fun _ => exampleLoadEnv) (exampleLoading 1 1)
      { iResID := 7, iChunk := 0, Data := [9] } exampleFileOk).fileData = [9] := by decide
  have h2 : (OnChunk exampleLimits (fun _ => exampleLoadEnv) (exampleLoading 1 1)
      { iResID := 7, iChunk := 0, Data := [9] } exampleFileOk).Core.iFileCRC = 0 := by decide
  rw [h1, h2]
  exact h

/-- C6 (amended): a loading entity that receives a chunk of its resource stops loading
in `OnChunk` exactly when its chunk map is complete afterwards, and then reports
`OnResComplete` once; while the map is incomplete it keeps loading and reports nothing
but requests.  Neither the size nor the CRC of the file enters the decision. -/
theorem OnChunk_completes_iff_map_full (lim : LoadLimits) (env : Nat → LoadEnv)
    (r : C4Network2Res) (rChunk : C4Network2ResChunk) (io : FileResult)
    (hload : r.fLoading = true) (hid : rChunk.iResID = r.Core.iID) :
    ((OnChunk lim env r rChunk io).fLoading = false ↔
      (OnChunk lim env r rChunk io).Chunks.isComplete = true) ∧
    ((OnChunk lim env r rChunk io).Chunks.isComplete = true →
      (OnChunk lim env r rChunk io).events = .ResComplete r.Core.iID :: r.events) ∧
    ((OnChunk lim env r rChunk io).Chunks.isComplete = false →
      ∀ ev ∈ (OnChunk lim env r rChunk io).events,
        ev ∈ r.events ∨ ∃ a b c, ev = NetEvent.ResRequest a b c) := by
  obtain ⟨s1, _, s3, s4⟩ := OnChunk_spec lim env r rChunk io hload hid
  rw [s1]
  cases hc : (rChunk.AddTo r io).1.Chunks.isComplete with
  | true =>
    refine ⟨⟨fun _ => rfl, fun _ => (s3 hc).1⟩, fun _ => (s3 hc).2, fun h => by simp at h⟩
  | false =>
    refine ⟨⟨fun h => ?_, fun h => by simp at h⟩, fun h => by simp at h, fun _ => (s4 hc).2⟩
    rw [(s4 hc).1] at h
    simp at h

/-- C6 (witness): the 1 byte example. -/
theorem OnChunk_completes_iff_map_full_witness :
    ((OnChunk exampleLimits (fun _ => exampleLoadEnv) (exampleLoading 1 1)
        { iResID := 7, iChunk := 0, Data := [9] } exampleFileOk).fLoading = false ↔
      (OnChunk exampleLimits (fun _ => exampleLoadEnv) (exampleLoading 1 1)
        { iResID := 7, iChunk := 0, Data := [9] } exampleFileOk).Chunks.isComplete = true) ∧
    ((OnChunk exampleLimits (fun _ => exampleLoadEnv) (exampleLoading 1 1)
        { iResID := 7, iChunk := 0, Data := [9] } exampleFileOk).Chunks.isComplete = true →
      (OnChunk exampleLimits (fun _ => exampleLoadEnv) (exampleLoading 1 1)
        { iResID := 7, iChunk := 0, Data := [9] } exampleFileOk).events
        = .ResComplete (exampleLoading 1 1).Core.iID :: (exampleLoading 1 1).events) ∧
    ((OnChunk exampleLimits (fun _ => exampleLoadEnv) (exampleLoading 1 1)
        { iResID := 7, iChunk := 0, Data := [9] } exampleFileOk).Chunks.isComplete = false →
      ∀ ev ∈ (OnChunk exampleLimits (fun _ => exampleLoadEnv) (exampleLoading 1 1)
        { iResID := 7, iChunk := 0, Data := [9] } exampleFileOk).events,
        ev ∈ (exampleLoading 1 1).events ∨ ∃ a b c, ev = NetEvent.ResRequest a b c) :=
  OnChunk_completes_iff_map_full exampleLimits (fun _ => exampleLoadEnv) (exampleLoading 1 1)
    { iResID := 7, iChunk := 0, Data := [9] } exampleFileOk (by decide) (by decide)

end C4Network2Res

/-! ## Ranges of positive length and the canonical form of a chunk map -/

namespace C4Network2ResChunkData

/-- The merge loop only removes successors: what is left behind the cursor was there
before. -/
theorem MergeRangesWhile_pNext_mem :
    ∀ (fuel : Nat) (s : MergeCursor) (r : ChunkRange),
      r ∈ (MergeRangesWhile fuel s).pNext → r ∈ s.pNext := by
  intro fuel
  induction fuel with
  | zero => intro s r hr; exact hr
  | succ fuel ih =>
    intro s r hr
    unfold MergeRangesWhile at hr
    cases hm : MergeRanges s with
    | none => rw [hm] at hr; exact hr
    | some s1 =>
      rw [hm] at hr
      have h1 := ih s1 r hr
      unfold MergeRanges at hm
      cases hn : s.pNext with
      | nil => rw [hn] at hm; simp at hm
      | cons q rest =>
        rw [hn] at hm
        dsimp only at hm
        split at hm
        · simp at hm
        · simp only [Option.some.injEq] at hm
          rw [← hm] at h1
          exact List.mem_cons_of_mem _ h1

/-- `AddChunkRange` on a well-formed map whose ranges all have positive length leaves
only ranges of positive length. -/
theorem AddChunkRange_pos (d : C4Network2ResChunkData) (s l : Int) (hwf : WellFormed d)
    (hpos : PositiveLengths d.pChunkRanges) (hsum : isInt32 (s + l)) :
    PositiveLengths (d.AddChunkRange s l).pChunkRanges := by
  unfold isInt32 at hsum
  by_cases hguard : s < 0 ∨ wrap32 (s + l) > d.iChunkCnt ∨ l ≤ 0
  · rw [AddChunkRange_rejected d s l hguard]; exact hpos
  obtain ⟨hn0, hn, hok, hg, hP⟩ := hwf
  have hguard2 := hguard
  rw [wrap32_of_isInt32 (s + l) hsum.1 hsum.2] at hguard2
  have hs : 0 ≤ s := by omega
  have hl : 0 < l := by omega
  have hsl : s + l ≤ d.iChunkCnt := by omega
  obtain ⟨f1, f2, f3⟩ := findPos_spec s d.pChunkRanges []
  unfold AddChunkRange
  rw [if_neg hguard]
  dsimp only
  generalize findPos s [] d.pChunkRanges = pos at f1 f2 f3 ⊢
  obtain ⟨pre, post⟩ := pos
  simp only [List.reverse_nil, List.nil_append, List.not_mem_nil, false_or] at f1 f2 f3
  have hgpost : Gapped post := Gapped_right pre.reverse post (f1 ▸ hg)
  have hokpost : ∀ r ∈ post, rangeOk d.iChunkCnt r := fun r hr =>
    hok r (f1 ▸ List.mem_append_right _ hr)
  have hpospost : ∀ r ∈ post, 0 < r.Length := fun r hr =>
    hpos r (f1 ▸ List.mem_append_right _ hr)
  have hpospre : ∀ r ∈ pre.reverse, 0 < r.Length := fun r hr =>
    hpos r (f1 ▸ List.mem_append_left _ hr)
  have hstpost : ∀ r ∈ post, s ≤ r.Start := by
    cases post with
    | nil => simp
    | cons b rest =>
      have hb : s ≤ b.Start := f3 b (by simp)
      have hbok := hokpost b (List.mem_cons_self _ _)
      unfold rangeOk at hbok
      intro r hr
      rcases List.mem_cons.1 hr with rfl | hr
      · exact hb
      · have := Gapped_start_lt d.iChunkCnt b rest hgpost
          (fun r hr => hokpost r (List.mem_cons_of_mem _ hr)) r hr
        omega
  cases pre with
  | nil =>
    obtain ⟨i1, i2, _⟩ :=
      MergeRangesWhile_spec d.iChunkCnt hn post ⟨s, l⟩ (wrap32 (d.iPresentChunkCnt + l))
        (wrap32 (d.iChunkRangeCnt + 1)) hs (le_of_lt hl) hsl hokpost hgpost hstpost
    have i3 := MergeRangesWhile_pNext_mem post.length
      ⟨⟨s, l⟩, post, wrap32 (d.iPresentChunkCnt + l), wrap32 (d.iChunkRangeCnt + 1)⟩
    generalize MergeRangesWhile post.length
      ⟨⟨s, l⟩, post, wrap32 (d.iPresentChunkCnt + l), wrap32 (d.iChunkRangeCnt + 1)⟩ = st
      at i1 i2 i3 ⊢
    dsimp only at i1 i2 i3 ⊢
    intro r hr
    rcases List.mem_cons.1 hr with rfl | hr
    · omega
    · exact hpospost r (i3 r hr)
  | cons pPrev before =>
    have hpok : rangeOk d.iChunkCnt pPrev := hok pPrev (by rw [← f1]; simp)
    have hppos : 0 < pPrev.Length := hpospre pPrev (by simp)
    have hplt : pPrev.Start < s := f2 pPrev (List.mem_cons_self _ _)
    have hposbefore : ∀ r ∈ before.reverse, 0 < r.Length := fun r hr =>
      hpospre r (by simp only [List.reverse_cons, List.mem_append]; exact Or.inl hr)
    obtain ⟨m1, m2⟩ := MergeRanges_step d.iChunkCnt hn pPrev ⟨s, l⟩ post
      (wrap32 (d.iPresentChunkCnt + l)) (wrap32 (d.iChunkRangeCnt + 1))
      hpok.1 hpok.2.1 hpok.2.2 ⟨hs, le_of_lt hl, hsl⟩ (le_of_lt hplt)
    unfold rangeOk at hpok
    dsimp only at m1 m2 ⊢
    by_cases hlt : pPrev.Start + pPrev.Length < s
    · rw [m1 hlt]
      dsimp only
      obtain ⟨i1, i2, _⟩ :=
        MergeRangesWhile_spec d.iChunkCnt hn post ⟨s, l⟩ (wrap32 (d.iPresentChunkCnt + l))
          (wrap32 (d.iChunkRangeCnt + 1)) hs (le_of_lt hl) hsl hokpost hgpost hstpost
      have i3 := MergeRangesWhile_pNext_mem post.length
        ⟨⟨s, l⟩, post, wrap32 (d.iPresentChunkCnt + l), wrap32 (d.iChunkRangeCnt + 1)⟩
      generalize MergeRangesWhile post.length
        ⟨⟨s, l⟩, post, wrap32 (d.iPresentChunkCnt + l), wrap32 (d.iChunkRangeCnt + 1)⟩ = st
        at i1 i2 i3 ⊢
      dsimp only at i1 i2 i3 ⊢
      intro r hr
      rcases List.mem_append.1 hr with hr | hr
      · exact hposbefore r hr
      · rcases List.mem_cons.1 hr with rfl | hr
        · exact hppos
        · rcases List.mem_cons.1 hr with rfl | hr
          · omega
          · exact hpospost r (i3 r hr)
    · rw [m2 hlt]
      dsimp only
      obtain ⟨ov, hov⟩ : ∃ ov, ov = min (pPrev.Start + pPrev.Length - s) l := ⟨_, rfl⟩
      rw [← hov]
      obtain ⟨i1, i2, _⟩ :=
        MergeRangesWhile_spec d.iChunkCnt hn post ⟨pPrev.Start, pPrev.Length + (l - ov)⟩
          (wrap32 (wrap32 (d.iPresentChunkCnt + l) - ov)) (wrap32 (wrap32 (d.iChunkRangeCnt + 1) - 1))
          hpok.1 (by show 0 ≤ pPrev.Length + (l - ov); omega)
          (by show pPrev.Start + (pPrev.Length + (l - ov)) ≤ d.iChunkCnt; omega)
          hokpost hgpost (fun r hr => by have := hstpost r hr; show pPrev.Start ≤ r.Start; omega)
      have i3 := MergeRangesWhile_pNext_mem post.length
        ⟨⟨pPrev.Start, pPrev.Length + (l - ov)⟩, post,
          wrap32 (wrap32 (d.iPresentChunkCnt + l) - ov),
          wrap32 (wrap32 (d.iChunkRangeCnt + 1) - 1)⟩
      generalize MergeRangesWhile post.length
        ⟨⟨pPrev.Start, pPrev.Length + (l - ov)⟩, post,
          wrap32 (wrap32 (d.iPresentChunkCnt + l) - ov),
          wrap32 (wrap32 (d.iChunkRangeCnt + 1) - 1)⟩ = st
        at i1 i2 i3 ⊢
      dsimp only at i1 i2 i3 ⊢
      intro r hr
      rcases List.mem_append.1 hr with hr | hr
      · exact hposbefore r hr
      · rcases List.mem_cons.1 hr with rfl | hr
        · omega
        · exact hpospost r (i3 r hr)

/-- Adding a list of in-bounds ranges keeps all lengths positive. -/
theorem foldl_AddChunkRange_pos (L : List ChunkRange) :
    ∀ (d : C4Network2ResChunkData), WellFormed d → PositiveLengths d.pChunkRanges →
      (∀ r ∈ L, rangeOk d.iChunkCnt r) →
      PositiveLengths (L.foldl (fun acc r => acc.AddChunkRange r.Start r.Length) d).pChunkRanges := by
  induction L with
  | nil => intro d _ hp _; exact hp
  | cons r L ih =>
    intro d hwf hp hok
    have hr := hok r (List.mem_cons_self _ _)
    unfold rangeOk at hr
    have h32 : isInt32 (r.Start + r.Length) := by
      have := hwf.2.1
      unfold isInt32; omega
    simp only [List.foldl_cons]
    have hw := AddChunkRange_wf d r.Start r.Length hwf h32
    apply ih _ hw.1 (AddChunkRange_pos d r.Start r.Length hwf hp h32)
    intro x hx
    rw [hw.2]
    exact hok x (List.mem_cons_of_mem _ hx)

/-- The loop of `GetNegative` leaves only ranges of positive length in the target. -/
theorem GetNegativeLoop_pos (n : Int) (hn : n < 2147483648) (L : List ChunkRange) :
    ∀ (free : Int) (T : C4Network2ResChunkData), WellFormed T → T.iChunkCnt = n →
      0 ≤ free → free ≤ n → (∀ r ∈ L, rangeOk n r) → Gapped L → (∀ r ∈ L, free ≤ r.Start) →
      PositiveLengths T.pChunkRanges →
      PositiveLengths (GetNegativeLoop L free T).2.pChunkRanges := by
  induction L with
  | nil => intro free T _ _ _ _ _ _ _ hp; exact hp
  | cons r L ih =>
    intro free T hT hTn h0 h1 hok hg hst hp
    have hr := hok r (List.mem_cons_self _ _)
    have hfr := hst r (List.mem_cons_self _ _)
    unfold rangeOk at hr
    have hokL : ∀ x ∈ L, rangeOk n x := fun x hx => hok x (List.mem_cons_of_mem _ hx)
    have hw1 : wrap32 (r.Start + r.Length) = r.Start + r.Length :=
      wrap32_of_isInt32 _ (by omega) (by omega)
    have hw2 : wrap32 (r.Start - free) = r.Start - free :=
      wrap32_of_isInt32 _ (by omega) (by omega)
    have h32 : isInt32 (free + (r.Start - free)) := by unfold isInt32; omega
    simp only [GetNegativeLoop]
    rw [hw1, hw2]
    have hw := AddChunkRange_wf T free (r.Start - free) hT h32
    apply ih _ _ hw.1 (hw.2.trans hTn) (by omega) (by omega) hokL (Gapped_tail _ _ hg)
    · intro x hx
      have := Gapped_start_lt n r L hg hokL x hx
      omega
    · exact AddChunkRange_pos T free (r.Start - free) hT hp h32

/-- `GetNegative` of a well-formed map has only ranges of positive length. -/
theorem GetNegative_pos (d Target : C4Network2ResChunkData) (hd : WellFormed d) :
    PositiveLengths (d.GetNegative Target).pChunkRanges := by
  obtain ⟨hn0, hn, hok, hg, hP⟩ := hd
  have hT0 : WellFormed (Target.SetIncomplete d.iChunkCnt) := SetIncomplete_wf _ _ hn0 hn
  have hst : ∀ r ∈ d.pChunkRanges, (0 : Int) ≤ r.Start := fun r hr => (hok r hr).1
  obtain ⟨i1, i2, i3, i4, _, _⟩ := GetNegativeLoop_spec d.iChunkCnt hn d.pChunkRanges 0
    (Target.SetIncomplete d.iChunkCnt) hT0 rfl (le_refl _) hn0 hok hg hst
  have hp := GetNegativeLoop_pos d.iChunkCnt hn d.pChunkRanges 0
    (Target.SetIncomplete d.iChunkCnt) hT0 rfl (le_refl _) hn0 hok hg hst
    (fun r hr => by simp [SetIncomplete, Clear] at hr)
  unfold GetNegative
  dsimp only
  generalize GetNegativeLoop d.pChunkRanges 0 (Target.SetIncomplete d.iChunkCnt) = st
    at i1 i2 i3 i4 hp ⊢
  have hw : wrap32 (d.iChunkCnt - st.1) = d.iChunkCnt - st.1 :=
    wrap32_of_isInt32 _ (by omega) (by omega)
  rw [hw]
  exact AddChunkRange_pos st.2 st.1 (d.iChunkCnt - st.1) i1 hp (by unfold isInt32; omega)

end C4Network2ResChunkData
namespace C4Network2ResChunkData

/-- In a gapped list of ranges of positive length every later range starts behind the end
of the first. -/
theorem Gapped_end_lt_of_pos (a : ChunkRange) (l : List ChunkRange)
    (hg : Gapped (a :: l)) (hp : PositiveLengths l) :
    ∀ r ∈ l, a.Start + a.Length < r.Start := by
  induction l generalizing a with
  | nil => simp
  | cons b rest ih =>
    intro r hr
    rcases List.mem_cons.1 hr with rfl | hr
    · exact hg.1
    · have h1 := ih b hg.2 (fun x hx => hp x (List.mem_cons_of_mem _ hx)) r hr
      have h2 := hp b (List.mem_cons_self _ _)
      have h3 := hg.1
      omega

/-- The canonical form: two gapped lists of ranges of positive length that cover the same
chunks are the same list. -/
theorem ranges_eq_of_inRanges_iff (A : List ChunkRange) :
    ∀ (B : List ChunkRange), Gapped A → Gapped B → PositiveLengths A → PositiveLengths B →
      (∀ c, inRanges A c ↔ inRanges B c) → A = B := by
  induction A with
  | nil =>
    intro B _ _ _ hpB h
    cases B with
    | nil => rfl
    | cons b B =>
      have hb := hpB b (List.mem_cons_self _ _)
      have : inRanges (b :: B) b.Start := (inRanges_cons b B b.Start).2 (Or.inl ⟨le_refl _, by omega⟩)
      have := (h b.Start).2 this
      simp [inRanges] at this
  | cons a A ih =>
    intro B hgA hgB hpA hpB h
    cases B with
    | nil =>
      have ha := hpA a (List.mem_cons_self _ _)
      have : inRanges (a :: A) a.Start := (inRanges_cons a A a.Start).2 (Or.inl ⟨le_refl _, by omega⟩)
      have := (h a.Start).1 this
      simp [inRanges] at this
    | cons b B =>
      have ha := hpA a (List.mem_cons_self _ _)
      have hb := hpB b (List.mem_cons_self _ _)
      have hpA1 : PositiveLengths A := fun x hx => hpA x (List.mem_cons_of_mem _ hx)
      have hpB1 : PositiveLengths B := fun x hx => hpB x (List.mem_cons_of_mem _ hx)
      have hA := Gapped_end_lt_of_pos a A hgA hpA1
      have hB := Gapped_end_lt_of_pos b B hgB hpB1
      have inA : ∀ c, inRanges A c → a.Start + a.Length < c := by
        rintro c ⟨r, hr, h1, _⟩
        have := hA r hr
        omega
      have inB : ∀ c, inRanges B c → b.Start + b.Length < c := by
        rintro c ⟨r, hr, h1, _⟩
        have := hB r hr
        omega
      have h1 : b.Start ≤ a.Start := by
        have := (h a.Start).1 ((inRanges_cons a A a.Start).2 (Or.inl ⟨le_refl _, by omega⟩))
        rcases (inRanges_cons b B a.Start).1 this with h2 | h2
        · exact h2.1
        · have := inB _ h2; omega
      have h2 : a.Start ≤ b.Start := by
        have := (h b.Start).2 ((inRanges_cons b B b.Start).2 (Or.inl ⟨le_refl _, by omega⟩))
        rcases (inRanges_cons a A b.Start).1 this with h2 | h2
        · exact h2.1
        · have := inA _ h2; omega
      have hS : a.Start = b.Start := le_antisymm h2 h1
      have h3 : ¬ a.Start + a.Length < b.Start + b.Length := by
        intro hlt
        have := (h (a.Start + a.Length)).2
          ((inRanges_cons b B _).2 (Or.inl ⟨by omega, hlt⟩))
        rcases (inRanges_cons a A _).1 this with h4 | h4
        · omega
        · have := inA _ h4; omega
      have h4 : ¬ b.Start + b.Length < a.Start + a.Length := by
        intro hlt
        have := (h (b.Start + b.Length)).1
          ((inRanges_cons a A _).2 (Or.inl ⟨by omega, hlt⟩))
        rcases (inRanges_cons b B _).1 this with h4 | h4
        · omega
        · have := inB _ h4; omega
      have hL : a.Length = b.Length := by omega
      have hab : a = b := by
        cases a; cases b
        simp only at hS hL
        subst hS; subst hL; rfl
      subst hab
      have htail : ∀ c, inRanges A c ↔ inRanges B c := by
        intro c
        constructor
        · intro hc
          have h5 := inA c hc
          rcases (inRanges_cons a B c).1 ((h c).1 ((inRanges_cons a A c).2 (Or.inr hc))) with h6 | h6
          · omega
          · exact h6
        · intro hc
          have h5 := inB c hc
          rcases (inRanges_cons a A c).1 ((h c).2 ((inRanges_cons a B c).2 (Or.inr hc))) with h6 | h6
          · omega
          · exact h6
      rw [ih B (Gapped_tail _ _ hgA) (Gapped_tail _ _ hgB) hpA1 hpB1 htail]

end C4Network2ResChunkData
namespace C4Network2ResChunkData

/-- Ranges that fit into zero chunks are empty, and no empty range is accepted. -/
theorem foldl_AddChunkRange_zero (L : List ChunkRange) (d : C4Network2ResChunkData)
    (hok : ∀ r ∈ L, rangeOk 0 r) :
    L.foldl (fun acc r => acc.AddChunkRange r.Start r.Length) d = d := by
  induction L with
  | nil => rfl
  | cons r L ih =>
    have hr := hok r (List.mem_cons_self _ _)
    unfold rangeOk at hr
    simp only [List.foldl_cons]
    rw [AddChunkRange_rejected d r.Start r.Length (Or.inr (Or.inr (by omega)))]
    exact ih (fun x hx => hok x (List.mem_cons_of_mem _ hx))

/-- Every chunk map built by the chunk-map operations has only ranges of positive length,
except the map over zero chunks made by `SetComplete(0)`, whose one range is empty. -/
theorem Built_pos (d : C4Network2ResChunkData) (h : Built d) :
    PositiveLengths d.pChunkRanges ∨ (d.iChunkCnt = 0 ∧ d.pChunkRanges = [⟨0, 0⟩]) := by
  induction h with
  | setIncomplete d n h0 hn =>
    left; intro r hr; simp [SetIncomplete, Clear] at hr
  | setComplete d n h0 hn =>
    by_cases hz : n = 0
    · right; subst hz; exact ⟨rfl, rfl⟩
    · left
      intro r hr
      simp only [SetComplete, Clear, List.mem_singleton] at hr
      subst hr
      show 0 < n
      omega
  | addChunk d iChunk hb _ hsum ih =>
    rcases ih with ih | ⟨ih1, ih2⟩
    · exact Or.inl (AddChunkRange_pos d iChunk 1 (Built_wf d hb) ih hsum)
    · right
      have : d.AddChunk iChunk = d := by
        unfold AddChunk
        apply AddChunkRange_rejected
        unfold isInt32 at hsum
        rw [wrap32_of_isInt32 _ hsum.1 hsum.2, ih1]
        omega
      rw [this]; exact ⟨ih1, ih2⟩
  | addChunkRange d iStart iLength hb _ _ hsum ih =>
    rcases ih with ih | ⟨ih1, ih2⟩
    · exact Or.inl (AddChunkRange_pos d iStart iLength (Built_wf d hb) ih hsum)
    · right
      have : d.AddChunkRange iStart iLength = d := by
        apply AddChunkRange_rejected
        unfold isInt32 at hsum
        rw [wrap32_of_isInt32 _ hsum.1 hsum.2, ih1]
        omega
      rw [this]; exact ⟨ih1, ih2⟩
  | merge d Data2 hb1 hb2 hcnt ih1 _ =>
    have hw2 := Built_wf Data2 hb2
    rcases ih1 with ih | ⟨ih1, ih2⟩
    · exact Or.inl (foldl_AddChunkRange_pos Data2.pChunkRanges d (Built_wf d hb1) ih
        (hcnt ▸ hw2.2.2.1))
    · right
      have : d.Merge Data2 = d := by
        unfold Merge
        apply foldl_AddChunkRange_zero
        have := hw2.2.2.1
        rw [← hcnt, ih1] at this
        exact this
      rw [this]; exact ⟨ih1, ih2⟩
  | getNegative d Target hb _ => exact Or.inl (GetNegative_pos d Target (Built_wf d hb))
  | assign d Data2 hb _ =>
    have hw2 := Built_wf Data2 hb
    left
    exact foldl_AddChunkRange_pos Data2.pChunkRanges (d.SetIncomplete Data2.iChunkCnt)
      (SetIncomplete_wf _ _ hw2.1 hw2.2.1) (fun r hr => by simp [SetIncomplete, Clear] at hr)
      hw2.2.2.1
  | copy Data2 hb _ =>
    have hw2 := Built_wf Data2 hb
    left
    have h0 : WellFormed ⟨Data2.iChunkCnt, 0, [], 0⟩ :=
      ⟨hw2.1, hw2.2.1, fun r hr => by simp at hr, trivial, rfl⟩
    exact foldl_AddChunkRange_pos Data2.pChunkRanges ⟨Data2.iChunkCnt, 0, [], 0⟩ h0
      (fun r hr => by simp at hr) hw2.2.2.1

end C4Network2ResChunkData
namespace C4Network2ResChunkData

/-- The ranges of a well-formed map list its present chunks in increasing order. -/
theorem chunksOf_eq_presentChunks (d : C4Network2ResChunkData) (hd : WellFormed d) :
    chunksOf d.pChunkRanges = presentChunks d := chunksOf_eq_filter d hd

/-- The present counter of a well-formed map is the number of its present chunks. -/
theorem presentCnt_eq_length (d : C4Network2ResChunkData) (hd : WellFormed d) :
    d.iPresentChunkCnt = ((presentChunks d).length : Int) := by
  rw [← chunksOf_eq_presentChunks d hd, chunksOf_length d.iChunkCnt _ hd.2.2.1, hd.2.2.2.2]

/-- Counting a union: the elements satisfying `p` or `q` are those satisfying `p` and
those satisfying `q` but not `p`. -/
theorem length_filter_or (L : List Int) (p q : Int → Bool) :
    (L.filter (fun c => p c || q c)).length
      = (L.filter p).length + (L.filter (fun c => q c && !p c)).length := by
  induction L with
  | nil => rfl
  | cons a L ih =>
    simp only [List.filter_cons]
    cases hp : p a <;> cases hq : q a <;> simp [ih] <;> omega

/-- The contract of `AddChunkRange` on a well-formed map when the sum `iStart + iLength`
is a 32-bit value: a range outside the bounds or without chunks leaves the map as it is,
any other range is united with the present set and the present counter grows by the
number of chunks of the range that were absent. -/
theorem AddChunkRange_contract (d : C4Network2ResChunkData) (s l : Int) (hwf : WellFormed d)
    (hsum : isInt32 (s + l)) :
    ((s < 0 ∨ l ≤ 0 ∨ s + l > d.iChunkCnt) → d.AddChunkRange s l = d) ∧
    (¬ (s < 0 ∨ l ≤ 0 ∨ s + l > d.iChunkCnt) →
      (∀ c, isPresent (d.AddChunkRange s l) c ↔ (isPresent d c ∨ (s ≤ c ∧ c < s + l))) ∧
      (d.AddChunkRange s l).iChunkCnt = d.iChunkCnt ∧
      (d.AddChunkRange s l).iPresentChunkCnt = d.iPresentChunkCnt +
        (((chunkNumbers d.iChunkCnt).filter
          (fun c => decide (s ≤ c ∧ c < s + l) && !decide (isPresent d c))).length : Int)) := by
  unfold isInt32 at hsum
  constructor
  · intro h
    apply AddChunkRange_rejected
    rw [wrap32_of_isInt32 _ hsum.1 hsum.2]
    omega
  · intro h
    obtain ⟨a1, a2, a3, _⟩ := AddChunkRange_spec d s l hwf (by omega) (by omega) (by omega)
    refine ⟨a3, a2, ?_⟩
    rw [presentCnt_eq_length _ a1, presentCnt_eq_length d hwf]
    unfold presentChunks
    rw [a2]
    have hf : (chunkNumbers d.iChunkCnt).filter (fun c => decide (isPresent (d.AddChunkRange s l) c))
        = (chunkNumbers d.iChunkCnt).filter
            (fun c => decide (isPresent d c) || decide (s ≤ c ∧ c < s + l)) := by
      apply List.filter_congr
      intro c _
      rw [← Bool.decide_or]
      exact decide_eq_decide.2 (a3 c)
    rw [hf, length_filter_or]
    push_cast
    rfl

end C4Network2ResChunkData

/-! ## Claims on complement, merge, insertion and enumeration -/

namespace C4Network2ResChunkData

/-- C13 (counterexample): the map over zero chunks made by `SetComplete(0)` holds the one
empty range `[0, 0)`; its complement and the complement of the complement hold no range
at all, so the double complement does not have the same ranges. -/
theorem GetNegative_twice_drops_empty_range :
    Built (new.SetComplete 0) ∧
    (new.SetComplete 0).pChunkRanges = [{ Start := 0, Length := 0 }] ∧
    (((new.SetComplete 0).GetNegative new).GetNegative new).pChunkRanges = [] ∧
    (((new.SetComplete 0).GetNegative new).GetNegative new).pChunkRanges
      ≠ (new.SetComplete 0).pChunkRanges :=
  ⟨Built.setComplete new 0 (by decide) (by decide), by decide, by decide, by decide⟩

/-- C13 (amended): for a well-formed chunk map all of whose ranges have positive length,
the complement of the complement has the same chunk count, the same ranges and the same
present counter, and the present set of the complement is exactly `[0, iChunkCnt)` minus
the present set of the map. -/
theorem GetNegative_involutive (d T1 T2 : C4Network2ResChunkData) (hd : WellFormed d)
    (hpos : PositiveLengths d.pChunkRanges) :
    ((d.GetNegative T1).GetNegative T2).iChunkCnt = d.iChunkCnt ∧
    ((d.GetNegative T1).GetNegative T2).pChunkRanges = d.pChunkRanges ∧
    ((d.GetNegative T1).GetNegative T2).iPresentChunkCnt = d.iPresentChunkCnt ∧
    (d.GetNegative T1).iChunkCnt = d.iChunkCnt ∧
    (∀ c, isPresent (d.GetNegative T1) c ↔ (0 ≤ c ∧ c < d.iChunkCnt ∧ ¬ isPresent d c)) := by
  obtain ⟨n1, n2, n3⟩ := GetNegative_spec d T1 hd
  obtain ⟨m1, m2, m3⟩ := GetNegative_spec (d.GetNegative T1) T2 n1
  have hp2 := GetNegative_pos (d.GetNegative T1) T2 n1
  have hranges : ((d.GetNegative T1).GetNegative T2).pChunkRanges = d.pChunkRanges := by
    apply ranges_eq_of_inRanges_iff _ _ m1.2.2.2.1 hd.2.2.2.1 hp2 hpos
    intro c
    show isPresent ((d.GetNegative T1).GetNegative T2) c ↔ isPresent d c
    rw [m3 c, n3 c, n2]
    constructor
    · rintro ⟨h0, h1, h2⟩
      by_contra hc
      exact h2 ⟨h0, h1, hc⟩
    · intro hc
      have hb := isPresent_bounds d hd c hc
      exact ⟨hb.1, hb.2, fun h => h.2.2 hc⟩
  refine ⟨m2.trans n2, hranges, ?_, n2, n3⟩
  rw [m1.2.2.2.2, hd.2.2.2.2, hranges]

/-- C13 (witness): the map `{1, 2}` over 5 chunks. -/
theorem GetNegative_involutive_witness :
    ((((new.SetIncomplete 5).AddChunkRange 1 2).GetNegative new).GetNegative new).iChunkCnt
      = ((new.SetIncomplete 5).AddChunkRange 1 2).iChunkCnt ∧
    ((((new.SetIncomplete 5).AddChunkRange 1 2).GetNegative new).GetNegative new).pChunkRanges
      = ((new.SetIncomplete 5).AddChunkRange 1 2).pChunkRanges ∧
    ((((new.SetIncomplete 5).AddChunkRange 1 2).GetNegative new).GetNegative new).iPresentChunkCnt
      = ((new.SetIncomplete 5).AddChunkRange 1 2).iPresentChunkCnt ∧
    (((new.SetIncomplete 5).AddChunkRange 1 2).GetNegative new).iChunkCnt
      = ((new.SetIncomplete 5).AddChunkRange 1 2).iChunkCnt ∧
    (∀ c, isPresent (((new.SetIncomplete 5).AddChunkRange 1 2).GetNegative new) c ↔
      (0 ≤ c ∧ c < ((new.SetIncomplete 5).AddChunkRange 1 2).iChunkCnt ∧
        ¬ isPresent ((new.SetIncomplete 5).AddChunkRange 1 2) c)) :=
  GetNegative_involutive ((new.SetIncomplete 5).AddChunkRange 1 2) new new
    (by decide) (by decide)

/-- C14: for well-formed maps over the same chunk count, `Merge` makes the present set of
the target the union of the two present sets, and its present counter the number of chunks
of that union; the target stays well-formed over the same chunk count.  The argument is a
constant reference that is only read. -/
theorem Merge_union (d Data2 : C4Network2ResChunkData) (hd : WellFormed d)
    (h2 : WellFormed Data2) (hcnt : d.iChunkCnt = Data2.iChunkCnt) :
    (∀ c, isPresent (d.Merge Data2) c ↔ (isPresent d c ∨ isPresent Data2 c)) ∧
    (d.Merge Data2).iPresentChunkCnt = (((chunkNumbers d.iChunkCnt).filter
      (fun c => decide (isPresent d c ∨ isPresent Data2 c))).length : Int) ∧
    (d.Merge Data2).iChunkCnt = d.iChunkCnt ∧
    WellFormed (d.Merge Data2) := by
  obtain ⟨m1, m2, m3⟩ := Merge_spec d Data2 hd h2 hcnt
  refine ⟨m3, ?_, m2, m1⟩
  rw [presentCnt_eq_length _ m1]
  unfold presentChunks
  rw [m2]
  congr 2
  apply List.filter_congr
  intro c _
  exact decide_eq_decide.2 (m3 c)

/-- C14 (witness): `{0, 1}` merged with `{1, 2, 3}` over 5 chunks. -/
theorem Merge_union_witness :
    (∀ c, isPresent (((new.SetIncomplete 5).AddChunkRange 0 2).Merge
        ((new.SetIncomplete 5).AddChunkRange 1 3)) c ↔
      (isPresent ((new.SetIncomplete 5).AddChunkRange 0 2) c ∨
        isPresent ((new.SetIncomplete 5).AddChunkRange 1 3) c)) ∧
    (((new.SetIncomplete 5).AddChunkRange 0 2).Merge
        ((new.SetIncomplete 5).AddChunkRange 1 3)).iPresentChunkCnt
      = (((chunkNumbers ((new.SetIncomplete 5).AddChunkRange 0 2).iChunkCnt).filter
          (fun c => decide (isPresent ((new.SetIncomplete 5).AddChunkRange 0 2) c ∨
            isPresent ((new.SetIncomplete 5).AddChunkRange 1 3) c))).length : Int) ∧
    (((new.SetIncomplete 5).AddChunkRange 0 2).Merge
        ((new.SetIncomplete 5).AddChunkRange 1 3)).iChunkCnt
      = ((new.SetIncomplete 5).AddChunkRange 0 2).iChunkCnt ∧
    WellFormed (((new.SetIncomplete 5).AddChunkRange 0 2).Merge
        ((new.SetIncomplete 5).AddChunkRange 1 3)) :=
  Merge_union ((new.SetIncomplete 5).AddChunkRange 0 2) ((new.SetIncomplete 5).AddChunkRange 1 3)
    (by decide) (by decide) (by decide)

/-- C15 (failing input): on the empty map over 10 chunks `AddChunkRange(3, 2147483647)`
has `iStart + iLength = 2147483650 > iChunkCnt` and should leave the map unchanged, but
the sum wraps to `-2147483646` in 32-bit arithmetic, the bounds check passes and the
range `[3, 2147483650)` is stored with a present counter of 2147483647. -/
theorem AddChunkRange_overflow_accepts_out_of_bounds :
    WellFormed (new.SetIncomplete 10) ∧
    (3 : Int) + 2147483647 > (new.SetIncomplete 10).iChunkCnt ∧
    wrap32 (3 + 2147483647) = -2147483646 ∧
    (new.SetIncomplete 10).AddChunkRange 3 2147483647
      = { iChunkCnt := 10, iPresentChunkCnt := 2147483647,
          pChunkRanges := [{ Start := 3, Length := 2147483647 }], iChunkRangeCnt := 1 } ∧
    (new.SetIncomplete 10).AddChunkRange 3 2147483647 ≠ new.SetIncomplete 10 := by
  decide

/-- C16: on a well-formed map `getPresentChunk(k)` for `0 <= k < iPresentChunkCnt` is the
entry number `k` of the increasing list of present chunks, which has `iPresentChunkCnt`
entries; so it is a present chunk, it grows strictly with `k`, and every present chunk is
`getPresentChunk(k)` for some such `k`. -/
theorem getPresentChunk_enumerates (d : C4Network2ResChunkData) (hd : WellFormed d) :
    ((presentChunks d).length : Int) = d.iPresentChunkCnt ∧
    (∀ k, 0 ≤ k → k < d.iPresentChunkCnt →
      (presentChunks d)[k.toNat]? = some (d.getPresentChunk k) ∧
      isPresent d (d.getPresentChunk k)) ∧
    (∀ k1 k2, 0 ≤ k1 → k1 < k2 → k2 < d.iPresentChunkCnt →
      d.getPresentChunk k1 < d.getPresentChunk k2) ∧
    (∀ c, isPresent d c → ∃ k, 0 ≤ k ∧ k < d.iPresentChunkCnt ∧ d.getPresentChunk k = c) := by
  have hlen := (presentCnt_eq_length d hd).symm
  have hb := sumLen_bounds d.iChunkCnt hd.1 _ hd.2.2.2.1 hd.2.2.1
  have hsorted := chunksOf_sorted d.iChunkCnt _ hd.2.2.1 hd.2.2.2.1
  rw [chunksOf_eq_presentChunks d hd] at hsorted
  have hn := hd.2.1
  have key : ∀ k, 0 ≤ k → k < d.iPresentChunkCnt →
      (presentChunks d)[k.toNat]? = some (d.getPresentChunk k) := by
    intro k h0 h1
    rw [← chunksOf_eq_presentChunks d hd]
    exact getPresentChunkLoop_spec d.iChunkCnt hn d.pChunkRanges k hd.2.2.1 h0
      (by rw [hd.2.2.2.2] at h1; omega) (by rw [hd.2.2.2.2] at h1; exact h1)
  refine ⟨hlen, ?_, ?_, ?_⟩
  · intro k h0 h1
    refine ⟨key k h0 h1, ?_⟩
    have hm := List.getElem?_mem (key k h0 h1)
    rw [← chunksOf_eq_presentChunks d hd, mem_chunksOf] at hm
    exact hm
  · intro k1 k2 h0 h12 h2
    have e1 := key k1 h0 (by omega)
    have e2 := key k2 (by omega) h2
    obtain ⟨b1, g1⟩ := List.getElem?_eq_some_iff.1 e1
    obtain ⟨b2, g2⟩ := List.getElem?_eq_some_iff.1 e2
    rw [← g1, ← g2]
    exact List.pairwise_iff_getElem.1 hsorted _ _ b1 b2 (by omega)
  · intro c hc
    have hm : c ∈ presentChunks d := by
      rw [← chunksOf_eq_presentChunks d hd, mem_chunksOf]; exact hc
    obtain ⟨i, hi, hg⟩ := List.getElem_of_mem hm
    refine ⟨(i : Int), by omega, by omega, ?_⟩
    have e := key (i : Int) (by omega) (by omega)
    rw [Int.toNat_ofNat, List.getElem?_eq_getElem hi, hg] at e
    exact (Option.some.inj e).symm

/-- C16 (witness): the map `{1, 2, 4}` over 5 chunks. -/
theorem getPresentChunk_enumerates_witness :
    ((presentChunks (((new.SetIncomplete 5).AddChunkRange 1 2).AddChunk 4)).length : Int)
      = (((new.SetIncomplete 5).AddChunkRange 1 2).AddChunk 4).iPresentChunkCnt ∧
    (∀ k, 0 ≤ k → k < (((new.SetIncomplete 5).AddChunkRange 1 2).AddChunk 4).iPresentChunkCnt →
      (presentChunks (((new.SetIncomplete 5).AddChunkRange 1 2).AddChunk 4))[k.toNat]?
        = some ((((new.SetIncomplete 5).AddChunkRange 1 2).AddChunk 4).getPresentChunk k) ∧
      isPresent (((new.SetIncomplete 5).AddChunkRange 1 2).AddChunk 4)
        ((((new.SetIncomplete 5).AddChunkRange 1 2).AddChunk 4).getPresentChunk k)) ∧
    (∀ k1 k2, 0 ≤ k1 → k1 < k2 →
      k2 < (((new.SetIncomplete 5).AddChunkRange 1 2).AddChunk 4).iPresentChunkCnt →
      (((new.SetIncomplete 5).AddChunkRange 1 2).AddChunk 4).getPresentChunk k1
        < (((new.SetIncomplete 5).AddChunkRange 1 2).AddChunk 4).getPresentChunk k2) ∧
    (∀ c, isPresent (((new.SetIncomplete 5).AddChunkRange 1 2).AddChunk 4) c →
      ∃ k, 0 ≤ k ∧ k < (((new.SetIncomplete 5).AddChunkRange 1 2).AddChunk 4).iPresentChunkCnt ∧
        (((new.SetIncomplete 5).AddChunkRange 1 2).AddChunk 4).getPresentChunk k = c) :=
  getPresentChunk_enumerates (((new.SetIncomplete 5).AddChunkRange 1 2).AddChunk 4) (by decide)

end C4Network2ResChunkData

/-! ## Materialisation: stickiness of a failure -/

namespace C4Network2Res

/-- A standalone that is set lets `GetStandalone` succeed at once. -/
theorem GetStandalone_of_set (env : StandaloneEnv) (r : C4Network2Res) (a b : Bool)
    (h : r.szStandalone ≠ "") : GetStandalone env r a b = (r, true) := by
  unfold GetStandalone
  rw [if_pos h]

/-- With no standalone and the failure flag set `GetStandalone` fails at once and changes
nothing. -/
theorem GetStandalone_of_failed (env : StandaloneEnv) (r : C4Network2Res) (a b : Bool)
    (h1 : r.szStandalone = "") (h2 : r.fStandaloneFailed = true) :
    GetStandalone env r a b = (r, false) := by
  unfold GetStandalone
  rw [if_neg (by simp [h1]), if_pos h2]

theorem OptimizeStandalone_failed (env : OptimizeEnv) (r : C4Network2Res) :
    (OptimizeStandalone env r).1.fStandaloneFailed = r.fStandaloneFailed := by
  unfold OptimizeStandalone
  cases env.tempName <;> dsimp only <;> split_ifs <;> rfl

theorem packStandalone_error (env : StandaloneEnv) (r e : C4Network2Res) (b : Bool)
    (h : packStandalone env r b = .error e) :
    e.szStandalone = "" ∧ e.fStandaloneFailed = r.fStandaloneFailed := by
  unfold packStandalone at h
  cases hp : env.packName <;> rw [hp] at h <;> dsimp only at h <;> split_ifs at h <;>
    simp only [Except.error.injEq, reduceCtorEq] at h <;> subst h <;> exact ⟨rfl, rfl⟩

theorem packStandalone_ok (env : StandaloneEnv) (r r1 : C4Network2Res) (b : Bool)
    (h : packStandalone env r b = .ok r1) : r1.fStandaloneFailed = r.fStandaloneFailed := by
  unfold packStandalone at h
  cases hp : env.packName <;> rw [hp] at h <;> dsimp only at h <;> split_ifs at h <;>
    simp only [Except.ok.injEq, reduceCtorEq] at h <;> subst h <;> rfl

theorem fetchStandalone_error (env : StandaloneEnv) (r e : C4Network2Res)
    (h : fetchStandalone env r = .error e) :
    e.szStandalone = "" ∧ e.fStandaloneFailed = r.fStandaloneFailed := by
  unfold fetchStandalone at h
  cases hp : env.copyName <;> rw [hp] at h <;> dsimp only at h <;> split_ifs at h <;>
    (try dsimp only at h) <;> (try split_ifs at h) <;>
    simp only [Except.error.injEq, reduceCtorEq] at h <;> subst h <;>
    first | exact ⟨rfl, rfl⟩ | exact ⟨rfl, OptimizeStandalone_failed _ _⟩

theorem fetchStandalone_ok (env : StandaloneEnv) (r r1 : C4Network2Res)
    (h : fetchStandalone env r = .ok r1) : r1.fStandaloneFailed = r.fStandaloneFailed := by
  unfold fetchStandalone at h
  cases hp : env.copyName <;> rw [hp] at h <;> dsimp only at h <;> split_ifs at h <;>
    (try dsimp only at h) <;> (try split_ifs at h) <;>
    simp only [Except.ok.injEq, reduceCtorEq] at h <;> subst h <;>
    exact OptimizeStandalone_failed _ _

theorem checkStandalone_false (env : StandaloneEnv) (r : C4Network2Res) (a b : Bool)
    (h : (checkStandalone env r a b).2 = false) (hcrc : env.fileCRC ≠ none) :
    (checkStandalone env r a b).1.szStandalone = "" ∧
    (checkStandalone env r a b).1.fStandaloneFailed = r.fStandaloneFailed := by
  unfold checkStandalone at h ⊢
  cases hc : env.fileCRC with
  | none => exact absurd hc hcrc
  | some crc =>
    rw [hc] at h
    dsimp only at h ⊢
    split_ifs at h ⊢ <;> exact ⟨rfl, rfl⟩

/-- A failing run of `GetStandalone` that got as far as the materialisation and did not
fail in the checksum call leaves the standalone unset and the failure flag set. -/
theorem GetStandalone_failure_state (env : StandaloneEnv) (r : C4Network2Res) (a b : Bool)
    (hb : beginsMaterialization r a) (hf : (GetStandalone env r a b).2 = false)
    (hcrc : env.fileCRC ≠ none) :
    (GetStandalone env r a b).1.szStandalone = "" ∧
    (GetStandalone env r a b).1.fStandaloneFailed = true := by
  obtain ⟨h1, h2, h3⟩ := hb
  unfold GetStandalone at hf ⊢
  rw [if_neg (by simp [h1]), if_neg (by simp [h2])] at hf ⊢
  rw [if_neg (by rcases h3 with h | h <;> simp [h])] at hf ⊢
  dsimp only at hf ⊢
  cases hp : packStandalone env { r with fStandaloneFailed := true, szStandalone := r.szFile } b with
  | error e =>
    have := packStandalone_error _ _ _ _ hp
    exact ⟨this.1, this.2⟩
  | ok r1 =>
    have hp1 := packStandalone_ok _ _ _ _ hp
    rw [hp] at hf
    dsimp only at hf ⊢
    cases hq : fetchStandalone env r1 with
    | error e =>
      have := fetchStandalone_error _ _ _ hq
      exact ⟨this.1, this.2.trans hp1⟩
    | ok r2 =>
      have hq1 := fetchStandalone_ok _ _ _ hq
      rw [hq] at hf
      dsimp only at hf ⊢
      have := checkStandalone_false env r2 a b hf hcrc
      exact ⟨this.1, this.2.trans (hq1.trans hp1)⟩

/-- A failure of `GetStandalone` that is not the failure of the checksum call is sticky:
every later call fails and changes nothing. -/
theorem GetStandalone_sticky (env : StandaloneEnv) (r : C4Network2Res) (a b : Bool)
    (hb : beginsMaterialization r a) (hf : (GetStandalone env r a b).2 = false)
    (hcrc : env.fileCRC ≠ none) (env1 : StandaloneEnv) (a1 b1 : Bool) :
    GetStandalone env1 (GetStandalone env r a b).1 a1 b1 = ((GetStandalone env r a b).1, false) := by
  obtain ⟨h1, h2⟩ := GetStandalone_failure_state env r a b hb hf hcrc
  exact GetStandalone_of_failed env1 _ a1 b1 h1 h2

end C4Network2Res

/-! ## Claim on the stickiness of a failed materialisation -/

namespace C4Network2Res

/-- C17 (failing input): an entity installed from the plain file `Castle.c4s` calls
`GetStandalone` with `fSetOfficial`; the file exists and needs no packing or copying, but
`C4Group_GetFileCRC` fails.  The call got as far as the materialisation and returns
`false` with the failure flag set, yet it leaves `szStandalone` at `Castle.c4s`, so every
later call returns `true` at the first check. -/
theorem GetStandalone_checksum_failure_not_sticky :
    beginsMaterialization exampleLocalRes true ∧
    (GetStandalone exampleNoChecksum exampleLocalRes true false).2 = false ∧
    (GetStandalone exampleNoChecksum exampleLocalRes true false).1.fStandaloneFailed = true ∧
    (GetStandalone exampleNoChecksum exampleLocalRes true false).1.szStandalone = "Castle.c4s" ∧
    (∀ (env : StandaloneEnv) (fSetOfficial fAllowUnloadable : Bool),
      (GetStandalone env (GetStandalone exampleNoChecksum exampleLocalRes true false).1
        fSetOfficial fAllowUnloadable).2 = true) := by
  refine ⟨by decide, by decide, by decide, by decide, ?_⟩
  intro env a b
  rw [GetStandalone_of_set env _ a b (by decide)]

end C4Network2Res

/-! ## The id counter of the catalogue -/

theorem wrap32_add_wrap32 (a b : Int) : wrap32 (wrap32 a + b) = wrap32 (a + b) := by
  unfold wrap32; omega

namespace C4Network2ResList

theorem getRes_eq_none_iff (l : C4Network2ResList) (x : Int) :
    l.getRes x = none ↔ ∀ r ∈ l.pFirst, r.Core.iID ≠ x := by
  unfold getRes
  rw [List.find?_eq_none]
  simp

theorem getRes_isSome_iff (l : C4Network2ResList) (x : Int) :
    (l.getRes x).isSome = true ↔ x ∈ l.pFirst.map (fun r => r.Core.iID) := by
  rw [Option.isSome_iff_ne_none, Ne, getRes_eq_none_iff]
  simp only [List.mem_map]
  constructor
  · intro h
    by_contra hc
    exact h (fun r hr he => hc ⟨r, hr, he⟩)
  · rintro ⟨r, hr, he⟩ h
    exact h r hr he

/-- The search loop visits the ids `id, id + 1, ...` (with 32-bit wrap) and stops at the
first one that is free or when the fuel is used up. -/
theorem skipUsed_spec (l : C4Network2ResList) :
    ∀ (fuel : Nat) (id : Int), isInt32 id →
      ∃ k : Nat, k ≤ fuel ∧ skipUsed l fuel id = wrap32 (id + k) ∧
        (∀ j : Nat, j < k → (l.getRes (wrap32 (id + j))).isSome = true) ∧
        (k < fuel → l.getRes (wrap32 (id + k)) = none) := by
  intro fuel
  induction fuel with
  | zero =>
    intro id hid
    refine ⟨0, le_refl _, ?_, fun j hj => absurd hj (Nat.not_lt_zero _), fun h => absurd h (Nat.lt_irrefl _)⟩
    simp only [skipUsed, Nat.cast_zero, add_zero]
    exact (wrap32_of_isInt32 id hid.1 hid.2).symm
  | succ fuel ih =>
    intro id hid
    have hw : wrap32 (id + (0 : Nat)) = id := by
      simp only [Nat.cast_zero, add_zero]; exact wrap32_of_isInt32 id hid.1 hid.2
    by_cases hu : (l.getRes id).isSome = true
    · obtain ⟨k, hk, he, hused, hfree⟩ := ih (wrap32 (id + 1)) (wrap32_bounds _)
      refine ⟨k + 1, by omega, ?_, ?_, ?_⟩
      · simp only [skipUsed, hu, if_true]
        rw [he, wrap32_add_wrap32]
        push_cast
        congr 1
        omega
      · intro j hj
        cases j with
        | zero => rw [hw]; exact hu
        | succ j =>
          have := hused j (by omega)
          rw [wrap32_add_wrap32] at this
          push_cast
          rw [show id + ((j : Int) + 1) = id + 1 + j by omega]
          exact this
      · intro hlt
        have := hfree (by omega)
        rw [wrap32_add_wrap32] at this
        push_cast
        rw [show id + ((k : Int) + 1) = id + 1 + k by omega]
        exact this
    · refine ⟨0, by omega, ?_, fun j hj => absurd hj (Nat.not_lt_zero _), ?_⟩
      · simp only [skipUsed, hu]
        rw [hw]
        rfl
      · intro _
        rw [hw]
        simpa using hu

/-- Fewer than `2^32` entities cannot occupy `n + 1` consecutive ids when there are only
`n` of them: if the ids `id .. id + n - 1` are all taken, `id + n` is free. -/
theorem free_after_all_used (l : C4Network2ResList) (id : Int)
    (hlen : l.pFirst.length < 4294967296)
    (hused : ∀ j : Nat, j < l.pFirst.length → (l.getRes (wrap32 (id + j))).isSome = true) :
    l.getRes (wrap32 (id + l.pFirst.length)) = none := by
  by_contra hne
  have hlast : (l.getRes (wrap32 (id + l.pFirst.length))).isSome = true :=
    Option.isSome_iff_ne_none.2 hne
  set n := l.pFirst.length with hn
  set ids := l.pFirst.map (fun r => r.Core.iID) with hids
  have hall : ∀ j ∈ Finset.range (n + 1), wrap32 (id + (j : Nat)) ∈ ids.toFinset := by
    intro j hj
    rw [List.mem_toFinset]
    apply (getRes_isSome_iff l _).1
    rcases Nat.lt_succ_iff_lt_or_eq.1 (Finset.mem_range.1 hj) with h | h
    · exact hused j h
    · rw [h]; exact hlast
  have hinj : Set.InjOn (fun j : Nat => wrap32 (id + (j : Nat))) (Finset.range (n + 1) : Set Nat) := by
    intro a ha b hb hab
    have ha1 := Finset.mem_range.1 (Finset.mem_coe.1 ha)
    have hb1 := Finset.mem_range.1 (Finset.mem_coe.1 hb)
    simp only [wrap32] at hab
    omega
  have h1 : (Finset.range (n + 1)).card ≤ ids.toFinset.card :=
    Finset.card_le_card_of_injOn _ hall hinj
  have h2 : ids.toFinset.card ≤ ids.length := List.toFinset_card_le ids
  have h3 : ids.length = n := by rw [hids, List.length_map]
  rw [Finset.card_range] at h1
  omega

end C4Network2ResList
namespace C4Network2ResList

theorem nextResID_fst (l : C4Network2ResList) :
    l.nextResID.1 = skipUsed l l.pFirst.length
      (if l.iNextResID ≥ wrap32 (wrap32 ((l.iClientID + 1) * 65536) - 1)
        then wrap32 (max 0 l.iClientID * 65536) else l.iNextResID) := rfl

theorem nextResID_snd (l : C4Network2ResList) :
    l.nextResID.2 = { l with iNextResID := wrap32 (l.nextResID.1 + 1) } := rfl

theorem withNext_pFirst (l : C4Network2ResList) (v : Int) :
    ({ l with iNextResID := v } : C4Network2ResList).pFirst = l.pFirst := rfl

theorem skipUsed_of_free (l : C4Network2ResList) (fuel : Nat) (id : Int)
    (h : l.getRes id = none) : skipUsed l fuel id = id := by
  cases fuel with
  | zero => rfl
  | succ fuel => simp [skipUsed, h]

/-- With fewer than `2^32` entities the search loop of `nextResID`, which may advance as
often as there are entities, ends on a free id. -/
theorem skipUsed_free (l : C4Network2ResList) (id : Int) (hid : isInt32 id)
    (hlen : l.pFirst.length < 4294967296) :
    l.getRes (skipUsed l l.pFirst.length id) = none := by
  obtain ⟨k, hk, he, hused, hfree⟩ := skipUsed_spec l l.pFirst.length id hid
  rw [he]
  rcases Nat.lt_or_ge k l.pFirst.length with h | h
  · exact hfree h
  · have hkn : k = l.pFirst.length := le_antisymm hk h
    rw [hkn] at hused ⊢
    exact free_after_all_used l id hlen hused

theorem nextResID_start_isInt32 (l : C4Network2ResList) (hn : isInt32 l.iNextResID) :
    isInt32 (if l.iNextResID ≥ wrap32 (wrap32 ((l.iClientID + 1) * 65536) - 1)
      then wrap32 (max 0 l.iClientID * 65536) else l.iNextResID) := by
  split
  · exact wrap32_bounds _
  · exact hn

theorem exampleFullWindow_length : exampleFullWindow.pFirst.length = 65534 := by
  simp [exampleFullWindow]

theorem exampleFullWindow_used (l : C4Network2ResList) (hl : l.pFirst = exampleFullWindow.pFirst)
    (x : Int) : (l.getRes x).isSome = true ↔ (0 ≤ x ∧ x < 65534) := by
  rw [getRes_isSome_iff, hl]
  simp only [exampleFullWindow, List.map_map, List.mem_map, List.mem_range, Function.comp]
  constructor
  · rintro ⟨i, hi, he⟩
    have : (exampleRes (i : Int)).Core.iID = (i : Int) := rfl
    rw [this] at he
    omega
  · rintro ⟨h0, h1⟩
    refine ⟨x.toNat, by omega, ?_⟩
    show ((x.toNat : Nat) : Int) = x
    omega

/-- In a catalogue of fewer than `2^32 - 1` entities `nextResID` returns an
id that no entity of the catalogue has, and leaves the catalogue as it is; a second call
returns a different id unless the counter has reached the end of the window
`((iClientID + 1) << 16) - 1` and is wrapped to the start of the window. -/
theorem nextResID_free_and_distinct (l : C4Network2ResList) (hlen : l.pFirst.length < 4294967295)
    (hn : isInt32 l.iNextResID) :
    l.getRes l.nextResID.1 = none ∧
    (∀ r ∈ l.pFirst, r.Core.iID ≠ l.nextResID.1) ∧
    l.nextResID.2.pFirst = l.pFirst ∧
    (l.nextResID.2.iNextResID < wrap32 (wrap32 ((l.iClientID + 1) * 65536) - 1) →
      l.nextResID.2.nextResID.1 ≠ l.nextResID.1) := by
  have hstart := nextResID_start_isInt32 l hn
  have hfree : l.getRes l.nextResID.1 = none :=
    skipUsed_free l _ hstart (by omega)
  refine ⟨hfree, (getRes_eq_none_iff l _).1 hfree, rfl, ?_⟩
  intro hlt
  obtain ⟨k1, _, he1, _, _⟩ := skipUsed_spec l l.pFirst.length _ hstart
  have hid1 : isInt32 l.nextResID.1 := by
    show isInt32 (skipUsed l l.pFirst.length _)
    rw [he1]; exact wrap32_bounds _
  have hs2 : l.nextResID.2.nextResID.1
      = skipUsed l.nextResID.2 l.pFirst.length (wrap32 (l.nextResID.1 + 1)) := by
    have hge : ¬ (l.nextResID.2.iNextResID
        ≥ wrap32 (wrap32 ((l.nextResID.2.iClientID + 1) * 65536) - 1)) := not_le.2 hlt
    show skipUsed l.nextResID.2 l.nextResID.2.pFirst.length
      (if l.nextResID.2.iNextResID ≥ wrap32 (wrap32 ((l.nextResID.2.iClientID + 1) * 65536) - 1)
        then wrap32 (max 0 l.nextResID.2.iClientID * 65536) else l.nextResID.2.iNextResID) = _
    rw [if_neg hge]
    rfl
  obtain ⟨k2, hk2, he2, _, _⟩ := skipUsed_spec l.nextResID.2 l.pFirst.length
    (wrap32 (l.nextResID.1 + 1)) (wrap32_bounds _)
  rw [hs2, he2]
  unfold isInt32 at hid1
  generalize l.nextResID.1 = id1 at hid1 ⊢
  unfold wrap32
  omega

end C4Network2ResList

/-! ## Claims on the catalogue: id allocation, client id, reaper -/

namespace C4Network2ResList

/-- C11 (counterexample): client 0 whose ids 0 to 65533 are all in use and whose counter
stands at 65534.  The first call returns 65534 and moves the counter to 65535, the end of
the window; the second call, with the catalogue unchanged, wraps the counter to 0, skips
the 65534 used ids and returns 65534 again. -/
theorem nextResID_repeats_id :
    exampleFullWindow.nextResID.1 = 65534 ∧
    exampleFullWindow.nextResID.2.pFirst = exampleFullWindow.pFirst ∧
    exampleFullWindow.nextResID.2.iNextResID = 65535 ∧
    exampleFullWindow.nextResID.2.nextResID.1 = 65534 := by
  have hI : exampleFullWindow.iNextResID = 65534 := rfl
  have hC : exampleFullWindow.iClientID = 0 := rfl
  have hfree : exampleFullWindow.getRes 65534 = none := by
    have := (exampleFullWindow_used exampleFullWindow rfl 65534).not
    simpa using this
  have h1 : exampleFullWindow.nextResID.1 = 65534 := by
    rw [nextResID_fst, hI, hC, if_neg (by decide)]
    exact skipUsed_of_free _ _ _ hfree
  have h2 : exampleFullWindow.nextResID.2
      = { exampleFullWindow with iNextResID := 65535 } := by
    rw [nextResID_snd, h1]
    rfl
  refine ⟨h1, by rw [nextResID_snd], by rw [h2], ?_⟩
  rw [h2, nextResID_fst]
  have hI2 : ({ exampleFullWindow with iNextResID := 65535 } : C4Network2ResList).iNextResID
      = 65535 := rfl
  have hC2 : ({ exampleFullWindow with iNextResID := 65535 } : C4Network2ResList).iClientID
      = 0 := rfl
  have hP2 : ({ exampleFullWindow with iNextResID := 65535 } : C4Network2ResList).pFirst
      = exampleFullWindow.pFirst := withNext_pFirst _ _
  have hcond : (65535 : Int) ≥ wrap32 (wrap32 ((0 + 1) * 65536) - 1) := by decide
  have hbase : wrap32 (max 0 0 * 65536) = 0 := by rw [max_self]; decide
  rw [hI2, hC2, hP2, if_pos hcond, hbase]
  obtain ⟨k, hk, he, hused, hfree2⟩ := skipUsed_spec
    { exampleFullWindow with iNextResID := 65535 } exampleFullWindow.pFirst.length 0 (by decide)
  rw [exampleFullWindow_length] at hk he hfree2 ⊢
  rw [he]
  rcases Nat.lt_or_ge k 65534 with h | h
  · have hf := hfree2 h
    have hu := (exampleFullWindow_used { exampleFullWindow with iNextResID := 65535 } hP2
      (wrap32 (0 + (k : Int)))).2 (by unfold wrap32; omega)
    rw [hf] at hu
    simp at hu
  · have hkn : k = 65534 := le_antisymm hk h
    rw [hkn]
    decide

/-- C11 (amended): in a catalogue of fewer than `2^32 - 1` entities `nextResID` returns an
id that no entity of the catalogue has, and leaves the catalogue as it is; a second call
returns a different id unless the counter has reached the end of the window
`((iClientID + 1) << 16) - 1` and is wrapped to the start of the window. -/
theorem nextResID_fresh (l : C4Network2ResList) (hlen : l.pFirst.length < 4294967295)
    (hn : isInt32 l.iNextResID) :
    l.getRes l.nextResID.1 = none ∧
    (∀ r ∈ l.pFirst, r.Core.iID ≠ l.nextResID.1) ∧
    l.nextResID.2.pFirst = l.pFirst ∧
    (l.nextResID.2.iNextResID < wrap32 (wrap32 ((l.iClientID + 1) * 65536) - 1) →
      l.nextResID.2.nextResID.1 ≠ l.nextResID.1) :=
  nextResID_free_and_distinct l hlen hn

/-- C11 (witness): client 1 with the ids 65536 and 65537 in use and the counter at
65536. -/
theorem nextResID_fresh_witness :
    exampleCatalogue.getRes exampleCatalogue.nextResID.1 = none ∧
    (∀ r ∈ exampleCatalogue.pFirst, r.Core.iID ≠ exampleCatalogue.nextResID.1) ∧
    exampleCatalogue.nextResID.2.pFirst = exampleCatalogue.pFirst ∧
    (exampleCatalogue.nextResID.2.iNextResID
        < wrap32 (wrap32 ((exampleCatalogue.iClientID + 1) * 65536) - 1) →
      exampleCatalogue.nextResID.2.nextResID.1 ≠ exampleCatalogue.nextResID.1) :=
  nextResID_fresh exampleCatalogue (by decide) (by decide)

theorem OnShareFreeLoop_eq (del now : Int) (L : List C4Network2Res) :
    ∀ kept : List C4Network2Res, OnShareFreeLoop del now kept L
      = kept.reverse ++ L.filter (fun r => !isExpired del now r) := by
  induction L with
  | nil => intro kept; simp [OnShareFreeLoop]
  | cons r L ih =>
    intro kept
    by_cases h : isExpired del now r = true
    · simp [OnShareFreeLoop, h, ih]
    · simp [OnShareFreeLoop, h, ih]

/-- C20: run on the lock of the list at time `now`, `OnShareFree` leaves exactly the
entities that are not both marked removed and either never requested (`iLastReqTime` 0) or
last requested more than `C4NetResDeleteTime` before `now`, in their previous order; client
id and id counter are unchanged, and on any other lock nothing changes. -/
theorem OnShareFree_reaps (l : C4Network2ResList) (C4NetResDeleteTime now : Int) :
    (l.OnShareFree true C4NetResDeleteTime now).pFirst
      = l.pFirst.filter (fun r => !(r.fRemoved &&
          (r.iLastReqTime == 0 || decide (now - r.iLastReqTime > C4NetResDeleteTime)))) ∧
    (l.OnShareFree true C4NetResDeleteTime now).iClientID = l.iClientID ∧
    (l.OnShareFree true C4NetResDeleteTime now).iNextResID = l.iNextResID ∧
    l.OnShareFree false C4NetResDeleteTime now = l := by
  refine ⟨?_, rfl, rfl, rfl⟩
  show OnShareFreeLoop C4NetResDeleteTime now [] l.pFirst = _
  rw [OnShareFreeLoop_eq]
  rfl

/-- C19 (counterexample): client 0 with the one entity of id 5 is given the client id
65536, which does not fit into the upper 16 bits of an id.  The difference shifted left by
16 wraps to 0, the id stays 5, and its upper 16 bits are still 0 and not the new client
id. -/
theorem SetLocalID_large_client_keeps_ids :
    (exampleRes 5).getResClient = 0 ∧
    (({ iClientID := 0, iNextResID := 6, pFirst := [exampleRes 5] } : C4Network2ResList).SetLocalID
      65536).iClientID = 65536 ∧
    (({ iClientID := 0, iNextResID := 6, pFirst := [exampleRes 5] } : C4Network2ResList).SetLocalID
      65536).pFirst.map (fun r => r.Core.iID) = [5] ∧
    (({ iClientID := 0, iNextResID := 6, pFirst := [exampleRes 5] } : C4Network2ResList).SetLocalID
      65536).pFirst.map (fun r => r.getResClient) = [0] := by
  decide

/-- C19 (amended): when the new client id fits into the upper 16 bits of an id
(`-32768 <= inClientID < 32768`) and the ids of the catalogue are 32-bit values,
`SetLocalID` keeps the entities and their order; an entity of the old client gets an id
with the new client id in its upper 16 bits and the same lower 16 bits and is otherwise
unchanged, every other entity is unchanged. -/
theorem SetLocalID_rewrites_ids (l : C4Network2ResList) (inClientID : Int)
    (hnew : -32768 ≤ inClientID ∧ inClientID < 32768)
    (hids : ∀ r ∈ l.pFirst, isInt32 r.Core.iID) :
    (l.SetLocalID inClientID).iClientID = inClientID ∧
    List.Forall₂ (fun r r1 : C4Network2Res =>
        (r.getResClient = l.iClientID →
          r1.getResClient = inClientID ∧ r1.Core.iID % 65536 = r.Core.iID % 65536 ∧
          r1 = r.ChangeID r1.Core.iID) ∧
        (r.getResClient ≠ l.iClientID → r1 = r))
      l.pFirst (l.SetLocalID inClientID).pFirst := by
  refine ⟨rfl, ?_⟩
  show List.Forall₂ _ l.pFirst (l.pFirst.map _)
  rw [List.forall₂_map_right_iff]
  apply List.forall₂_same.2
  intro r hr
  have h32 := hids r hr
  unfold isInt32 at h32
  by_cases hc : r.getResClient = l.iClientID
  · rw [if_pos hc]
    refine ⟨fun _ => ⟨?_, ?_, rfl⟩, fun h => absurd hc h⟩
    · unfold C4Network2Res.getResClient at hc ⊢
      show (wrap32 (r.Core.iID + wrap32 (wrap32 (inClientID - l.iClientID) * 65536))) / 65536 = _
      unfold wrap32
      omega
    · unfold C4Network2Res.getResClient at hc
      show (wrap32 (r.Core.iID + wrap32 (wrap32 (inClientID - l.iClientID) * 65536))) % 65536 = _
      unfold wrap32
      omega
  · rw [if_neg hc]
    exact ⟨fun h => absurd h hc, fun _ => rfl⟩

/-- C19 (witness): the catalogue of client 1 becomes the catalogue of client 7. -/
theorem SetLocalID_rewrites_ids_witness :
    (exampleCatalogue.SetLocalID 7).iClientID = 7 ∧
    List.Forall₂ (fun r r1 : C4Network2Res =>
        (r.getResClient = exampleCatalogue.iClientID →
          r1.getResClient = 7 ∧ r1.Core.iID % 65536 = r.Core.iID % 65536 ∧
          r1 = r.ChangeID r1.Core.iID) ∧
        (r.getResClient ≠ exampleCatalogue.iClientID → r1 = r))
      exampleCatalogue.pFirst (exampleCatalogue.SetLocalID 7).pFirst :=
  SetLocalID_rewrites_ids exampleCatalogue 7 (by decide) (by decide)

end C4Network2ResList

/-! ## Claim on packets arriving over a connection that is not open -/

namespace C4Network2ResList

/-- C18 (counterexample): over a connection that is not open, a `Derive` packet whose
parent id matches hands its core to the anonymous entity of the catalogue and sets its
chunk map complete, and a `Request` packet for chunk 0 of resource 7 updates the request
time of the entity and sends a `Data` packet over the data connection of the client. -/
theorem HandlePacket_closed_connection_still_handled :
    exampleClosedConn.isOpen = false ∧
    exampleDerived.Core.iID = exampleAnonymous ∧
    (HandlePacket exampleHandleEnv { exampleEmptyList with pFirst := [exampleDerived] }
      (.NetResDerive { exampleCore 10 4 with iID := 65541, iDerID := 7 })
      (some exampleClosedConn)).1.pFirst.map (fun r => (r.Core.iID, r.Chunks.iPresentChunkCnt))
      = [(65541, 3)] ∧
    exampleServed.iLastReqTime = 0 ∧
    (HandlePacket exampleHandleEnv { exampleEmptyList with pFirst := [exampleServed] }
      (.NetResReq 7 0) (some exampleClosedConn)).1.pFirst.map (fun r => r.iLastReqTime)
      = [100] ∧
    (HandlePacket exampleHandleEnv { exampleEmptyList with pFirst := [exampleServed] }
      (.NetResReq 7 0) (some exampleClosedConn)).2
      = [.Data 3 { iResID := 7, iChunk := 0, Data := [1, 2, 3, 4, 5, 6, 7, 8, 9, 10] }] := by
  decide

/-- C18 (amended): `HandlePacket` invoked with a connection that is not open leaves the
catalogue and all of its entities unchanged and sends nothing when the packet is a
`Discover` or a `Status` packet (or none of the five kinds); without a connection this
holds for every packet. -/
theorem HandlePacket_closed_connection (env : HandleEnv) (l : C4Network2ResList)
    (pConn : C4Network2IOConnection) (hclosed : pConn.isOpen = false) :
    (∀ iDisIDs, HandlePacket env l (.NetResDis iDisIDs) (some pConn) = (l, [])) ∧
    (∀ iResID Chunks, HandlePacket env l (.NetResStat iResID Chunks) (some pConn) = (l, [])) ∧
    HandlePacket env l .other (some pConn) = (l, []) ∧
    (∀ pPacket, HandlePacket env l pPacket none = (l, [])) := by
  refine ⟨fun _ => ?_, fun _ _ => ?_, rfl, fun _ => rfl⟩
  · simp [HandlePacket, hclosed]
  · simp [HandlePacket, hclosed]

/-- C18 (witness): a `Status` packet for resource 7 over the closed connection. -/
theorem HandlePacket_closed_connection_witness :
    (∀ iDisIDs, HandlePacket exampleHandleEnv { exampleEmptyList with pFirst := [exampleServed] }
      (.NetResDis iDisIDs) (some exampleClosedConn)
      = ({ exampleEmptyList with pFirst := [exampleServed] }, [])) ∧
    (∀ iResID Chunks, HandlePacket exampleHandleEnv
      { exampleEmptyList with pFirst := [exampleServed] }
      (.NetResStat iResID Chunks) (some exampleClosedConn)
      = ({ exampleEmptyList with pFirst := [exampleServed] }, [])) ∧
    HandlePacket exampleHandleEnv { exampleEmptyList with pFirst := [exampleServed] } .other
      (some exampleClosedConn) = ({ exampleEmptyList with pFirst := [exampleServed] }, []) ∧
    (∀ pPacket, HandlePacket exampleHandleEnv { exampleEmptyList with pFirst := [exampleServed] }
      pPacket none = ({ exampleEmptyList with pFirst := [exampleServed] }, [])) :=
  HandlePacket_closed_connection exampleHandleEnv { exampleEmptyList with pFirst := [exampleServed] }
    exampleClosedConn rfl

end C4Network2ResList

/-! ## Ids of installed entities -/

namespace C4Network2Res

theorem SetByFile_id (cenv : CoreEnv) (env : SetByFileEnv) (r : C4Network2Res) (p : String)
    (fTemp : Bool) (eType : C4Network2ResType) (iResID : Int) (n : Option String)
    (h : (SetByFile cenv env r p fTemp eType iResID n).2 = true) :
    (SetByFile cenv env r p fTemp eType iResID n).1.Core.iID = iResID := by
  revert h
  unfold SetByFile SetByGroup
  cases env.group <;> cases env.fileCRC <;> cases env.fileExists <;>
    simp [C4Network2ResCore.Set]

theorem SetByFile_failed_core (cenv : CoreEnv) (env : SetByFileEnv) (r : C4Network2Res)
    (p : String) (fTemp : Bool) (eType : C4Network2ResType) (iResID : Int) (n : Option String)
    (h : (SetByFile cenv env r p fTemp eType iResID n).2 = false) :
    (SetByFile cenv env r p fTemp eType iResID n).1.Core = r.Core := by
  revert h
  unfold SetByFile SetByGroup
  cases env.group <;> cases env.fileCRC <;> cases env.fileExists <;> simp

theorem OptimizeStandalone_core (env : OptimizeEnv) (r : C4Network2Res) :
    (OptimizeStandalone env r).1.Core = r.Core := by
  unfold OptimizeStandalone
  cases env.tempName <;> dsimp only <;> split_ifs <;> rfl

theorem packStandalone_core (env : StandaloneEnv) (r : C4Network2Res) (b : Bool) :
    (∀ e, packStandalone env r b = .error e → e.Core = r.Core) ∧
    (∀ r1, packStandalone env r b = .ok r1 → r1.Core = r.Core) := by
  unfold packStandalone
  constructor <;> intro e h <;> revert h <;>
    cases env.packName <;> dsimp only <;> split_ifs <;> intro h <;>
    simp only [Except.error.injEq, Except.ok.injEq, reduceCtorEq] at h <;> subst h <;> rfl

theorem fetchStandalone_core (env : StandaloneEnv) (r : C4Network2Res) :
    (∀ e, fetchStandalone env r = .error e → e.Core = r.Core) ∧
    (∀ r1, fetchStandalone env r = .ok r1 → r1.Core = r.Core) := by
  unfold fetchStandalone
  constructor <;> intro e h <;> revert h <;>
    cases env.copyName <;> dsimp only <;> split_ifs <;>
    (try dsimp only) <;> (try split_ifs) <;> intro h <;>
    simp only [Except.error.injEq, Except.ok.injEq, reduceCtorEq] at h <;> subst h <;>
    first | rfl | exact OptimizeStandalone_core _ _

theorem checkStandalone_id (env : StandaloneEnv) (r : C4Network2Res) (a b : Bool) :
    (checkStandalone env r a b).1.Core.iID = r.Core.iID := by
  unfold checkStandalone
  cases env.fileCRC <;> dsimp only <;> split_ifs <;> rfl

/-- `GetStandalone` never changes the id of the entity. -/
theorem GetStandalone_id (env : StandaloneEnv) (r : C4Network2Res) (a b : Bool) :
    (GetStandalone env r a b).1.Core.iID = r.Core.iID := by
  unfold GetStandalone
  split_ifs
  · rfl
  · rfl
  · rfl
  · dsimp only
    cases hp : packStandalone env { r with fStandaloneFailed := true, szStandalone := r.szFile } b with
    | error e =>
      have h0 := (packStandalone_core env _ b).1 e hp
      dsimp only
      rw [h0]
    | ok r1 =>
      have h1 := (packStandalone_core env _ b).2 r1 hp
      dsimp only
      cases hq : fetchStandalone env r1 with
      | error e =>
        have h2 := (fetchStandalone_core _ _).1 e hq
        dsimp only
        rw [h2, h1]
      | ok r2 =>
        have h2 := (fetchStandalone_core _ _).2 r2 hq
        dsimp only
        rw [checkStandalone_id, h2, h1]

mutual

/-- A successful `SetByCore` leaves the entity with the id of the core. -/
theorem SetByCore_id (cenv : CoreEnv) (MaxRec : Int) (nCore : C4Network2ResCore) :
    ∀ (plan : CorePlan) (r : C4Network2Res) (iRecursion : Int),
      (SetByCore cenv MaxRec nCore plan r iRecursion).2 = true →
      (SetByCore cenv MaxRec nCore plan r iRecursion).1.Core.iID = nCore.iID
  | .call szFilename file standalone filenameOnly dirs, r, iRecursion => by
    intro h
    unfold SetByCore at h ⊢
    dsimp only at h ⊢
    split_ifs at h ⊢
    · rw [GetStandalone_id]
    · exact SetByCoreNameOnly_id cenv MaxRec nCore filenameOnly _ h
    · exact SetByCoreDirs_id cenv MaxRec nCore dirs _ _ h

theorem SetByCoreNameOnly_id (cenv : CoreEnv) (MaxRec : Int) (nCore : C4Network2ResCore) :
    ∀ (plan : NameOnlyPlan) (r : C4Network2Res),
      (SetByCoreNameOnly cenv MaxRec nCore plan r).2 = true →
      (SetByCoreNameOnly cenv MaxRec nCore plan r).1.Core.iID = nCore.iID
  | .same, r => by
    intro h
    simp [SetByCoreNameOnly] at h
  | .differs sub, r => by
    intro h
    unfold SetByCoreNameOnly at h ⊢
    exact SetByCore_id cenv MaxRec nCore sub r MaxRec h

theorem SetByCoreDirs_id (cenv : CoreEnv) (MaxRec : Int) (nCore : C4Network2ResCore) :
    ∀ (plan : DirPlan) (r : C4Network2Res) (iRecursion : Int),
      (SetByCoreDirs cenv MaxRec nCore plan r iRecursion).2 = true →
      (SetByCoreDirs cenv MaxRec nCore plan r iRecursion).1.Core.iID = nCore.iID
  | .done, r, iRecursion => by
    intro h
    simp [SetByCoreDirs] at h
  | .entry searched sub rest, r, iRecursion => by
    intro h
    unfold SetByCoreDirs at h ⊢
    dsimp only at h ⊢
    split_ifs at h ⊢
    · exact SetByCore_id cenv MaxRec nCore sub r _ h
    · exact SetByCoreDirs_id cenv MaxRec nCore rest _ _ h
    · exact SetByCoreDirs_id cenv MaxRec nCore rest _ _ h

end

theorem SetLoad_core (cenv : CoreEnv) (nCore : C4Network2ResCore) (t : Option String) (now : Int)
    (h : nCore.fLoadable = true) : ((new cenv).SetLoad nCore t now).1.Core = nCore := by
  unfold SetLoad
  simp only [h, Bool.not_true, Bool.false_eq_true, if_false]
  cases t <;> rfl

theorem deriveMove_core (env : DeriveEnv) (r : C4Network2Res) :
    (r.deriveMove env).1.Core = r.Core := by
  unfold deriveMove
  dsimp only
  split_ifs <;> rfl

end C4Network2Res

/-! ## Unique ids in reachable catalogues -/

namespace C4Network2ResList

theorem ids_set_fresh (anon x : Int) :
    ∀ (ids : List Int) (i : Nat), ids.Pairwise (fun a b => a = b → a = anon) →
      (∀ b ∈ ids, b ≠ x) → (ids.set i x).Pairwise (fun a b => a = b → a = anon) := by
  intro ids
  induction ids with
  | nil => intro i _ _; simp
  | cons a ids ih =>
    intro i hp hx
    rw [List.pairwise_cons] at hp
    cases i with
    | zero =>
      rw [List.set_cons_zero, List.pairwise_cons]
      exact ⟨fun b hb he => absurd he.symm (hx b (List.mem_cons_of_mem _ hb)), hp.2⟩
    | succ i =>
      rw [List.set_cons_succ, List.pairwise_cons]
      refine ⟨?_, ih i hp.2 (fun b hb => hx b (List.mem_cons_of_mem _ hb))⟩
      intro b hb he
      rcases List.mem_or_eq_of_mem_set hb with h | h
      · exact hp.1 b h he
      · exact absurd (he.trans h) (hx a (List.mem_cons_self _ _))

theorem ids_set_same (f : C4Network2Res → Int) :
    ∀ (L : List C4Network2Res) (i : Nat) (r x : C4Network2Res), L[i]? = some r → f x = f r →
      (L.set i x).map f = L.map f := by
  intro L
  induction L with
  | nil => intro i r x h _; simp at h
  | cons a L ih =>
    intro i r x h hf
    cases i with
    | zero =>
      simp only [List.getElem?_cons_zero, Option.some.injEq] at h
      subst h
      simp [hf]
    | succ i =>
      simp only [List.getElem?_cons_succ] at h
      simp only [List.set_cons_succ, List.map_cons]
      rw [ih i r x h hf]

theorem mem_map_of_getElem? (f : C4Network2Res → Int) (L : List C4Network2Res) (i : Nat)
    (r : C4Network2Res) (h : L[i]? = some r) : f r ∈ L.map f :=
  List.mem_map_of_mem f (List.getElem?_mem h)

/-- The invariant behind unique ids: in the list of ids two equal entries are the
anonymous id, and the counter is a 32-bit value. -/
theorem Catalogued_ids (cenv : CoreEnv) (anon : Int) (l : C4Network2ResList)
    (h : Catalogued cenv anon l) :
    (l.pFirst.map (fun r => r.Core.iID)).Pairwise (fun a b => a = b → a = anon) ∧
    isInt32 l.iNextResID := by
  induction h with
  | empty c n hn => exact ⟨by simp, hn⟩
  | addByFile l env fLocalOnly strFilePath fTemp eType iResID szResName fAllowUnloadable _ hneg hlen ih =>
    obtain ⟨ih1, ih2⟩ := ih
    obtain ⟨_, hfresh, hsame, _⟩ := nextResID_free_and_distinct l hlen ih2
    have hcnt : isInt32 l.nextResID.2.iNextResID := by
      rw [nextResID_snd]; exact wrap32_bounds _
    have hids2 : l.nextResID.2.pFirst.map (fun r => r.Core.iID) = l.pFirst.map (fun r => r.Core.iID) := by
      rw [hsame]
    have hadd : ∀ x : C4Network2Res, x.Core.iID = l.nextResID.1 →
        ((l.nextResID.2.Add x).pFirst.map (fun r => r.Core.iID)).Pairwise (fun a b => a = b → a = anon) ∧
        isInt32 (l.nextResID.2.Add x).iNextResID := by
      intro x hx
      refine ⟨?_, hcnt⟩
      show ((x :: l.nextResID.2.pFirst).map (fun r => r.Core.iID)).Pairwise _
      rw [List.map_cons, hids2, List.pairwise_cons]
      refine ⟨?_, ih1⟩
      intro b hb he
      obtain ⟨r, hr, hrb⟩ := List.mem_map.1 hb
      exact absurd (hrb.trans (he.symm.trans hx)) (hfresh r hr)
    unfold AddByFile
    cases l.getResByFile anon strFilePath fLocalOnly with
    | some pRes => exact ⟨ih1, ih2⟩
    | none =>
      dsimp only
      rw [if_pos hneg]
      split_ifs with h1 h2 h3 h4
      · exact ⟨hids2 ▸ ih1, hcnt⟩
      · exact ⟨hids2 ▸ ih1, hcnt⟩
      · exact ⟨hids2 ▸ ih1, hcnt⟩
      · apply hadd
        rw [C4Network2Res.GetStandalone_id]
        exact C4Network2Res.SetByFile_id _ _ _ _ _ _ _ _ (by simpa using h2)
      · apply hadd
        exact C4Network2Res.SetByFile_id _ _ _ _ _ _ _ _ (by simpa using h2)
  | addByCore l env Core fLoad _ ih =>
    obtain ⟨ih1, ih2⟩ := ih
    unfold AddByCore
    cases hg : l.getRes Core.iID with
    | some pRes => exact ⟨ih1, ih2⟩
    | none =>
      have hfresh := (getRes_eq_none_iff l _).1 hg
      have hadd : ∀ x : C4Network2Res, x.Core.iID = Core.iID →
          ((l.Add x).pFirst.map (fun r => r.Core.iID)).Pairwise (fun a b => a = b → a = anon) ∧
          isInt32 (l.Add x).iNextResID := by
        intro x hx
        refine ⟨?_, ih2⟩
        show ((x :: l.pFirst).map (fun r => r.Core.iID)).Pairwise _
        rw [List.map_cons, List.pairwise_cons]
        refine ⟨?_, ih1⟩
        intro b hb he
        obtain ⟨r, hr, hrb⟩ := List.mem_map.1 hb
        exact absurd (hrb.trans (he.symm.trans hx)) (hfresh r hr)
      dsimp only
      split_ifs with h1 h2
      · unfold AddLoad
        split_ifs with h3
        · exact ⟨ih1, ih2⟩
        · apply hadd
          rw [C4Network2Res.SetLoad_core cenv Core _ _ (by simpa using h3)]
      · exact ⟨ih1, ih2⟩
      · apply hadd
        exact C4Network2Res.SetByCore_id _ _ _ _ _ _ (by simpa using h1)
  | derive l env i _ ih =>
    obtain ⟨ih1, ih2⟩ := ih
    unfold Derive
    cases hg : l.pFirst[i]? with
    | none => exact ⟨ih1, ih2⟩
    | some r =>
      dsimp only
      have hmoved : ∀ x : C4Network2Res, x.Core = r.Core →
          (l.pFirst.set i x).map (fun r => r.Core.iID) = l.pFirst.map (fun r => r.Core.iID) :=
        fun x hx => ids_set_same _ l.pFirst i r x hg (by rw [hx])
      have hcore := C4Network2Res.deriveMove_core env r
      split_ifs with h1 h2
      · exact ⟨ih1, ih2⟩
      · refine ⟨?_, ih2⟩
        show ((l.pFirst.set i _).map (fun r => r.Core.iID)).Pairwise _
        rw [hmoved _ hcore]
        exact ih1
      · refine ⟨?_, ih2⟩
        show ((_ :: l.pFirst.set i _).map (fun r => r.Core.iID)).Pairwise _
        rw [List.map_cons, hmoved _ hcore, List.pairwise_cons]
        refine ⟨?_, ih1⟩
        intro b _ he
        rfl
  | finishDerive l env i _ hlen ih =>
    obtain ⟨ih1, ih2⟩ := ih
    obtain ⟨_, hfresh, hsame, _⟩ := nextResID_free_and_distinct l hlen ih2
    have hcnt : isInt32 l.nextResID.2.iNextResID := by
      rw [nextResID_snd]; exact wrap32_bounds _
    unfold FinishDerive
    cases hg : l.pFirst[i]? with
    | none => exact ⟨ih1, ih2⟩
    | some r =>
      dsimp only
      have hnew : ∀ x : C4Network2Res, x.Core.iID = l.nextResID.1 →
          ((l.nextResID.2.pFirst.set i x).map (fun r => r.Core.iID)).Pairwise
            (fun a b => a = b → a = anon) := by
        intro x hx
        rw [hsame, List.map_set, hx]
        apply ids_set_fresh anon _ _ i ih1
        intro b hb
        obtain ⟨r0, hr0, hrb⟩ := List.mem_map.1 hb
        rw [← hrb]
        exact hfresh r0 hr0
      split_ifs with h1 h2 h3
      · exact ⟨ih1, ih2⟩
      · refine ⟨?_, hcnt⟩
        show ((l.nextResID.2.pFirst.set i _).map (fun r => r.Core.iID)).Pairwise _
        rw [hsame, ids_set_same _ l.pFirst i r _ hg
          (by rw [C4Network2Res.SetByFile_failed_core _ _ _ _ _ _ _ _ (by simpa using h2)])]
        exact ih1
      · refine ⟨?_, hcnt⟩
        apply hnew
        rw [C4Network2Res.GetStandalone_id]
        exact C4Network2Res.SetByFile_id _ _ _ _ _ _ _ _ (by simpa using h2)
      · refine ⟨?_, hcnt⟩
        apply hnew
        show (C4Network2Res.GetStandalone env.standalone _ true false).1.Core.iID = _
        rw [C4Network2Res.GetStandalone_id]
        exact C4Network2Res.SetByFile_id _ _ _ _ _ _ _ _ (by simpa using h2)

/-- Unique ids read off the list of ids. -/
theorem UniqueIDs_ids (anon : Int) (l : C4Network2ResList) (h : UniqueIDs anon l)
    (i j : Nat) (a b : Int) (hi : (l.pFirst.map (fun r => r.Core.iID))[i]? = some a)
    (hj : (l.pFirst.map (fun r => r.Core.iID))[j]? = some b) (hij : i ≠ j) (hab : a = b) :
    a = anon := by
  rw [List.getElem?_map] at hi hj
  cases h1 : l.pFirst[i]? with
  | none => rw [h1] at hi; simp at hi
  | some r1 =>
    cases h2 : l.pFirst[j]? with
    | none => rw [h2] at hj; simp at hj
    | some r2 =>
      rw [h1] at hi
      rw [h2] at hj
      simp only [Option.map_some', Option.some.injEq] at hi hj
      rw [← hi]
      exact h i j r1 r2 h1 h2 hij (by rw [hi, hj, hab])

theorem UniqueIDs_of_pairwise (anon : Int) (l : C4Network2ResList)
    (h : (l.pFirst.map (fun r => r.Core.iID)).Pairwise (fun a b => a = b → a = anon)) :
    UniqueIDs anon l := by
  intro i j r1 r2 h1 h2 hij he
  have hp := List.pairwise_iff_getElem.1 h
  have g1 : (l.pFirst.map (fun r => r.Core.iID))[i]? = some r1.Core.iID := by
    rw [List.getElem?_map, h1]; rfl
  have g2 : (l.pFirst.map (fun r => r.Core.iID))[j]? = some r2.Core.iID := by
    rw [List.getElem?_map, h2]; rfl
  obtain ⟨b1, e1⟩ := List.getElem?_eq_some_iff.1 g1
  obtain ⟨b2, e2⟩ := List.getElem?_eq_some_iff.1 g2
  rcases Nat.lt_or_gt_of_ne hij with hlt | hgt
  · have := hp i j b1 b2 hlt
    rw [e1, e2] at this
    exact this he
  · have := hp j i b2 b1 hgt
    rw [e1, e2] at this
    rw [he]
    exact this he.symm

end C4Network2ResList

/-! ## Claim on unique resource ids -/

namespace C4Network2ResList

/-- C12 (counterexample): starting from the empty catalogue, `AddByFile` with the explicit
id 5 for the file `a.c4s` and again with the explicit id 5 for the file `b.c4s` leaves two
entities with the id 5, which is not the anonymous id: `AddByFile` looks for an entity
with the same file, never for one with the same id. -/
theorem AddByFile_explicit_id_duplicates :
    exampleEmptyList.pFirst = [] ∧
    ((AddByFile exampleEnv exampleAnonymous (exampleAddByFileEnv "b.c4s") false
      (AddByFile exampleEnv exampleAnonymous (exampleAddByFileEnv "a.c4s") false
        exampleEmptyList "a.c4s" false .NRT_Scenario 5 none false).1
      "b.c4s" false .NRT_Scenario 5 none false).1.pFirst.map (fun r => (r.Core.iID, r.szFile)))
      = [(5, "b.c4s"), (5, "a.c4s")] ∧
    (5 : Int) ≠ exampleAnonymous ∧
    ¬ UniqueIDs exampleAnonymous
      (AddByFile exampleEnv exampleAnonymous (exampleAddByFileEnv "b.c4s") false
        (AddByFile exampleEnv exampleAnonymous (exampleAddByFileEnv "a.c4s") false
          exampleEmptyList "a.c4s" false .NRT_Scenario 5 none false).1
        "b.c4s" false .NRT_Scenario 5 none false).1 := by
  refine ⟨rfl, by decide, by decide, ?_⟩
  intro h
  have := UniqueIDs_ids _ _ h 0 1 5 5 (by decide) (by decide) (by decide) rfl
  exact absurd this (by decide)

/-- C12 (amended): in every catalogue reachable from an empty list through `AddByFile`
without an explicit id, `AddByCore`, `Derive` and the local `FinishDerive`, with fewer than
`2^32 - 1` entities whenever an id is allocated, two entities at different places of the
list with the same id are anonymous. -/
theorem Catalogued_unique_ids (cenv : CoreEnv) (anon : Int) (l : C4Network2ResList)
    (h : Catalogued cenv anon l) : UniqueIDs anon l :=
  UniqueIDs_of_pairwise anon l (Catalogued_ids cenv anon l h).1

/-- C12 (witness): client 1 adds the files `a.c4s` and `b.c4s` and derives from the
second. -/
theorem Catalogued_unique_ids_witness :
    UniqueIDs exampleAnonymous
      (Derive exampleEnv exampleAnonymous exampleDeriveEnv
        (AddByFile exampleEnv exampleAnonymous (exampleAddByFileEnv "b.c4s") false
          (AddByFile exampleEnv exampleAnonymous (exampleAddByFileEnv "a.c4s") false
            exampleEmptyList1 "a.c4s" false .NRT_Scenario (-1) none false).1
          "b.c4s" false .NRT_Scenario (-1) none false).1 0).1 :=
  Catalogued_unique_ids exampleEnv exampleAnonymous _
    (Catalogued.derive _ exampleDeriveEnv 0
      (Catalogued.addByFile _ (exampleAddByFileEnv "b.c4s") false "b.c4s" false .NRT_Scenario
        (-1) none false
        (Catalogued.addByFile exampleEmptyList1 (exampleAddByFileEnv "a.c4s") false "a.c4s" false
          .NRT_Scenario (-1) none false (Catalogued.empty 1 65536 (by decide)) (by decide)
          (by decide))
        (by decide) (by decide)))

end C4Network2ResList

/-! ## The periodic tick, the decoder of the core and the load counter -/

namespace C4Network2Res

/-- C21 (counterexample): the loading example entity holds one slot requested at time 100
and its discover timer runs since time 110.  At time 200 no client has a connection.  The
slot is older than the load timeout of 60, so no slot remains once it is expired, and the
discover timer is older than the discover timeout of 10; still `DoLoad` returns success,
leaving no slot.  Only the next call, which starts without a slot, returns failure. -/
theorem DoLoad_last_slot_expired_succeeds :
    exampleWaiting.fLoading = true ∧
    exampleWaiting.pLoads = [{ iChunk := 0, iByClient := 9, Timestamp := 100 }] ∧
    exampleWaiting.iDiscoverStartTime = 110 ∧
    200 - (100 : Int) > exampleLimits.C4NetResLoadTimeout ∧
    exampleWaiting.pLoads.filter (fun l => !CheckTimeout exampleLimits 200 l) = [] ∧
    200 - exampleWaiting.iDiscoverStartTime > exampleLimits.C4NetResDiscoverTimeout ∧
    (DoLoad exampleLimits (fun _ => exampleNoConnEnv) 200 exampleWaiting).2 = true ∧
    (DoLoad exampleLimits (fun _ => exampleNoConnEnv) 200 exampleWaiting).1.pLoads = [] ∧
    (DoLoad exampleLimits (fun _ => exampleNoConnEnv) 200
      (DoLoad exampleLimits (fun _ => exampleNoConnEnv) 200 exampleWaiting).1).2 = false := by
  decide

/-- C21 (amended): `DoLoad` at time `now` returns failure exactly when the entity is loading,
its load counter is zero when the call begins, the discover timer is running and was
started more than `C4NetResDiscoverTimeout` before `now`; a failing call leaves the entity
as it is. In a failing call whose load counter is the length of the slot list there is no
slot. A call that begins with a non-zero load counter returns success whatever the slots
and the timer are, and a call on an entity that is not loading returns success and changes
nothing. -/
theorem DoLoad_fails_iff (lim : LoadLimits) (env : Nat → LoadEnv) (now : Int)
    (r : C4Network2Res) :
    ((DoLoad lim env now r).2 = false ↔
      (r.fLoading = true ∧ r.iLoadCnt = 0 ∧ r.iDiscoverStartTime ≠ 0 ∧
        now - r.iDiscoverStartTime > lim.C4NetResDiscoverTimeout)) ∧
    ((DoLoad lim env now r).2 = false → (DoLoad lim env now r).1 = r) ∧
    ((DoLoad lim env now r).2 = false → r.iLoadCnt = (r.pLoads.length : Int) →
      r.pLoads = []) ∧
    (r.iLoadCnt ≠ 0 → (DoLoad lim env now r).2 = true) ∧
    (r.fLoading = false → DoLoad lim env now r = (r, true)) := by
  have hnil : r.iLoadCnt = 0 → r.iLoadCnt = (r.pLoads.length : Int) → r.pLoads = [] := by
    intro h0 h1
    rw [h0] at h1
    exact List.length_eq_zero.1 (by omega)
  cases hl : r.fLoading
  · have hv : DoLoad lim env now r = (r, true) := by
      unfold DoLoad
      rw [if_pos (by simp [hl])]
    rw [hv]
    exact ⟨⟨fun h => Bool.noConfusion h, fun h => Bool.noConfusion h.1⟩, fun h => Bool.noConfusion h,
      fun h => Bool.noConfusion h, fun _ => rfl, fun _ => rfl⟩
  · by_cases hc : r.iLoadCnt = 0
    · by_cases ht : r.iDiscoverStartTime ≠ 0 ∧
          now - r.iDiscoverStartTime > lim.C4NetResDiscoverTimeout
      · have hv : DoLoad lim env now r = (r, false) := by
          unfold DoLoad
          rw [if_neg (by simp [hl]), if_neg (by simp [hc]), if_pos ht]
        rw [hv]
        exact ⟨⟨fun _ => ⟨rfl, hc, ht.1, ht.2⟩, fun _ => rfl⟩, fun _ => rfl,
          fun _ h => hnil hc h, fun h => absurd hc h, fun h => Bool.noConfusion h⟩
      · have hv : DoLoad lim env now r = (r, true) := by
          unfold DoLoad
          rw [if_neg (by simp [hl]), if_neg (by simp [hc]), if_neg ht]
        rw [hv]
        exact ⟨⟨fun h => Bool.noConfusion h, fun h => absurd ⟨h.2.2.1, h.2.2.2⟩ ht⟩,
          fun h => Bool.noConfusion h, fun h => Bool.noConfusion h, fun _ => rfl, fun h => Bool.noConfusion h⟩
    · have hv : (DoLoad lim env now r).2 = true := by
        unfold DoLoad
        rw [if_neg (by simp [hl]), if_pos hc]
        dsimp only
        split_ifs <;> rfl
      rw [hv]
      exact ⟨⟨fun h => Bool.noConfusion h, fun h => absurd h.2.1 hc⟩, fun h => Bool.noConfusion h,
        fun h => Bool.noConfusion h, fun _ => rfl, fun h => Bool.noConfusion h⟩

end C4Network2Res

namespace C4Network2ResCore

/-- C23: reading a core from a wire form whose `Loadable` value is set and whose
`ChunkSize` value is 0 fails with a corruption error, which is `zero chunk size` when the
type code is known.  Reading from a wire form whose `Loadable` value is unset goes on
with `ContentsCRC` right behind `Loadable`, so no value is read as file size, file CRC or
chunk size, and a core that is read has these three fields as the target had them before.
Every core that is not loadable is written without error, and its wire form is read into
any target. -/
theorem CompileFunc_loadable_gate (env : CoreEnv) (c : C4Network2ResCore)
    (ty id der size crc : Int) (rest : List WireValue) :
    (∃ msg, CompileFuncRead env c
        (.int ty :: .int id :: .int der :: .bool true :: .int size :: .int crc :: .int 0 :: rest)
      = .error (.corrupt msg)) ∧
    (∀ t, C4Network2ResType.ofCode ty = some t →
      CompileFuncRead env c
        (.int ty :: .int id :: .int der :: .bool true :: .int size :: .int crc :: .int 0 :: rest)
      = .error (.corrupt "zero chunk size")) ∧
    (∀ t, C4Network2ResType.ofCode ty = some t →
      CompileFuncRead env c (.int ty :: .int id :: .int der :: .bool false :: rest)
      = CompileFuncReadTail env
          { c with eType := t, iID := id, iDerID := der, fLoadable := false } rest) ∧
    (∀ c1, CompileFuncRead env c (.int ty :: .int id :: .int der :: .bool false :: rest)
        = .ok c1 →
      c1.fLoadable = false ∧ c1.iFileSize = c.iFileSize ∧ c1.iFileCRC = c.iFileCRC ∧
      c1.iChunkSize = c.iChunkSize) ∧
    (∀ s : C4Network2ResCore, s.fLoadable = false →
      ∃ w c1, CompileFuncWrite env s = .ok w ∧ CompileFuncRead env c w = .ok c1 ∧
        c1.fLoadable = false ∧ c1.iID = s.iID ∧ c1.iFileSize = c.iFileSize ∧
        c1.iFileCRC = c.iFileCRC ∧ c1.iChunkSize = c.iChunkSize) := by
  have htail : ∀ (c0 c1 : C4Network2ResCore) (w : List WireValue),
      CompileFuncReadTail env c0 w = .ok c1 →
      c1.fLoadable = c0.fLoadable ∧ c1.iFileSize = c0.iFileSize ∧
      c1.iFileCRC = c0.iFileCRC ∧ c1.iChunkSize = c0.iChunkSize ∧ c1.iID = c0.iID := by
    intro c0 c1 w h
    unfold CompileFuncReadTail at h
    split at h
    · injection h with h; subst h; exact ⟨rfl, rfl, rfl, rfl, rfl⟩
    · injection h with h; subst h; exact ⟨rfl, rfl, rfl, rfl, rfl⟩
    · cases h
  refine ⟨?_, ?_, ?_, ?_, ?_⟩
  · cases ht : C4Network2ResType.ofCode ty with
    | none => exact ⟨"type", by simp [CompileFuncRead, ht]⟩
    | some t => exact ⟨"zero chunk size", by simp [CompileFuncRead, ht]⟩
  · intro t ht
    simp [CompileFuncRead, ht]
  · intro t ht
    simp [CompileFuncRead, ht]
  · intro c1 h
    cases ht : C4Network2ResType.ofCode ty with
    | none => simp [CompileFuncRead, ht] at h
    | some t =>
      simp only [CompileFuncRead, ht] at h
      obtain ⟨h1, h2, h3, h4, _⟩ := htail _ _ _ h
      exact ⟨h1, h2, h3, h4⟩
  · intro s hs
    obtain ⟨eType, iID, iDerID, fLoadable, iFileSize, iFileCRC, iContentsCRC, iChunkSize,
      fHasFileSHA, FileSHA, FileName, Author⟩ := s
    simp only at hs
    subst hs
    cases eType <;> cases fHasFileSHA <;> exact ⟨_, _, rfl, rfl, rfl, rfl, rfl, rfl, rfl⟩

end C4Network2ResCore

namespace C4Network2Res

/-- A property of the entity that every call of `StartLoad` keeps is kept by the search
loop of `StartNewLoads`. -/
theorem searchSomeone_preserves (lim : LoadLimits) (env : Nat → LoadEnv) (ioLoadCnt : Int)
    (P : C4Network2Res → Prop)
    (hP : ∀ (e : LoadEnv) (r : C4Network2Res) (c : Int) (A : C4Network2ResChunkData),
      P r → P (StartLoad lim e r c A).1) :
    ∀ (pC : List (Option ClientChunks)) (r : C4Network2Res) (tick : Nat),
      P r → P (searchSomeone lim env ioLoadCnt pC r tick).1 := by
  intro pC
  induction pC with
  | nil => intro r tick h; exact h
  | cons x rest ih =>
    intro r tick h
    cases x with
    | none => exact ih r tick h
    | some c =>
      have hs := hP (env tick) r c.ClientID c.Chunks h
      unfold searchSomeone
      dsimp only
      split_ifs with h1 h2
      · exact ih _ _ hs
      · exact hs
      · exact ih _ _ hs

/-- A property kept by `StartLoad` is kept by the `while` loop of `StartNewLoads`. -/
theorem startLoadsWhile_preserves (lim : LoadLimits) (env : Nat → LoadEnv)
    (P : C4Network2Res → Prop)
    (hP : ∀ (e : LoadEnv) (r : C4Network2Res) (c : Int) (A : C4Network2ResChunkData),
      P r → P (StartLoad lim e r c A).1) :
    ∀ (fuel : Nat) (pC : List (Option ClientChunks)) (r : C4Network2Res) (tick : Nat),
      P r → P (startLoadsWhile lim env fuel pC r tick) := by
  intro fuel
  induction fuel with
  | zero => intro pC r tick h; exact h
  | succ fuel ih =>
    intro pC r tick h
    have hs := searchSomeone_preserves lim env r.iLoadCnt P hP pC r tick h
    unfold startLoadsWhile
    dsimp only
    split_ifs with h1 h2
    · exact ih _ _ _ hs
    · exact hs
    · exact h

/-- A property kept by `StartLoad` is kept by `StartNewLoads`. -/
theorem StartNewLoads_preserves (lim : LoadLimits) (env : Nat → LoadEnv)
    (P : C4Network2Res → Prop)
    (hP : ∀ (e : LoadEnv) (r : C4Network2Res) (c : Int) (A : C4Network2ResChunkData),
      P r → P (StartLoad lim e r c A).1)
    (r : C4Network2Res) (h : P r) : P (StartNewLoads lim env r) := by
  unfold StartNewLoads
  split
  · exact h
  · exact startLoadsWhile_preserves lim env P hP _ _ _ _ h

theorem StartLoad_count (lim : LoadLimits) (hmax : lim.C4NetResMaxLoad < 2147483648)
    (env : LoadEnv) (r : C4Network2Res) (iFromClient : Int)
    (Available : C4Network2ResChunkData) (hinv : CountInv lim r) :
    CountInv lim (StartLoad lim env r iFromClient Available).1 := by
  rcases StartLoad_cases lim env r iFromClient Available with h | ⟨h1, _, ch, h⟩
  · rw [h]; exact hinv
  · rw [h]
    obtain ⟨i1, i2⟩ := hinv
    have hw : wrap32 (r.iLoadCnt + 1) = r.iLoadCnt + 1 :=
      wrap32_of_isInt32 _ (by omega) (by omega)
    rw [hw] at h1
    refine ⟨?_, ?_⟩
    · show wrap32 (r.iLoadCnt + 1) = _
      rw [hw, i1]; simp
    · show ((List.length (_ :: r.pLoads) : Nat) : Int) + 1 ≤ _
      simp only [List.length_cons]; push_cast; omega

theorem removeLoadsWhere_count (lim : LoadLimits) (p : C4Network2ResLoad → Bool)
    (r : C4Network2Res) (hmax : lim.C4NetResMaxLoad < 2147483648) (hinv : CountInv lim r) :
    CountInv lim (removeLoadsWhere p r) := by
  obtain ⟨i1, i2⟩ := hinv
  have hlen : (r.pLoads.filter p).length + (r.pLoads.filter (fun l => !p l)).length
      = r.pLoads.length := by
    induction r.pLoads with
    | nil => rfl
    | cons a l ih =>
      by_cases ha : p a = true
      · simp only [List.filter_cons, ha, if_true, Bool.not_true, List.length_cons]
        simp only [Bool.false_eq_true, if_false]
        omega
      · simp only [Bool.not_eq_true] at ha
        simp only [List.filter_cons, ha, Bool.false_eq_true, if_false, Bool.not_false, if_true,
          List.length_cons]
        omega
  refine ⟨?_, ?_⟩
  · show wrap32 (r.iLoadCnt - (r.pLoads.filter p).length) = ((r.pLoads.filter _).length : Int)
    rw [i1, wrap32_of_isInt32 _ (by omega) (by omega)]
    omega
  · show (((r.pLoads.filter _).length : Nat) : Int) + 1 ≤ _
    omega

theorem Clear_count (lim : LoadLimits) (r : C4Network2Res) (hmax1 : 1 ≤ lim.C4NetResMaxLoad) :
    CountInv lim r.Clear ∧ CountInv lim r.EndLoad := by
  refine ⟨⟨rfl, ?_⟩, ⟨rfl, ?_⟩⟩
  · show ((0 : Nat) : Int) + 1 ≤ _
    omega
  · show ((0 : Nat) : Int) + 1 ≤ _
    omega

/-- Every reachable state satisfies the counting invariant of the load slots. -/
theorem Reachable_count (lim : LoadLimits) (cenv : CoreEnv) (hmax1 : 1 ≤ lim.C4NetResMaxLoad)
    (hmax : lim.C4NetResMaxLoad < 2147483648)
    (r : C4Network2Res) (hr : Reachable lim cenv r) : CountInv lim r := by
  have hS := StartLoad_count lim hmax
  have hN : ∀ (env : Nat → LoadEnv) (r : C4Network2Res),
      CountInv lim r → CountInv lim (StartNewLoads lim env r) := fun env r h =>
    StartNewLoads_preserves lim env (CountInv lim) (fun e r c A h => hS e r c A h) r h
  induction hr with
  | init =>
    refine ⟨rfl, ?_⟩
    show ((0 : Nat) : Int) + 1 ≤ _
    omega
  | setLoad r nCore tempName now _ _ =>
    have hc := (Clear_count lim r hmax1).1
    unfold SetLoad
    dsimp only
    split_ifs
    · exact hc
    · cases tempName with
      | none => exact hc
      | some name => exact hc
  | onStatus r env rChunkData byClient _ ih =>
    unfold OnStatus
    dsimp only
    split_ifs with h1 h2
    · exact ih
    · exact hS env _ _ _ ih
    · exact ih
  | onChunk r env rChunk io _ ih =>
    have hadd : CountInv lim (rChunk.AddTo r io).1 := by
      unfold C4Network2ResChunk.AddTo
      dsimp only
      split_ifs <;> exact ih
    unfold OnChunk
    dsimp only
    split_ifs with h1 h2 h3 h4 h5
    · exact ih
    · exact ih
    · exact (Clear_count lim _ hmax1).2
    · exact hN env _ (removeLoadsWhere_count lim _ _ hmax hadd)
    · exact (Clear_count lim _ hmax1).2
    · exact hN env _ hadd
  | doLoad r env now _ ih =>
    unfold DoLoad
    dsimp only
    split_ifs
    · exact ih
    · exact hN env _ (removeLoadsWhere_count lim _ _ hmax ih)
    · exact removeLoadsWhere_count lim _ _ hmax ih
    · exact ih
    · exact ih
  | startNewLoads r env _ ih => exact hN env r ih
  | startLoad r env iFromClient Available _ ih => exact hS env r iFromClient Available ih

/-- C27: in every state reachable through `SetLoad`, `OnStatus`, `OnChunk`, `DoLoad`,
`StartNewLoads` and `StartLoad`, with a 32-bit limit `C4NetResMaxLoad` of at least 1, the
load counter is the length of the load-slot list and at most `C4NetResMaxLoad - 1`;
`StartLoad` on a state with `C4NetResMaxLoad - 1` slots returns without a new slot; the
chunk numbers that `StartLoad` copies into its buffer of `C4NetResMaxLoad` entries are
fewer than `C4NetResMaxLoad`, and so are the slots after any call of `StartLoad`. -/
theorem load_counter_counts_slots (lim : LoadLimits) (cenv : CoreEnv)
    (hmax1 : 1 ≤ lim.C4NetResMaxLoad) (hmax : lim.C4NetResMaxLoad < 2147483648)
    (r : C4Network2Res) (hr : Reachable lim cenv r) :
    r.iLoadCnt = r.pLoads.length ∧
    r.iLoadCnt ≤ lim.C4NetResMaxLoad - 1 ∧
    (∀ (env : LoadEnv) (iFromClient : Int) (Available : C4Network2ResChunkData),
      (r.pLoads.length : Int) = lim.C4NetResMaxLoad - 1 →
      StartLoad lim env r iFromClient Available = (r, true)) ∧
    ((r.pLoads.map (fun l => l.iChunk)).length : Int) < lim.C4NetResMaxLoad ∧
    (∀ (env : LoadEnv) (iFromClient : Int) (Available : C4Network2ResChunkData),
      (StartLoad lim env r iFromClient Available).1.iLoadCnt
        = (StartLoad lim env r iFromClient Available).1.pLoads.length ∧
      ((StartLoad lim env r iFromClient Available).1.pLoads.length : Int)
        < lim.C4NetResMaxLoad) := by
  obtain ⟨i1, i2⟩ := Reachable_count lim cenv hmax1 hmax r hr
  refine ⟨i1, by omega, ?_, by rw [List.length_map]; omega, ?_⟩
  · intro env iFromClient Available hfull
    have hw : wrap32 (r.iLoadCnt + 1) = r.iLoadCnt + 1 :=
      wrap32_of_isInt32 _ (by omega) (by omega)
    unfold StartLoad
    rw [if_pos (by rw [hw]; omega)]
  · intro env iFromClient Available
    obtain ⟨j1, j2⟩ := StartLoad_count lim hmax env r iFromClient Available
      (Reachable_count lim cenv hmax1 hmax r hr)
    exact ⟨j1, by omega⟩

/-- C27 (witness): the loading example entity after a status of a complete peer 9 holds
one slot, with a limit of three slots per entity. -/
theorem load_counter_counts_slots_witness :
    (OnStatus exampleLimits exampleLoadEnv (exampleLoading 10 4)
        (C4Network2ResChunkData.new.SetComplete 3) 9).iLoadCnt = 1 ∧
    (OnStatus exampleLimits exampleLoadEnv (exampleLoading 10 4)
        (C4Network2ResChunkData.new.SetComplete 3) 9).pLoads.length = 1 ∧
    (OnStatus exampleLimits exampleLoadEnv (exampleLoading 10 4)
        (C4Network2ResChunkData.new.SetComplete 3) 9).iLoadCnt
      ≤ exampleLimits.C4NetResMaxLoad - 1 := by
  have h := load_counter_counts_slots exampleLimits exampleEnv (by decide) (by decide)
    _ (Reachable.onStatus _ exampleLoadEnv
      (C4Network2ResChunkData.new.SetComplete 3) 9
      (Reachable.setLoad _ (exampleCore 10 4) (some "f") 0 Reachable.init))
  exact ⟨by decide, by decide, h.2.1⟩

end C4Network2Res

/-! ## The range counter and copies of decoded chunk maps -/

namespace C4Network2ResChunkData

theorem MergeRanges_cnt_isInt32 (s s1 : MergeCursor) (h : MergeRanges s = some s1) :
    isInt32 s1.iChunkRangeCnt := by
  unfold MergeRanges at h
  split at h
  · cases h
  · split_ifs at h
    injection h with h
    subst h
    exact wrap32_bounds _

theorem MergeRangesWhile_cnt_isInt32 :
    ∀ (fuel : Nat) (s : MergeCursor), isInt32 s.iChunkRangeCnt →
      isInt32 (MergeRangesWhile fuel s).iChunkRangeCnt := by
  intro fuel
  induction fuel with
  | zero => intro s h; exact h
  | succ fuel ih =>
    intro s h
    unfold MergeRangesWhile
    cases hm : MergeRanges s with
    | none => exact h
    | some s1 => exact ih s1 (MergeRanges_cnt_isInt32 s s1 hm)

/-- The range counter written by `AddChunkRange` is a 32-bit value. -/
theorem AddChunkRange_cnt_isInt32 (d : C4Network2ResChunkData) (s l : Int)
    (h : isInt32 d.iChunkRangeCnt) : isInt32 (d.AddChunkRange s l).iChunkRangeCnt := by
  unfold AddChunkRange
  split_ifs
  · exact h
  · dsimp only
    split
    · exact MergeRangesWhile_cnt_isInt32 _ _ (wrap32_bounds _)
    · split
      · rename_i s1 hm
        exact MergeRangesWhile_cnt_isInt32 _ _ (MergeRanges_cnt_isInt32 _ s1 hm)
      · exact MergeRangesWhile_cnt_isInt32 _ _ (wrap32_bounds _)

/-- A gapped list of non-empty ranges inside `[0, n)` has at most `n` ranges. -/
theorem Gapped_length_le (n : Int) :
    ∀ (l : List ChunkRange) (a : ChunkRange), Gapped (a :: l) →
      (∀ r ∈ a :: l, rangeOk n r) → PositiveLengths (a :: l) →
      ((a :: l).length : Int) ≤ n - a.Start := by
  intro l
  induction l with
  | nil =>
    intro a _ hok hp
    have h1 := hok a (List.mem_cons_self _ _)
    have h2 := hp a (List.mem_cons_self _ _)
    unfold rangeOk at h1
    simp only [List.length_singleton, Nat.cast_one]
    omega
  | cons b rest ih =>
    intro a hg hok hp
    have h1 := hok a (List.mem_cons_self _ _)
    have h2 := hp a (List.mem_cons_self _ _)
    unfold rangeOk at h1
    have h3 := ih b hg.2 (fun r hr => hok r (List.mem_cons_of_mem _ hr))
      (fun r hr => hp r (List.mem_cons_of_mem _ hr))
    have h4 : a.Start + a.Length < b.Start := hg.1
    simp only [List.length_cons] at h3 ⊢
    push_cast at h3 ⊢
    omega

theorem WellFormed_length_le (d : C4Network2ResChunkData) (h : WellFormed d)
    (hp : PositiveLengths d.pChunkRanges) : (d.pChunkRanges.length : Int) ≤ d.iChunkCnt := by
  obtain ⟨hn0, _, hok, hg, _⟩ := h
  cases hl : d.pChunkRanges with
  | nil => simpa using hn0
  | cons a l =>
    rw [hl] at hok hg hp
    have := Gapped_length_le d.iChunkCnt l a hg hok hp
    have := (hok a (List.mem_cons_self _ _)).1
    omega

/-- `AddChunkRange` with arguments whose sum does not overflow keeps the range counter
equal to the number of ranges. -/
theorem AddChunkRange_counter (d : C4Network2ResChunkData) (s l : Int) (hwf : WellFormed d)
    (hp : PositiveLengths d.pChunkRanges) (hsum : isInt32 (s + l))
    (hc : d.iChunkRangeCnt = d.pChunkRanges.length) :
    (d.AddChunkRange s l).iChunkRangeCnt = (d.AddChunkRange s l).pChunkRanges.length := by
  by_cases hacc : 0 ≤ s ∧ 0 < l ∧ s + l ≤ d.iChunkCnt
  · obtain ⟨a1, a2, _, a4⟩ := AddChunkRange_spec d s l hwf hacc.1 hacc.2.1 hacc.2.2
    have hb := WellFormed_length_le _ a1 (AddChunkRange_pos d s l hwf hp hsum)
    have hb0 := WellFormed_length_le d hwf hp
    have hn := hwf.2.1
    have hi := AddChunkRange_cnt_isInt32 d s l (by rw [hc]; unfold isInt32; omega)
    rw [hc, sub_self] at a4
    rw [a2] at hb
    unfold isInt32 at hi
    unfold wrap32 at a4
    omega
  · rw [AddChunkRange_rejected d s l
      (by rw [wrap32_of_isInt32 _ hsum.1 hsum.2]; omega)]
    exact hc

/-- Adding a list of ranges none of whose sums `Start + Length` overflows: the map stays
well-formed with non-empty ranges and a range counter equal to the number of ranges, and
exactly the chunks of the ranges that pass the bounds check become present. -/
theorem foldl_AddChunkRange_filter (L : List ChunkRange) :
    ∀ (d : C4Network2ResChunkData), WellFormed d → PositiveLengths d.pChunkRanges →
      d.iChunkRangeCnt = d.pChunkRanges.length →
      (∀ r ∈ L, isInt32 (r.Start + r.Length)) →
      WellFormed (L.foldl (fun acc r => acc.AddChunkRange r.Start r.Length) d) ∧
      (L.foldl (fun acc r => acc.AddChunkRange r.Start r.Length) d).iChunkCnt = d.iChunkCnt ∧
      PositiveLengths (L.foldl (fun acc r => acc.AddChunkRange r.Start r.Length) d).pChunkRanges ∧
      (L.foldl (fun acc r => acc.AddChunkRange r.Start r.Length) d).iChunkRangeCnt
        = (L.foldl (fun acc r => acc.AddChunkRange r.Start r.Length) d).pChunkRanges.length ∧
      (∀ c, isPresent (L.foldl (fun acc r => acc.AddChunkRange r.Start r.Length) d) c ↔
        (isPresent d c ∨ inRanges (L.filter (validRange d.iChunkCnt)) c)) := by
  induction L with
  | nil =>
    intro d hwf hp hc _
    refine ⟨hwf, rfl, hp, hc, fun c => ?_⟩
    simp [inRanges]
  | cons r L ih =>
    intro d hwf hp hc hsum
    have hr := hsum r (List.mem_cons_self _ _)
    simp only [List.foldl_cons]
    obtain ⟨w1, w2⟩ := AddChunkRange_wf d r.Start r.Length hwf hr
    have p1 := AddChunkRange_pos d r.Start r.Length hwf hp hr
    have c1 := AddChunkRange_counter d r.Start r.Length hwf hp hr hc
    obtain ⟨b1, b2, b3, b4, b5⟩ := ih (d.AddChunkRange r.Start r.Length) w1 p1 c1
      (fun x hx => hsum x (List.mem_cons_of_mem _ hx))
    refine ⟨b1, b2.trans w2, b3, b4, fun c => ?_⟩
    rw [b5 c, w2]
    obtain ⟨k1, k2⟩ := AddChunkRange_contract d r.Start r.Length hwf hr
    by_cases hv : r.Start < 0 ∨ r.Length ≤ 0 ∨ r.Start + r.Length > d.iChunkCnt
    · rw [k1 hv]
      have hf : validRange d.iChunkCnt r = false := by
        unfold validRange
        simp only [decide_eq_false_iff_not]
        omega
      rw [List.filter_cons, hf]
      simp
    · have hf : validRange d.iChunkCnt r = true := by
        unfold validRange
        simp only [decide_eq_true_eq]
        omega
      rw [List.filter_cons, hf, if_pos rfl, inRanges_cons, (k2 hv).1 c]
      constructor
      · rintro ((h | h) | h)
        · exact Or.inl h
        · exact Or.inr (Or.inl h)
        · exact Or.inr (Or.inr h)
      · rintro (h | h | h)
        · exact Or.inl (Or.inl h)
        · exact Or.inl (Or.inr h)
        · exact Or.inr h

/-- A map over a negative chunk count takes no range whose sum `Start + Length` does not
overflow. -/
theorem foldl_AddChunkRange_neg (L : List ChunkRange) (d : C4Network2ResChunkData)
    (hn : d.iChunkCnt < 0) (hsum : ∀ r ∈ L, isInt32 (r.Start + r.Length)) :
    L.foldl (fun acc r => acc.AddChunkRange r.Start r.Length) d = d ∧
    L.filter (validRange d.iChunkCnt) = [] := by
  induction L with
  | nil => exact ⟨rfl, rfl⟩
  | cons r L ih =>
    have hr := hsum r (List.mem_cons_self _ _)
    obtain ⟨i1, i2⟩ := ih (fun x hx => hsum x (List.mem_cons_of_mem _ hx))
    have hf : validRange d.iChunkCnt r = false := by
      unfold validRange
      simp only [decide_eq_false_iff_not]
      omega
    refine ⟨?_, ?_⟩
    · simp only [List.foldl_cons]
      rw [AddChunkRange_rejected d r.Start r.Length
        (by rw [wrap32_of_isInt32 _ hr.1 hr.2]; omega)]
      exact i1
    · rw [List.filter_cons, hf]
      simpa using i2

/-- The loop of `GetNegative` keeps the range counter of the target equal to the number
of its ranges. -/
theorem GetNegativeLoop_counter (n : Int) (hn : n < 2147483648) (L : List ChunkRange) :
    ∀ (free : Int) (T : C4Network2ResChunkData), WellFormed T → T.iChunkCnt = n →
      0 ≤ free → free ≤ n → (∀ r ∈ L, rangeOk n r) → Gapped L → (∀ r ∈ L, free ≤ r.Start) →
      PositiveLengths T.pChunkRanges → T.iChunkRangeCnt = T.pChunkRanges.length →
      (GetNegativeLoop L free T).2.iChunkRangeCnt
        = (GetNegativeLoop L free T).2.pChunkRanges.length := by
  induction L with
  | nil => intro free T _ _ _ _ _ _ _ _ hc; exact hc
  | cons r L ih =>
    intro free T hT hTn h0 h1 hok hg hst hp hc
    have hr := hok r (List.mem_cons_self _ _)
    have hfr := hst r (List.mem_cons_self _ _)
    unfold rangeOk at hr
    have hokL : ∀ x ∈ L, rangeOk n x := fun x hx => hok x (List.mem_cons_of_mem _ hx)
    have hw1 : wrap32 (r.Start + r.Length) = r.Start + r.Length :=
      wrap32_of_isInt32 _ (by omega) (by omega)
    have hw2 : wrap32 (r.Start - free) = r.Start - free :=
      wrap32_of_isInt32 _ (by omega) (by omega)
    have h32 : isInt32 (free + (r.Start - free)) := by unfold isInt32; omega
    simp only [GetNegativeLoop]
    rw [hw1, hw2]
    have hw := AddChunkRange_wf T free (r.Start - free) hT h32
    apply ih _ _ hw.1 (hw.2.trans hTn) (by omega) (by omega) hokL (Gapped_tail _ _ hg)
    · intro x hx
      have := Gapped_start_lt n r L hg hokL x hx
      omega
    · exact AddChunkRange_pos T free (r.Start - free) hT hp h32
    · exact AddChunkRange_counter T free (r.Start - free) hT hp h32 hc

/-- `GetNegative` of a well-formed map has a range counter equal to the number of its
ranges. -/
theorem GetNegative_counter (d Target : C4Network2ResChunkData) (hd : WellFormed d) :
    (d.GetNegative Target).iChunkRangeCnt = (d.GetNegative Target).pChunkRanges.length := by
  obtain ⟨hn0, hn, hok, hg, hP⟩ := hd
  have hT0 : WellFormed (Target.SetIncomplete d.iChunkCnt) := SetIncomplete_wf _ _ hn0 hn
  have hst : ∀ r ∈ d.pChunkRanges, (0 : Int) ≤ r.Start := fun r hr => (hok r hr).1
  have hp0 : PositiveLengths (Target.SetIncomplete d.iChunkCnt).pChunkRanges :=
    fun r hr => by simp [SetIncomplete, Clear] at hr
  obtain ⟨i1, i2, i3, i4, _, _⟩ := GetNegativeLoop_spec d.iChunkCnt hn d.pChunkRanges 0
    (Target.SetIncomplete d.iChunkCnt) hT0 rfl (le_refl _) hn0 hok hg hst
  have hp := GetNegativeLoop_pos d.iChunkCnt hn d.pChunkRanges 0
    (Target.SetIncomplete d.iChunkCnt) hT0 rfl (le_refl _) hn0 hok hg hst hp0
  have hc := GetNegativeLoop_counter d.iChunkCnt hn d.pChunkRanges 0
    (Target.SetIncomplete d.iChunkCnt) hT0 rfl (le_refl _) hn0 hok hg hst hp0 rfl
  unfold GetNegative
  dsimp only
  generalize GetNegativeLoop d.pChunkRanges 0 (Target.SetIncomplete d.iChunkCnt) = st
    at i1 i2 i3 i4 hp hc ⊢
  have hw : wrap32 (d.iChunkCnt - st.1) = d.iChunkCnt - st.1 :=
    wrap32_of_isInt32 _ (by omega) (by omega)
  rw [hw]
  exact AddChunkRange_counter st.2 st.1 (d.iChunkCnt - st.1) i1 hp
    (by unfold isInt32; omega) hc

/-- The sums `Start + Length` of the ranges of a well-formed map are 32-bit values. -/
theorem WellFormed_sums (d : C4Network2ResChunkData) (h : WellFormed d) :
    ∀ r ∈ d.pChunkRanges, isInt32 (r.Start + r.Length) := by
  intro r hr
  have := h.2.2.1 r hr
  have := h.2.1
  unfold rangeOk at *
  unfold isInt32
  omega

/-- Every map built from `SetIncomplete` is well-formed, has only non-empty ranges and a
range counter equal to the number of its ranges. -/
theorem BuiltIncomplete_inv (d : C4Network2ResChunkData) (h : BuiltIncomplete d) :
    WellFormed d ∧ PositiveLengths d.pChunkRanges ∧
    d.iChunkRangeCnt = d.pChunkRanges.length := by
  have hempty : ∀ (n : Int), 0 ≤ n → n < 2147483648 → ∀ (D : C4Network2ResChunkData),
      WellFormed D →
      WellFormed (D.pChunkRanges.foldl (fun acc r => acc.AddChunkRange r.Start r.Length)
        (⟨n, 0, [], 0⟩ : C4Network2ResChunkData)) ∧
      PositiveLengths (D.pChunkRanges.foldl (fun acc r => acc.AddChunkRange r.Start r.Length)
        (⟨n, 0, [], 0⟩ : C4Network2ResChunkData)).pChunkRanges ∧
      (D.pChunkRanges.foldl (fun acc r => acc.AddChunkRange r.Start r.Length)
        (⟨n, 0, [], 0⟩ : C4Network2ResChunkData)).iChunkRangeCnt
        = (D.pChunkRanges.foldl (fun acc r => acc.AddChunkRange r.Start r.Length)
        (⟨n, 0, [], 0⟩ : C4Network2ResChunkData)).pChunkRanges.length := by
    intro n h0 hn D hD
    obtain ⟨a1, _, a3, a4, _⟩ := foldl_AddChunkRange_filter D.pChunkRanges ⟨n, 0, [], 0⟩
      (SetIncomplete_wf new n h0 hn) (fun r hr => by simp at hr) rfl (WellFormed_sums D hD)
    exact ⟨a1, a3, a4⟩
  induction h with
  | setIncomplete d n h0 hn =>
    exact ⟨SetIncomplete_wf d n h0 hn, fun r hr => by simp [SetIncomplete, Clear] at hr, rfl⟩
  | addChunk d iChunk _ _ h2 ih =>
    exact ⟨(AddChunkRange_wf d iChunk 1 ih.1 h2).1, AddChunkRange_pos d iChunk 1 ih.1 ih.2.1 h2,
      AddChunkRange_counter d iChunk 1 ih.1 ih.2.1 h2 ih.2.2⟩
  | addChunkRange d s l _ _ _ h3 ih =>
    exact ⟨(AddChunkRange_wf d s l ih.1 h3).1, AddChunkRange_pos d s l ih.1 ih.2.1 h3,
      AddChunkRange_counter d s l ih.1 ih.2.1 h3 ih.2.2⟩
  | merge d Data2 _ h2 _ ih =>
    obtain ⟨a1, _, a3, a4, _⟩ := foldl_AddChunkRange_filter Data2.pChunkRanges d ih.1 ih.2.1
      ih.2.2 (WellFormed_sums Data2 h2)
    exact ⟨a1, a3, a4⟩
  | getNegative d Target hd =>
    exact ⟨(GetNegative_spec d Target hd).1, GetNegative_pos d Target hd,
      GetNegative_counter d Target hd⟩
  | assign d Data2 h2 => exact hempty Data2.iChunkCnt h2.1 h2.2.1 Data2 h2
  | copy Data2 h2 => exact hempty Data2.iChunkCnt h2.1 h2.2.1 Data2 h2

/-- The copy of a chunk map none of whose sums `Start + Length` overflows 32 bits is
well-formed over the chunk count of the original and holds exactly the chunks of the
ranges that pass the bounds check on exact integers. -/
theorem copy_filter_spec (D d : C4Network2ResChunkData) (hcnt : isInt32 D.iChunkCnt)
    (hsum : ∀ r ∈ D.pChunkRanges, isInt32 (r.Start + r.Length)) :
    d.assign D = copy D ∧
    (copy D).iChunkCnt = D.iChunkCnt ∧
    Gapped (copy D).pChunkRanges ∧
    (∀ r ∈ (copy D).pChunkRanges,
      0 ≤ r.Start ∧ 0 < r.Length ∧ r.Start + r.Length ≤ D.iChunkCnt) ∧
    (copy D).iPresentChunkCnt = sumLen (copy D).pChunkRanges ∧
    (copy D).iChunkRangeCnt = (copy D).pChunkRanges.length ∧
    (∀ c, isPresent (copy D) c ↔
      inRanges (D.pChunkRanges.filter (validRange D.iChunkCnt)) c) := by
  refine ⟨rfl, ?_⟩
  by_cases h0 : 0 ≤ D.iChunkCnt
  · obtain ⟨a1, a2, a3, a4, a5⟩ := foldl_AddChunkRange_filter D.pChunkRanges
      ⟨D.iChunkCnt, 0, [], 0⟩ (SetIncomplete_wf new D.iChunkCnt h0 hcnt.2)
      (fun r hr => by simp at hr) rfl hsum
    have hc : copy D = D.pChunkRanges.foldl (fun acc r => acc.AddChunkRange r.Start r.Length)
        (⟨D.iChunkCnt, 0, [], 0⟩ : C4Network2ResChunkData) := rfl
    rw [hc]
    refine ⟨a2, a1.2.2.2.1, fun r hr => ?_, a1.2.2.2.2, a4, fun c => ?_⟩
    · have h1 := a1.2.2.1 r hr
      have h2 := a3 r hr
      unfold rangeOk at h1
      rw [a2] at h1
      exact ⟨h1.1, h2, h1.2.2⟩
    · rw [a5 c]
      simp [isPresent, inRanges]
  · obtain ⟨b1, b2⟩ := foldl_AddChunkRange_neg D.pChunkRanges ⟨D.iChunkCnt, 0, [], 0⟩
      (by simpa using h0) hsum
    have hc : copy D = ⟨D.iChunkCnt, 0, [], 0⟩ := b1
    simp only at b2
    rw [hc, b2]
    refine ⟨rfl, trivial, fun r hr => by simp at hr, rfl, rfl, fun c => ?_⟩
    simp [isPresent, inRanges]

/-- C25 (failing input): `SetComplete(3)` stores the one range `[0, 3)` and leaves the
range counter at 0; adding a chunk keeps one range and the counter 0, and the wire form
written from the map holds the range counter 0 and no range. -/
theorem SetComplete_leaves_range_counter_zero :
    (new.SetComplete 3).pChunkRanges = [{ Start := 0, Length := 3 }] ∧
    (new.SetComplete 3).iChunkRangeCnt = 0 ∧
    ((new.SetComplete 3).AddChunk 1).pChunkRanges.length = 1 ∧
    ((new.SetComplete 3).AddChunk 1).iChunkRangeCnt = 0 ∧
    (new.SetComplete 3).CompileFuncWrite = .ok [.int 3, .int 0] :=
  ⟨by decide, by decide, by decide, by decide, rfl⟩

/-- C25 (maps not made by `SetComplete`): in every chunk map built from `SetIncomplete(n)` by
`AddChunk`, `AddChunkRange`, `Merge` and `GetNegative` (and by assignment and copy
construction) without a 32-bit overflow in the bounds check, the range counter
`iChunkRangeCnt` is the number of ranges in the range list, and the wire form written from
the map holds that number followed by all the ranges. -/
theorem range_counter_counts_ranges (d : C4Network2ResChunkData) (h : BuiltIncomplete d) :
    d.iChunkRangeCnt = d.pChunkRanges.length ∧
    ∃ w, d.CompileFuncWrite
        = .ok (.int d.iChunkCnt :: .int (d.pChunkRanges.length : Int) :: w) ∧
      rangesFromWire d.pChunkRanges.length w = .ok d.pChunkRanges := by
  obtain ⟨_, _, hc⟩ := BuiltIncomplete_inv d h
  obtain ⟨w, h1, h2⟩ := rangesToWire_length d.pChunkRanges
  refine ⟨hc, w, ?_, h2⟩
  unfold CompileFuncWrite
  rw [hc, Int.toNat_ofNat, h1]

/-- C25 (maps not made by `SetComplete`, witness): the map built by `SetIncomplete(5)`,
`AddChunk(1)` and `AddChunk(3)` has two ranges and the range counter 2. -/
theorem range_counter_counts_ranges_witness :
    (((new.SetIncomplete 5).AddChunk 1).AddChunk 3).pChunkRanges.length = 2 ∧
    (((new.SetIncomplete 5).AddChunk 1).AddChunk 3).iChunkRangeCnt
      = ((((new.SetIncomplete 5).AddChunk 1).AddChunk 3).pChunkRanges.length : Int) :=
  ⟨by decide,
   (range_counter_counts_ranges _
      (BuiltIncomplete.addChunk _ 3
        (BuiltIncomplete.addChunk _ 1
          (BuiltIncomplete.setIncomplete new 5 (by decide) (by decide))
          (by decide) (by decide))
        (by decide) (by decide))).1⟩

/-- C26 (failing input): the wire form of a map over 5 chunks with the one range
`(1, 2147483647)` is read without error.  The range does not end at or before chunk 5, so
no range of the decoded map passes the three conditions; still the copy and the
assignment keep it: the copy has a range that ends behind chunk 5, the present counter
2147483647 and the chunk 7 present, and is not well-formed. -/
theorem copy_keeps_overflowing_range :
    CompileFuncRead new [.int 5, .int 1, .int 1, .int 2147483647] = .ok exampleOverflowing ∧
    exampleOverflowing.pChunkRanges.filter (validRange exampleOverflowing.iChunkCnt) = [] ∧
    copy exampleOverflowing
      = { iChunkCnt := 5, iPresentChunkCnt := 2147483647,
          pChunkRanges := [{ Start := 1, Length := 2147483647 }], iChunkRangeCnt := 1 } ∧
    new.assign exampleOverflowing = copy exampleOverflowing ∧
    isPresent (copy exampleOverflowing) 7 ∧
    ¬ WellFormed (copy exampleOverflowing) :=
  ⟨rfl, by decide, by decide, rfl, by decide, by decide⟩

/-- C26 (without overflow): the copy of a decoded chunk map, whatever its ranges and counters,
none of whose sums `Start + Length` overflows 32 bits: assignment and copy construction
make the same map; it has the chunk count of the original, its ranges are sorted with
gaps, lie inside `[0, iChunkCnt)` and are not empty, its present counter is the sum of the
range lengths, its range counter the number of ranges, and its present chunks are exactly
the chunks of those ranges of the original that satisfy `Start >= 0`, `Length > 0` and
`Start + Length <= iChunkCnt`. -/
theorem copy_of_decoded_map (D d : C4Network2ResChunkData) (hcnt : isInt32 D.iChunkCnt)
    (hsum : ∀ r ∈ D.pChunkRanges, isInt32 (r.Start + r.Length)) :
    d.assign D = copy D ∧
    (copy D).iChunkCnt = D.iChunkCnt ∧
    Gapped (copy D).pChunkRanges ∧
    (∀ r ∈ (copy D).pChunkRanges,
      0 ≤ r.Start ∧ 0 < r.Length ∧ r.Start + r.Length ≤ D.iChunkCnt) ∧
    (copy D).iPresentChunkCnt = sumLen (copy D).pChunkRanges ∧
    (copy D).iChunkRangeCnt = (copy D).pChunkRanges.length ∧
    (∀ c, isPresent (copy D) c ↔
      inRanges (D.pChunkRanges.filter (validRange D.iChunkCnt)) c) :=
  copy_filter_spec D d hcnt hsum

/-- C26 (without overflow, witness): a decoded map over ten chunks with six ranges out of order,
overlapping, empty, starting in front of chunk 0 and running over the end; the copy holds
the ranges `[0, 4)` and `[6, 8)` and the present counter 6. -/
theorem copy_of_decoded_map_witness :
    CompileFuncRead new [.int 10, .int 6, .int 6, .int 2, .int 0, .int 3, .int 2, .int 2,
      .int 5, .int 0, .int (-1), .int 4, .int 8, .int 5] = .ok exampleMalformed ∧
    copy exampleMalformed
      = { iChunkCnt := 10, iPresentChunkCnt := 6,
          pChunkRanges := [{ Start := 0, Length := 4 }, { Start := 6, Length := 2 }],
          iChunkRangeCnt := 2 } ∧
    (∀ c, isPresent (copy exampleMalformed) c ↔
      inRanges (exampleMalformed.pChunkRanges.filter
        (validRange exampleMalformed.iChunkCnt)) c) :=
  ⟨rfl, by decide,
   (copy_of_decoded_map exampleMalformed new (by decide) (by decide)).2.2.2.2.2.2⟩

end C4Network2ResChunkData

/-! ## The availability records kept by `OnStatus` -/

namespace C4Network2Res

/-- The search of `OnStatus`: without a record of the client nothing is found; otherwise
the client ids and the records of the other clients stay as they are, and if no client id
occurs twice the one record of the client holds the assigned map. -/
theorem setClientChunks_spec (id : Int) (D : C4Network2ResChunkData) :
    ∀ (L : List ClientChunks),
      (setClientChunks id D L = none ∧ id ∉ L.map (fun c => c.ClientID)) ∨
      (∃ L1, setClientChunks id D L = some L1 ∧
        L1.map (fun c => c.ClientID) = L.map (fun c => c.ClientID) ∧
        L1.filter (fun c => decide (c.ClientID ≠ id))
          = L.filter (fun c => decide (c.ClientID ≠ id)) ∧
        ((L.map (fun c => c.ClientID)).Nodup →
          L1.filter (fun c => decide (c.ClientID = id))
            = [{ ClientID := id, Chunks := C4Network2ResChunkData.copy D }])) := by
  intro L
  induction L with
  | nil => left; exact ⟨rfl, by simp⟩
  | cons c rest ih =>
    by_cases hc : c.ClientID = id
    · right
      refine ⟨{ ClientID := id, Chunks := c.Chunks.assign D } :: rest, ?_, ?_, ?_, ?_⟩
      · simp only [setClientChunks, if_pos hc]
      · simp only [List.map_cons, hc]
      · simp only [List.filter_cons, hc, ne_eq, not_true_eq_false, decide_False,
          Bool.false_eq_true, if_false]
      · intro hnd
        simp only [List.map_cons, List.nodup_cons] at hnd
        have hrest : rest.filter (fun c => decide (c.ClientID = id)) = [] := by
          rw [List.filter_eq_nil_iff]
          intro x hx hxe
          simp only [decide_eq_true_eq] at hxe
          apply hnd.1
          rw [hc, ← hxe]
          exact List.mem_map_of_mem _ hx
        simp only [List.filter_cons, decide_True, if_true, hrest]
        rfl
    · rcases ih with ⟨h1, h2⟩ | ⟨L1, h1, h2, h3, h4⟩
      · left
        refine ⟨by simp only [setClientChunks, if_neg hc, h1], ?_⟩
        simp only [List.map_cons, List.mem_cons, not_or]
        exact ⟨fun h => hc h.symm, h2⟩
      · right
        refine ⟨c :: L1, by simp only [setClientChunks, if_neg hc, h1], ?_, ?_, ?_⟩
        · simp only [List.map_cons, h2]
        · simp only [List.filter_cons, h3]
        · intro hnd
          simp only [List.map_cons, List.nodup_cons] at hnd
          simp only [List.filter_cons, hc, decide_False, Bool.false_eq_true, if_false]
          exact h4 hnd.2

/-- The availability records after `OnStatus`: unchanged when the chunk counts differ,
otherwise the record of the client is replaced or a new record is put in front. -/
theorem OnStatus_pCChunks (lim : LoadLimits) (env : LoadEnv) (r : C4Network2Res)
    (D : C4Network2ResChunkData) (byClient : Int) :
    (OnStatus lim env r D byClient).pCChunks =
      if D.iChunkCnt ≠ r.Chunks.iChunkCnt then r.pCChunks
      else match setClientChunks byClient D r.pCChunks with
        | some l => l
        | none => { ClientID := byClient, Chunks := C4Network2ResChunkData.copy D } :: r.pCChunks := by
  unfold OnStatus
  dsimp only
  split_ifs with h1 h2
  · rfl
  · rw [(StartLoad_same lim env _ byClient _).2.2.2.2.1]
    rfl
  · rfl

/-- The upsert of `OnStatus` on records without a repeated client id. -/
theorem OnStatus_upsert (lim : LoadLimits) (env : LoadEnv) (r : C4Network2Res)
    (D : C4Network2ResChunkData) (byClient : Int) (hnd : r.clientIDs.Nodup)
    (hcnt : D.iChunkCnt = r.Chunks.iChunkCnt) :
    (OnStatus lim env r D byClient).clientIDs.Nodup ∧
    (OnStatus lim env r D byClient).pCChunks.filter (fun c => decide (c.ClientID = byClient))
      = [{ ClientID := byClient, Chunks := C4Network2ResChunkData.copy D }] ∧
    (OnStatus lim env r D byClient).pCChunks.filter (fun c => decide (c.ClientID ≠ byClient))
      = r.pCChunks.filter (fun c => decide (c.ClientID ≠ byClient)) := by
  unfold clientIDs at hnd ⊢
  rw [OnStatus_pCChunks, if_neg (by simpa using hcnt)]
  rcases setClientChunks_spec byClient D r.pCChunks with ⟨h1, h2⟩ | ⟨L1, h1, h2, h3, h4⟩
  · rw [h1]
    dsimp only
    refine ⟨?_, ?_, ?_⟩
    · simp only [List.map_cons, List.nodup_cons]
      exact ⟨h2, hnd⟩
    · have hrest : r.pCChunks.filter (fun c => decide (c.ClientID = byClient)) = [] := by
        rw [List.filter_eq_nil_iff]
        intro x hx hxe
        simp only [decide_eq_true_eq] at hxe
        apply h2
        rw [← hxe]
        exact List.mem_map_of_mem _ hx
      simp only [List.filter_cons, decide_True, if_true, hrest]
    · simp only [List.filter_cons, ne_eq, not_true_eq_false, decide_False, Bool.false_eq_true,
        if_false]
  · rw [h1]
    dsimp only
    exact ⟨by rw [h2]; exact hnd, h4 hnd, h3⟩

/-- No client id occurs twice in the availability records of a reachable state. -/
theorem Reachable_clientIDs (lim : LoadLimits) (cenv : CoreEnv) (r : C4Network2Res)
    (hr : Reachable lim cenv r) : r.clientIDs.Nodup := by
  induction hr with
  | init => exact List.nodup_nil
  | setLoad r nCore tempName now _ _ =>
    have hc : (r.SetLoad nCore tempName now).1.pCChunks = [] := by
      unfold SetLoad
      dsimp only
      split_ifs
      · rfl
      · cases tempName <;> rfl
    unfold clientIDs
    rw [hc]
    exact List.nodup_nil
  | onStatus r env D byClient _ ih =>
    by_cases hcnt : D.iChunkCnt = r.Chunks.iChunkCnt
    · exact (OnStatus_upsert lim env r D byClient ih hcnt).1
    · unfold clientIDs
      rw [OnStatus_pCChunks, if_pos hcnt]
      exact ih
  | onChunk r env rChunk io _ ih =>
    have hadd : (rChunk.AddTo r io).1.pCChunks = r.pCChunks := by
      unfold C4Network2ResChunk.AddTo
      dsimp only
      split_ifs <;> rfl
    unfold clientIDs at ih ⊢
    unfold OnChunk
    dsimp only
    split_ifs with h1 h2 h3 h4 h5
    · exact ih
    · exact ih
    · exact List.nodup_nil
    · rw [(StartNewLoads_same lim env _).2.2.2.2.1]
      show (List.map _ (rChunk.AddTo r io).1.pCChunks).Nodup
      rw [hadd]; exact ih
    · exact List.nodup_nil
    · rw [(StartNewLoads_same lim env _).2.2.2.2.1, hadd]; exact ih
  | doLoad r env now _ ih =>
    unfold clientIDs at ih ⊢
    unfold DoLoad
    dsimp only
    split_ifs
    · exact ih
    · rw [(StartNewLoads_same lim env _).2.2.2.2.1]; exact ih
    · exact ih
    · exact ih
    · exact ih
  | startNewLoads r env _ ih =>
    unfold clientIDs at ih ⊢
    rw [(StartNewLoads_same lim env _).2.2.2.2.1]; exact ih
  | startLoad r env iFromClient Available _ ih =>
    unfold clientIDs at ih ⊢
    rw [(StartLoad_same lim env r iFromClient Available).2.2.2.2.1]; exact ih

/-- C22 (counterexample): the wire form of a map over 3 chunks with the one range
`[1, 6)` is read without error, and its chunk count is that of the loading example
entity.  After `OnStatus` with this map from client 9 the one record of client 9 holds a
map without a range: chunk 1 lies in the range of the map that was sent and is not
present in the record. -/
theorem OnStatus_drops_out_of_bounds_range :
    C4Network2ResChunkData.CompileFuncRead C4Network2ResChunkData.new
      [.int 3, .int 1, .int 1, .int 5] = .ok C4Network2ResChunkData.exampleOutOfBounds ∧
    C4Network2ResChunkData.exampleOutOfBounds.iChunkCnt
      = (exampleLoading 10 4).Chunks.iChunkCnt ∧
    (OnStatus exampleLimits exampleLoadEnv (exampleLoading 10 4)
        C4Network2ResChunkData.exampleOutOfBounds 9).pCChunks
      = [{ ClientID := 9,
           Chunks := { iChunkCnt := 3, iPresentChunkCnt := 0, pChunkRanges := [],
                       iChunkRangeCnt := 0 } }] ∧
    C4Network2ResChunkData.isPresent C4Network2ResChunkData.exampleOutOfBounds 1 ∧
    ¬ C4Network2ResChunkData.isPresent
      { iChunkCnt := 3, iPresentChunkCnt := 0, pChunkRanges := [], iChunkRangeCnt := 0 } 1 :=
  ⟨rfl, by decide, by decide, by decide, by decide⟩

/-- C22 (amended): in every state reachable through `SetLoad`, `OnStatus`, `OnChunk`,
`DoLoad`, `StartNewLoads` and `StartLoad` no two availability records have the same
client id.  `OnStatus` with a map of another chunk count leaves the records as they are.
After `OnStatus` with a map of the chunk count of the entity no two records have the same
client id, exactly one record has the client id of the sender and holds the copy of the
map, and the records of the other clients are unchanged.  The present chunks of that copy
are those of the map if the map is well-formed; for any map whose sums `Start + Length`
do not overflow 32 bits they are the chunks of the ranges of the map with `Start >= 0`,
`Length > 0` and `Start + Length <= iChunkCnt`. -/
theorem OnStatus_keeps_one_record_per_client (lim : LoadLimits) (cenv : CoreEnv)
    (r : C4Network2Res) (hr : Reachable lim cenv r) :
    r.clientIDs.Nodup ∧
    (∀ (env : LoadEnv) (D : C4Network2ResChunkData) (byClient : Int),
      D.iChunkCnt ≠ r.Chunks.iChunkCnt →
      (OnStatus lim env r D byClient).pCChunks = r.pCChunks) ∧
    (∀ (env : LoadEnv) (D : C4Network2ResChunkData) (byClient : Int),
      D.iChunkCnt = r.Chunks.iChunkCnt →
      (OnStatus lim env r D byClient).clientIDs.Nodup ∧
      (OnStatus lim env r D byClient).pCChunks.filter (fun c => decide (c.ClientID = byClient))
        = [{ ClientID := byClient, Chunks := C4Network2ResChunkData.copy D }] ∧
      (OnStatus lim env r D byClient).pCChunks.filter (fun c => decide (c.ClientID ≠ byClient))
        = r.pCChunks.filter (fun c => decide (c.ClientID ≠ byClient)) ∧
      (D.WellFormed → ∀ c, (C4Network2ResChunkData.copy D).isPresent c ↔ D.isPresent c) ∧
      (isInt32 D.iChunkCnt → (∀ x ∈ D.pChunkRanges, isInt32 (x.Start + x.Length)) →
        ∀ c, (C4Network2ResChunkData.copy D).isPresent c ↔
          C4Network2ResChunkData.inRanges
            (D.pChunkRanges.filter (C4Network2ResChunkData.validRange D.iChunkCnt)) c)) := by
  have hnd := Reachable_clientIDs lim cenv r hr
  refine ⟨hnd, ?_, ?_⟩
  · intro env D byClient hcnt
    rw [OnStatus_pCChunks, if_pos hcnt]
  · intro env D byClient hcnt
    obtain ⟨u1, u2, u3⟩ := OnStatus_upsert lim env r D byClient hnd hcnt
    refine ⟨u1, u2, u3, ?_, ?_⟩
    · intro hwf c
      exact (C4Network2ResChunkData.assign_wf C4Network2ResChunkData.new D hwf).2.2 c
    · intro h32 hsum c
      exact (C4Network2ResChunkData.copy_filter_spec D C4Network2ResChunkData.new h32
        hsum).2.2.2.2.2.2 c

/-- C22 (witness): the loading example entity is reachable; after a status of the
complete peer 9 its one record is that of client 9 and holds the copy of the map. -/
theorem OnStatus_keeps_one_record_per_client_witness :
    (exampleLoading 10 4).clientIDs.Nodup ∧
    (OnStatus exampleLimits exampleLoadEnv (exampleLoading 10 4)
        (C4Network2ResChunkData.new.SetComplete 3) 9).pCChunks.filter
      (fun c => decide (c.ClientID = 9))
      = [{ ClientID := 9,
           Chunks := C4Network2ResChunkData.copy (C4Network2ResChunkData.new.SetComplete 3) }] := by
  have h := OnStatus_keeps_one_record_per_client exampleLimits exampleEnv (exampleLoading 10 4)
    (Reachable.setLoad _ (exampleCore 10 4) (some "f") 0 Reachable.init)
  exact ⟨h.1, (h.2.2 exampleLoadEnv (C4Network2ResChunkData.new.SetComplete 3) 9 rfl).2.1⟩

end C4Network2Res

/-! ## Transfer progress of a client -/

namespace C4Network2ResChunkData

/-- The present counter of a well-formed map lies between 0 and the chunk count. -/
theorem WellFormed_present_le (d : C4Network2ResChunkData) (h : WellFormed d) :
    0 ≤ d.iPresentChunkCnt ∧ d.iPresentChunkCnt ≤ d.iChunkCnt := by
  have h1 := presentCnt_eq_length d h
  have h2 : (presentChunks d).length ≤ (chunkNumbers d.iChunkCnt).length :=
    List.length_filter_le _ _
  have h3 : (chunkNumbers d.iChunkCnt).length = d.iChunkCnt.toNat := by
    unfold chunkNumbers
    rw [List.length_map, List.length_range]
  have h4 := h.1
  omega

end C4Network2ResChunkData

namespace C4Network2ResList

theorem holders_cons (clientID : Int) (r : C4Network2Res) (L : List C4Network2Res) :
    holders clientID (r :: L) =
      if r.fRemoved then holders clientID L
      else match r.GetClientProgress clientID with
        | none => holders clientID L
        | some pc => pc :: holders clientID L := by
  unfold holders
  rw [List.filterMap_cons]
  cases hr : r.fRemoved
  · simp only [Bool.false_eq_true, if_false]
    cases r.GetClientProgress clientID <;> rfl
  · simp only [if_true]

/-- The two 32-bit sums of the loop of `GetClientProgress` are the exact sums as long as
all counters are non-negative and the exact sums are 32-bit values. -/
theorem progressSums_exact (clientID : Int) :
    ∀ (L : List C4Network2Res) (acc : Int × Int),
      (∀ pc ∈ holders clientID L, 0 ≤ pc.1 ∧ 0 ≤ pc.2) →
      0 ≤ acc.1 → 0 ≤ acc.2 →
      acc.1 + sumPresent clientID L < 2147483648 →
      acc.2 + sumChunks clientID L < 2147483648 →
      progressSums clientID L acc
        = (acc.1 + sumPresent clientID L, acc.2 + sumChunks clientID L) := by
  intro L
  induction L with
  | nil =>
    intro acc _ _ _ _ _
    simp [progressSums, sumPresent, sumChunks, holders]
  | cons r L ih =>
    intro acc hall h1 h2 h3 h4
    have hc := holders_cons clientID r L
    simp only [sumPresent, sumChunks] at h3 h4 ⊢
    unfold progressSums
    cases hr : r.fRemoved
    · simp only [hr, Bool.false_eq_true, if_false] at hc ⊢
      cases hp : r.GetClientProgress clientID with
      | none =>
        simp only [hp] at hc
        rw [hc] at hall h3 h4 ⊢
        exact ih acc hall h1 h2 h3 h4
      | some pc =>
        simp only [hp] at hc
        rw [hc] at hall h3 h4 ⊢
        simp only [List.map_cons, List.sum_cons] at h3 h4 ⊢
        have hpc := hall pc (List.mem_cons_self _ _)
        have hrest : ∀ x ∈ holders clientID L, 0 ≤ x.1 ∧ 0 ≤ x.2 :=
          fun x hx => hall x (List.mem_cons_of_mem _ hx)
        have hs1 : 0 ≤ ((holders clientID L).map (fun pc => pc.1)).sum :=
          List.sum_nonneg (fun x hx => by
            obtain ⟨y, hy, rfl⟩ := List.mem_map.1 hx
            exact (hrest y hy).1)
        have hs2 : 0 ≤ ((holders clientID L).map (fun pc => pc.2)).sum :=
          List.sum_nonneg (fun x hx => by
            obtain ⟨y, hy, rfl⟩ := List.mem_map.1 hx
            exact (hrest y hy).2)
        have hw1 : wrap32 (acc.1 + pc.1) = acc.1 + pc.1 :=
          wrap32_of_isInt32 _ (by omega) (by omega)
        have hw2 : wrap32 (acc.2 + pc.2) = acc.2 + pc.2 :=
          wrap32_of_isInt32 _ (by omega) (by omega)
        rw [hw1, hw2]
        have := ih (acc.1 + pc.1, acc.2 + pc.2) hrest (by simp only; omega)
          (by simp only; omega)
          (by unfold sumPresent; simp only; omega) (by unfold sumChunks; simp only; omega)
        simp only [sumPresent, sumChunks] at this
        rw [this]
        simp only [Prod.mk.injEq]
        constructor <;> omega
    · simp only [hr, if_true] at hc ⊢
      rw [hc] at hall h3 h4 ⊢
      exact ih acc hall h1 h2 h3 h4

/-- The pairs reported by entities whose records were installed by `OnStatus`: the present
counter lies between 0 and the chunk count. -/
theorem holders_bounds (clientID : Int) (L : List C4Network2Res)
    (hinst : ∀ r ∈ L, r.fRemoved = false → r.StatusInstalled) :
    ∀ pc ∈ holders clientID L, 0 ≤ pc.1 ∧ pc.1 ≤ pc.2 := by
  intro pc hpc
  unfold holders at hpc
  obtain ⟨r, hr, hpr⟩ := List.mem_filterMap.1 hpc
  cases hrem : r.fRemoved
  · rw [hrem] at hpr
    simp only [Bool.false_eq_true, if_false] at hpr
    unfold C4Network2Res.GetClientProgress at hpr
    cases hf : r.pCChunks.find? (fun c => decide (c.ClientID = clientID)) with
    | none => rw [hf] at hpr; cases hpr
    | some chunks =>
      rw [hf] at hpr
      injection hpr with hpr
      subst hpr
      obtain ⟨w1, w2⟩ := hinst r hr hrem chunks (List.mem_of_find?_eq_some hf)
      have := C4Network2ResChunkData.WellFormed_present_le chunks.Chunks w1
      simp only
      omega
  · rw [hrem] at hpr
    simp at hpr

theorem sums_bounds (H : List (Int × Int)) (h : ∀ pc ∈ H, 0 ≤ pc.1 ∧ pc.1 ≤ pc.2) :
    0 ≤ (H.map (fun pc => pc.1)).sum ∧
    (H.map (fun pc => pc.1)).sum ≤ (H.map (fun pc => pc.2)).sum := by
  induction H with
  | nil => simp
  | cons a H ih =>
    have ha := h a (List.mem_cons_self _ _)
    have := ih (fun x hx => h x (List.mem_cons_of_mem _ hx))
    simp only [List.map_cons, List.sum_cons]
    omega

/-- The progress of a client over entities whose records were installed by `OnStatus`,
as long as 100 times the sum of the chunk counts is a 32-bit value. -/
theorem GetClientProgress_exact (l : C4Network2ResList) (clientID : Int)
    (hinst : ∀ r ∈ l.pFirst, r.fRemoved = false → r.StatusInstalled)
    (hsmall : sumChunks clientID l.pFirst * 100 < 2147483648) :
    0 ≤ l.GetClientProgress clientID ∧ l.GetClientProgress clientID ≤ 100 ∧
    l.GetClientProgress clientID =
      (if sumChunks clientID l.pFirst = 0 then 100
       else sumPresent clientID l.pFirst * 100 / sumChunks clientID l.pFirst) ∧
    (holders clientID l.pFirst = [] → l.GetClientProgress clientID = 100) := by
  have hb := holders_bounds clientID l.pFirst hinst
  have hs := sums_bounds (holders clientID l.pFirst) hb
  have hP : sumPresent clientID l.pFirst = ((holders clientID l.pFirst).map (fun pc => pc.1)).sum :=
    rfl
  have hC : sumChunks clientID l.pFirst = ((holders clientID l.pFirst).map (fun pc => pc.2)).sum :=
    rfl
  rw [← hP, ← hC] at hs
  have hex := progressSums_exact clientID l.pFirst (0, 0)
    (fun pc h => ⟨(hb pc h).1, le_trans (hb pc h).1 (hb pc h).2⟩) (le_refl _) (le_refl _)
    (by simp only; omega) (by simp only; omega)
  simp only [zero_add] at hex
  have hval : l.GetClientProgress clientID =
      (if sumChunks clientID l.pFirst = 0 then 100
       else sumPresent clientID l.pFirst * 100 / sumChunks clientID l.pFirst) := by
    unfold GetClientProgress
    rw [hex]
    dsimp only
    by_cases h0 : sumChunks clientID l.pFirst = 0
    · rw [if_pos h0, if_pos h0]
    · rw [if_neg h0, if_neg h0]
      have hw : wrap32 (sumPresent clientID l.pFirst * 100) = sumPresent clientID l.pFirst * 100 :=
        wrap32_of_isInt32 _ (by omega) (by omega)
      rw [hw, Int.tdiv_eq_ediv (by omega) (by omega)]
      have hq0 : 0 ≤ sumPresent clientID l.pFirst * 100 / sumChunks clientID l.pFirst :=
        Int.ediv_nonneg (by omega) (by omega)
      have hq1 : sumPresent clientID l.pFirst * 100 / sumChunks clientID l.pFirst ≤ 100 :=
        Int.ediv_le_of_le_mul (by omega) (by omega)
      exact wrap32_of_isInt32 _ (by omega) (by omega)
  refine ⟨?_, ?_, hval, ?_⟩
  · rw [hval]
    split_ifs
    · omega
    · exact Int.ediv_nonneg (by omega) (by omega)
  · rw [hval]
    split_ifs with h0
    · omega
    · exact Int.ediv_le_of_le_mul (by omega) (by omega)
  · intro hnone
    rw [hval, hC, hnone]
    simp

end C4Network2ResList

namespace C4Network2Res

/-- `OnStatus` with a map of the chunk count of the entity, a 32-bit value that is not
negative, and without an overflowing sum `Start + Length` leaves every record with a
well-formed map over the chunk count of the entity. -/
theorem OnStatus_installed (lim : LoadLimits) (env : LoadEnv) (r : C4Network2Res)
    (D : C4Network2ResChunkData) (byClient : Int) (hnd : r.clientIDs.Nodup)
    (hinst : r.StatusInstalled) (hcnt : D.iChunkCnt = r.Chunks.iChunkCnt)
    (h0 : 0 ≤ D.iChunkCnt) (h32 : D.iChunkCnt < 2147483648)
    (hsum : ∀ x ∈ D.pChunkRanges, isInt32 (x.Start + x.Length)) :
    (OnStatus lim env r D byClient).StatusInstalled := by
  obtain ⟨_, u2, u3⟩ := OnStatus_upsert lim env r D byClient hnd hcnt
  have hch : (OnStatus lim env r D byClient).Chunks = r.Chunks := by
    unfold OnStatus
    dsimp only
    split_ifs
    · rfl
    · exact (StartLoad_same lim env _ byClient _).2.1
    · rfl
  obtain ⟨_, c2, c3, c4, c5, _, _⟩ := C4Network2ResChunkData.copy_filter_spec D
    C4Network2ResChunkData.new ⟨by omega, h32⟩ hsum
  intro c hc
  rw [hch]
  by_cases hid : c.ClientID = byClient
  · have hm : c ∈ (OnStatus lim env r D byClient).pCChunks.filter
        (fun c => decide (c.ClientID = byClient)) :=
      List.mem_filter.2 ⟨hc, by simpa using hid⟩
    rw [u2, List.mem_singleton] at hm
    subst hm
    refine ⟨⟨by rw [c2]; exact h0, by rw [c2]; exact h32, ?_, c3, c5⟩, c2.trans hcnt⟩
    intro x hx
    have := c4 x hx
    unfold C4Network2ResChunkData.rangeOk
    simp only
    rw [c2]
    omega
  · have hm : c ∈ (OnStatus lim env r D byClient).pCChunks.filter
        (fun c => decide (c.ClientID ≠ byClient)) :=
      List.mem_filter.2 ⟨hc, by simpa using hid⟩
    rw [u3] at hm
    exact hinst c (List.mem_filter.1 hm).1

end C4Network2Res

namespace C4Network2ResList

/-- C24 (failing input): an entity loads a file of 30000000 bytes in chunks of one byte;
peer 9 has announced the complete file through `OnStatus`, so the record of peer 9 holds
30000000 present chunks of 30000000.  The product `30000000 * 100` does not fit into 32
bits, and `GetClientProgress` returns -43 instead of 100. -/
theorem GetClientProgress_overflows :
    exampleManyChunks.fRemoved = false ∧
    exampleManyChunks.StatusInstalled ∧
    exampleManyChunks.GetClientProgress 9 = some (30000000, 30000000) ∧
    sumPresent 9 exampleProgressList.pFirst * 100 / sumChunks 9 exampleProgressList.pFirst
      = 100 ∧
    exampleProgressList.GetClientProgress 9 = -43 := by
  decide

/-- C24 (without overflow): for every catalogue in which the records of the entities that are
not removed hold well-formed maps over the chunk count of their entity, as `OnStatus`
installs them, and in which 100 times the sum of the chunk counts reported for the client
is a 32-bit value, `GetClientProgress` returns a value in `[0, 100]`: 100 when the chunk
counts sum to 0, in particular when no entity that is not removed has a record of the
client, otherwise `floor (100 * sum of present counters / sum of chunk counts)`. -/
theorem GetClientProgress_percentage (l : C4Network2ResList) (clientID : Int)
    (hinst : ∀ r ∈ l.pFirst, r.fRemoved = false → r.StatusInstalled)
    (hsmall : sumChunks clientID l.pFirst * 100 < 2147483648) :
    0 ≤ l.GetClientProgress clientID ∧ l.GetClientProgress clientID ≤ 100 ∧
    l.GetClientProgress clientID =
      (if sumChunks clientID l.pFirst = 0 then 100
       else sumPresent clientID l.pFirst * 100 / sumChunks clientID l.pFirst) ∧
    (holders clientID l.pFirst = [] → l.GetClientProgress clientID = 100) :=
  GetClientProgress_exact l clientID hinst hsmall

/-- C24 (without overflow, witness): two loading entities of three chunks each; peer 9 has
announced one chunk of the first and all three of the second: the progress of peer 9 is
`floor (400 / 6) = 66`, that of a peer without records 100. -/
theorem GetClientProgress_percentage_witness :
    exampleHalfwayList.GetClientProgress 9 = 66 ∧
    exampleHalfwayList.GetClientProgress 9 =
      (if sumChunks 9 exampleHalfwayList.pFirst = 0 then 100
       else sumPresent 9 exampleHalfwayList.pFirst * 100
         / sumChunks 9 exampleHalfwayList.pFirst) ∧
    exampleHalfwayList.GetClientProgress 5 = 100 :=
  ⟨by decide,
   (GetClientProgress_percentage exampleHalfwayList 9 (by decide) (by decide)).2.2.1,
   by decide⟩

end C4Network2ResList
